import Mathlib

/-!
Verification of the positional XML splicing engine of the docx-chart-updater
repository.  Buffers are modelled as `List Char`; Go string slicing
`s[a:b]` becomes `(l.drop a).take (b - a)`, `strings.Index` becomes
`firstIdx`, and the scanning loops become fuel-based structural
recursions (the fuel is always at least the buffer length plus one, which
is an upper bound on the number of iterations since every iteration
consumes at least one character).
-/

namespace Docx

/-- Buffers of bytes (document parts) are lists of characters. -/
abbrev Buf := List Char

/-- Conversion from string literals to buffers. -/
def s2l (s : String) : Buf := s.data

/-- Occurrence of `pat` in `l` at index `i` (as in Go `strings.Index` hits). -/
def occAt (pat l : Buf) (i : Nat) : Prop := pat <+: l.drop i

instance (pat l : Buf) (i : Nat) : Decidable (occAt pat l i) := by
  unfold occAt; infer_instance

/-- Embedding of Go `strings.Index`: index of the first occurrence of
`pat` in the buffer, `none` if there is none. -/
def firstIdx (pat : Buf) : Buf → Option Nat
  | [] => if pat.isEmpty then some 0 else none
  | c :: rest =>
    if pat.isPrefixOf (c :: rest) then some 0
    else (firstIdx pat rest).map (· + 1)

/-- Open tag of the exact form, Go `"<" + tag + ">"`. -/
def openEx (tag : Buf) : Buf := '<' :: (tag ++ ['>'])

/-- Open tag with attributes, Go `"<" + tag + " "`. -/
def openAt (tag : Buf) : Buf := '<' :: (tag ++ [' '])

/-- Closing tag, Go `"</" + tag + ">"`. -/
def closeT (tag : Buf) : Buf := '<' :: '/' :: (tag ++ ['>'])

/-- Errors of `findNthXMLBlock`: either fewer blocks than requested were
found (the error carries the count actually found, Go
`only %d %s element(s) found`), or an opening tag had no subsequent
closing tag (Go `unclosed <%s>`). -/
inductive FindErr where
  | notFound (count : Nat)
  | unclosed
deriving DecidableEq

/-- Embedding of the open-tag search of `findNthXMLBlock`: the index of
the earliest occurrence of `<tag>` or `<tag ` (Go computes `ie` and `ia`
and takes the smaller defined one). -/
def goOpen (tag : Buf) (l : Buf) : Option Nat :=
  match firstIdx (openEx tag) l, firstIdx (openAt tag) l with
  | some ie, some ia => some (if ie ≤ ia then ie else ia)
  | some ie, none => some ie
  | none, some ia => some ia
  | none, none => none

/-- The loop of Go `findNthXMLBlock` (src/unnamed/part_006), made
structural with fuel; one unit of fuel per loop iteration.  `off` is the
number of characters already consumed, `cnt` the number of complete
blocks already skipped. -/
def scanAux (tag : Buf) (n : Nat) : Nat → Buf → Nat → Nat → Except FindErr (Nat × Nat)
  | 0, _, _, cnt => .error (.notFound cnt)
  | fuel + 1, remaining, off, cnt =>
    match goOpen tag remaining with
    | none => .error (.notFound cnt)
    | some idx =>
      match firstIdx (closeT tag) (remaining.drop idx) with
      | none => .error .unclosed
      | some closeIdx =>
        if cnt + 1 = n then
          .ok (off + idx, off + idx + closeIdx + (closeT tag).length)
        else
          scanAux tag n fuel (remaining.drop (idx + closeIdx + (closeT tag).length))
            (off + idx + closeIdx + (closeT tag).length) (cnt + 1)

/-- Embedding of Go `findNthXMLBlock(content, tag, n)`: the half-open
span of the n-th non-nested `<tag>...</tag>` block. -/
def findNthXMLBlock (content tag : Buf) (n : Nat) : Except FindErr (Nat × Nat) :=
  scanAux tag n (content.length + 1) content 0 0

/-- Companion scan counting the complete blocks the Go loop would pass
over, together with a flag that is `false` when the scan would stop with
an `unclosed` error rather than running out of occurrences. -/
def countAux (tag : Buf) : Nat → Buf → Nat × Bool
  | 0, _ => (0, true)
  | fuel + 1, remaining =>
    match goOpen tag remaining with
    | none => (0, true)
    | some idx =>
      match firstIdx (closeT tag) (remaining.drop idx) with
      | none => (0, false)
      | some closeIdx =>
        let r := countAux tag fuel (remaining.drop (idx + closeIdx + (closeT tag).length))
        (r.1 + 1, r.2)

/-- Number of complete `<tag>...</tag>` blocks the scan of
`findNthXMLBlock` finds in the buffer. -/
def blockCount (content tag : Buf) : Nat :=
  (countAux tag (content.length + 1) content).1

/-- `true` when after the complete blocks no further opening tag is left
dangling without a closing tag. -/
def scanClean (content tag : Buf) : Bool :=
  (countAux tag (content.length + 1) content).2

/-- Extraction of a half-open span, Go slicing `content[s:e]`. -/
def extractSpan (content : Buf) (s e : Nat) : Buf := (content.drop s).take (e - s)

/-- Splicing `repl` into the half-open span `[s, e)`, the Go idiom
`content[:s] + repl + content[e:]`. -/
def splice (content : Buf) (s e : Nat) (repl : Buf) : Buf :=
  content.take s ++ repl ++ content.drop e

/-- Absence of any occurrence of `pat` in `l` (Go `strings.Index == -1`). -/
def NoOcc (pat l : Buf) : Prop := firstIdx pat l = none

instance (pat l : Buf) : Decidable (NoOcc pat l) := by
  unfold NoOcc; infer_instance

/-- No opening tag of either form occurs in the buffer. -/
def NoOpens (tag l : Buf) : Prop := NoOcc (openEx tag) l ∧ NoOcc (openAt tag) l

instance (tag l : Buf) : Decidable (NoOpens tag l) := by
  unfold NoOpens; infer_instance

/-- Well-formed block for the non-nesting scan: the buffer starts with an
opening tag, ends with the closing tag, and contains no other occurrence
of the closing tag (expressed as: the first occurrence of the closing tag
is the final one). -/
def CellWF (tag c : Buf) : Prop :=
  (occAt (openEx tag) c 0 ∨ occAt (openAt tag) c 0) ∧
  (closeT tag).length ≤ c.length ∧
  firstIdx (closeT tag) c = some (c.length - (closeT tag).length)

instance (tag c : Buf) : Decidable (CellWF tag c) := by
  unfold CellWF; infer_instance

/-- Sum of the lengths of a list of buffers. -/
def sumLen (ls : List Buf) : Nat := (ls.map List.length).sum

/-- A buffer assembled from a prefix with no opening tags, a list of
well-formed blocks, and a suffix with no opening tags. -/
def assemble (pre : Buf) (cells : List Buf) (post : Buf) : Buf :=
  pre ++ cells.flatten ++ post

/-- Segment well-formedness for one tag level. -/
def SegWF (tag pre : Buf) (cells : List Buf) (post : Buf) : Prop :=
  NoOpens tag pre ∧ (∀ c ∈ cells, CellWF tag c) ∧ NoOpens tag post ∧
  (post = [] ∨ post.head? = some '<')

instance (tag pre : Buf) (cells : List Buf) (post : Buf) :
    Decidable (SegWF tag pre cells post) := by
  unfold SegWF; infer_instance

/-- Decimal digits of a number (auxiliary, with fuel). -/
def decDigitsAux : Nat → Nat → Buf
  | 0, _ => []
  | fuel + 1, n =>
    if n = 0 then []
    else decDigitsAux fuel (n / 10) ++ [Char.ofNat (48 + n % 10)]

/-- Decimal rendering of a natural number, Go `fmt.Sprintf` with a `%d`
verb. -/
def decDigits (n : Nat) : Buf := if n = 0 then ['0'] else decDigitsAux n n

/-- The column-span property element injected by the horizontal merge, Go
`<w:gridSpan w:val="%d"/>`. -/
def gridSpanElt (span : Nat) : Buf :=
  s2l "<w:gridSpan w:val=\"" ++ decDigits span ++ s2l "\"/>"

/-- The vertical-merge start marker. -/
def vMergeRestart : Buf := s2l "<w:vMerge w:val=\"restart\"/>"

/-- The vertical-merge continuation marker. -/
def vMergeCont : Buf := s2l "<w:vMerge/>"

/-- Embedding of Go `injectTcPrElement`: insert `elt` into the cell's
`<w:tcPr>` block, creating one if absent. -/
def injectTcPrElement (cellContent elt : Buf) : Buf :=
  match firstIdx (s2l "<w:tcPr/>") cellContent with
  | some idx =>
    cellContent.take idx ++ s2l "<w:tcPr>" ++ elt ++ s2l "</w:tcPr>" ++
      cellContent.drop (idx + (s2l "<w:tcPr/>").length)
  | none =>
  match firstIdx (s2l "<w:tcPr>") cellContent with
  | some idx =>
    cellContent.take (idx + (s2l "<w:tcPr>").length) ++ elt ++
      cellContent.drop (idx + (s2l "<w:tcPr>").length)
  | none =>
  match firstIdx (s2l "<w:tcPr ") cellContent with
  | some idx =>
    match firstIdx ['>'] (cellContent.drop idx) with
    | some closeIdx =>
      cellContent.take (idx + closeIdx + 1) ++ elt ++ cellContent.drop (idx + closeIdx + 1)
    | none =>
      match firstIdx ['>'] cellContent with
      | some openEnd =>
        cellContent.take (openEnd + 1) ++ s2l "<w:tcPr>" ++ elt ++ s2l "</w:tcPr>" ++
          cellContent.drop (openEnd + 1)
      | none => cellContent
  | none =>
    match firstIdx ['>'] cellContent with
    | some openEnd =>
      cellContent.take (openEnd + 1) ++ s2l "<w:tcPr>" ++ elt ++ s2l "</w:tcPr>" ++
        cellContent.drop (openEnd + 1)
    | none => cellContent

/-- Analysis companion of `injectTcPrElement`: the cut position, the
length of the replaced segment, and the inserted string. -/
def injectSplit (cellContent elt : Buf) : Nat × Nat × Buf :=
  match firstIdx (s2l "<w:tcPr/>") cellContent with
  | some idx => (idx, (s2l "<w:tcPr/>").length, s2l "<w:tcPr>" ++ elt ++ s2l "</w:tcPr>")
  | none =>
  match firstIdx (s2l "<w:tcPr>") cellContent with
  | some idx => (idx + (s2l "<w:tcPr>").length, 0, elt)
  | none =>
  match firstIdx (s2l "<w:tcPr ") cellContent with
  | some idx =>
    match firstIdx ['>'] (cellContent.drop idx) with
    | some closeIdx => (idx + closeIdx + 1, 0, elt)
    | none =>
      match firstIdx ['>'] cellContent with
      | some openEnd => (openEnd + 1, 0, s2l "<w:tcPr>" ++ elt ++ s2l "</w:tcPr>")
      | none => (0, 0, [])
  | none =>
    match firstIdx ['>'] cellContent with
    | some openEnd => (openEnd + 1, 0, s2l "<w:tcPr>" ++ elt ++ s2l "</w:tcPr>")
    | none => (0, 0, [])

/-- Conditions on an inserted string that keep the surrounding block
well-formed: it starts with `'<'`, contains no occurrence of the scanned
tag's markers, and has no `'<'` in its final stretch (so no marker can
straddle out of it). -/
def InsOK (tag ins : Buf) : Prop :=
  ins.head? = some '<' ∧
  NoOcc (openEx tag) ins ∧ NoOcc (openAt tag) ins ∧ NoOcc (closeT tag) ins ∧
  (∀ i, i < ins.length → ins.length < i + 9 → ins[i]? ≠ some '<')

instance (tag ins : Buf) : Decidable (InsOK tag ins) := by
  unfold InsOK; infer_instance

/-- The cut made by `injectTcPrElement` falls after the opening tag and
before the closing tag of the cell. -/
def InjectFits (tag cellContent elt : Buf) : Prop :=
  (openEx tag).length ≤ (injectSplit cellContent elt).1 ∧
  (injectSplit cellContent elt).1 + (injectSplit cellContent elt).2.1 ≤
    cellContent.length - (closeT tag).length

instance (tag cellContent elt : Buf) : Decidable (InjectFits tag cellContent elt) := by
  unfold InjectFits; infer_instance

/-- Errors of the merge operations. -/
inductive MergeErr where
  | badRange
  | blockErr (e : FindErr)
deriving DecidableEq

/-- Embedding of Go `mergeTableCellsHorizontal` (src/merge.go). -/
def mergeTableCellsHorizontal (raw : Buf) (tableIndex row startCol endCol : Nat) :
    Except MergeErr Buf :=
  if endCol ≤ startCol then .error .badRange else
  match findNthXMLBlock raw (s2l "w:tbl") tableIndex with
  | .error e => .error (.blockErr e)
  | .ok (tblStart, tblEnd) =>
    let tblContent := extractSpan raw tblStart tblEnd
    match findNthXMLBlock tblContent (s2l "w:tr") row with
    | .error e => .error (.blockErr e)
    | .ok (trStart, trEnd) =>
      let trContent := extractSpan tblContent trStart trEnd
      match findNthXMLBlock trContent (s2l "w:tc") startCol with
      | .error e => .error (.blockErr e)
      | .ok (tcStart1, tcEnd1) =>
        let firstCell := extractSpan trContent tcStart1 tcEnd1
        match findNthXMLBlock trContent (s2l "w:tc") endCol with
        | .error e => .error (.blockErr e)
        | .ok (_, tcEndLast) =>
          let modifiedCell := injectTcPrElement firstCell
            (gridSpanElt (endCol - startCol + 1))
          let newTR := trContent.take tcStart1 ++ modifiedCell ++ trContent.drop tcEndLast
          let newTbl := tblContent.take trStart ++ newTR ++ tblContent.drop trEnd
          .ok (raw.take tblStart ++ newTbl ++ raw.drop tblEnd)

/-- One iteration of the vertical-merge loop body: locate the cell at
(tableIndex, row, col) and inject the given merge marker. -/
def vmergeStep (result : Buf) (tableIndex row col : Nat) (elt : Buf) :
    Except MergeErr Buf :=
  match findNthXMLBlock result (s2l "w:tbl") tableIndex with
  | .error e => .error (.blockErr e)
  | .ok (tblStart, tblEnd) =>
    let tblContent := extractSpan result tblStart tblEnd
    match findNthXMLBlock tblContent (s2l "w:tr") row with
    | .error e => .error (.blockErr e)
    | .ok (trStart, trEnd) =>
      let trContent := extractSpan tblContent trStart trEnd
      match findNthXMLBlock trContent (s2l "w:tc") col with
      | .error e => .error (.blockErr e)
      | .ok (tcStart, tcEnd) =>
        let cellContent := extractSpan trContent tcStart tcEnd
        let modifiedCell := injectTcPrElement cellContent elt
        let newTR := trContent.take tcStart ++ modifiedCell ++ trContent.drop tcEnd
        let newTbl := tblContent.take trStart ++ newTR ++ tblContent.drop trEnd
        .ok (result.take tblStart ++ newTbl ++ result.drop tblEnd)

/-- The vertical-merge row loop, iterating the listed rows in order and
re-locating the table on the evolving buffer at each step. -/
def vmergeLoop (tableIndex col startRow : Nat) : List Nat → Buf → Except MergeErr Buf
  | [], result => .ok result
  | row :: rows, result =>
    match vmergeStep result tableIndex row col
      (if row = startRow then vMergeRestart else vMergeCont) with
    | .error e => .error e
    | .ok next => vmergeLoop tableIndex col startRow rows next

/-- Embedding of Go `mergeTableCellsVertical` (src/merge.go). -/
def mergeTableCellsVertical (raw : Buf) (tableIndex startRow endRow col : Nat) :
    Except MergeErr Buf :=
  if endRow ≤ startRow then .error .badRange
  else vmergeLoop tableIndex col startRow
    (List.range' startRow (endRow - startRow + 1)) raw

/-- All buffers in the list start with `'<'`. -/
def LtHeads (cells : List Buf) : Prop := ∀ c ∈ cells, c.head? = some '<'

instance (cells : List Buf) : Decidable (LtHeads cells) := by
  unfold LtHeads; infer_instance

/-- Splits off the leading run of decimal digits, Go regexp group `(\d+)`. -/
def digitRun : Buf → Buf × Buf
  | [] => ([], [])
  | c :: rest =>
    if c.isDigit then
      match digitRun rest with
      | (ds, r) => (c :: ds, r)
    else ([], c :: rest)

/-- Numeric value of a decimal digit string, Go `strconv.Atoi` on an
all-digit string. -/
def digitsToNat (ds : Buf) : Nat :=
  ds.foldl (fun acc c => acc * 10 + (c.toNat - 48)) 0

/-- The match scan of Go `revisionIDPattern` (regexp `w:id="(\d+)"`,
src/trackchanges.go): leftmost non-overlapping matches, each yielding the
value of its digit group. -/
def revIdScan : Nat → Buf → List Nat
  | 0, _ => []
  | _ + 1, [] => []
  | fuel + 1, c :: t =>
    if (s2l "w:id=\"").isPrefixOf (c :: t) then
      match digitRun ((c :: t).drop 6) with
      | ([], _) => revIdScan fuel t
      | (_ :: _, []) => revIdScan fuel t
      | (d :: ds, e :: rest2) =>
        if e = '"' then digitsToNat (d :: ds) :: revIdScan fuel rest2
        else revIdScan fuel t
    else revIdScan fuel t

/-- The largest value representable in Go's 64-bit `int`; `strconv.Atoi`
fails on digit strings whose value exceeds it. -/
def int64Max : Nat := 9223372036854775807

/-- Embedding of Go `getNextRevisionID` (src/trackchanges.go): the maximum
matched revision id (ids on which `strconv.Atoi` fails are skipped) plus
one. -/
def getNextRevisionID (docXML : Buf) : Nat :=
  ((revIdScan (docXML.length + 1) docXML).filter
    (fun id => id ≤ int64Max)).foldl max 0 + 1

/-- A `w:id="(\d+)"` group at the head of the buffer: its value and the
length of the matched text. -/
def idGroupAt (l : Buf) : Option (Nat × Nat) :=
  if (s2l "w:id=\"").isPrefixOf l then
    match digitRun (l.drop 6) with
    | ([], _) => none
    | (_ :: _, []) => none
    | (d :: ds, e :: _) =>
      if e = '"' then some (digitsToNat (d :: ds), 6 + (d :: ds).length + 1)
      else none
  else none

/-- Greedy search for `[^>]*w:id="(\d+)"` after an opening-tag match: try
the longest candidate gap first, down to the empty gap, Go regexp greedy
`[^>]*` semantics. -/
def greedyIdAux (after : Buf) : Nat → Option (Nat × Nat × Nat)
  | 0 =>
    match idGroupAt after with
    | some (v, len) => some (0, v, len)
    | none => none
  | j + 1 =>
    match idGroupAt (after.drop (j + 1)) with
    | some (v, len) => some (j + 1, v, len)
    | none => greedyIdAux after j

/-- The match scan of Go `getNextNoteID`'s pattern
(regexp `<w:%s[^>]*w:id="(\d+)"`, src/unnamed/part_001): leftmost
non-overlapping matches, each yielding its digit-group value. -/
def noteIdScan (openPat : Buf) : Nat → Buf → List Nat
  | 0, _ => []
  | _ + 1, [] => []
  | fuel + 1, c :: t =>
    if openPat.isPrefixOf (c :: t) then
      match greedyIdAux ((c :: t).drop openPat.length)
        (((c :: t).drop openPat.length).takeWhile (fun ch => ch != '>')).length with
      | some (j, v, len) =>
        v :: noteIdScan openPat fuel (((c :: t).drop openPat.length).drop (j + len))
      | none => noteIdScan openPat fuel t
    else noteIdScan openPat fuel t

/-- Embedding of Go `getNextNoteID` (src/unnamed/part_001): the maximum
note id matched by the namespace pattern (ids on which `strconv.Atoi`
fails are skipped) plus one. -/
def getNextNoteID (raw : Buf) (noteType : Buf) : Nat :=
  ((noteIdScan (s2l "<w:" ++ noteType) (raw.length + 1) raw).filter
    (fun id => id ≤ int64Max)).foldl max 0 + 1

/-- The state an `Updater` owns for the main document part: the bytes of
`word/document.xml`. -/
structure Updater where
  document : Buf
deriving DecidableEq

/-- Error results surfaced by the exported `Updater` operations. -/
inductive OpErr where
  | nilUpdater
  | invalidArg (msg : Buf)
  | opFailed (e : MergeErr)
  | insertFailed
deriving DecidableEq

/-- Embedding of Go exported `MergeTableCellsHorizontal` (src/merge.go):
nil-receiver check, eager argument validation, then the internal merge on
the stored document bytes, committed only on success. -/
def MergeTableCellsHorizontalOp (u : Option Updater)
    (tableIndex row startCol endCol : Int) : Option Updater × Option OpErr :=
  match u with
  | none => (none, some .nilUpdater)
  | some st =>
    if tableIndex < 1 then (some st, some (.invalidArg (s2l "tableIndex must be >= 1")))
    else if row < 1 then (some st, some (.invalidArg (s2l "row must be >= 1")))
    else if startCol < 1 then (some st, some (.invalidArg (s2l "startCol must be >= 1")))
    else if endCol ≤ startCol then
      (some st, some (.invalidArg (s2l "endCol must be greater than startCol")))
    else
      match mergeTableCellsHorizontal st.document tableIndex.toNat row.toNat
        startCol.toNat endCol.toNat with
      | .error e => (some st, some (.opFailed e))
      | .ok updated => (some ⟨updated⟩, none)

/-- Embedding of Go exported `MergeTableCellsVertical` (src/merge.go):
nil-receiver check, eager argument validation, then the internal merge on
the stored document bytes, committed only on success. -/
def MergeTableCellsVerticalOp (u : Option Updater)
    (tableIndex startRow endRow col : Int) : Option Updater × Option OpErr :=
  match u with
  | none => (none, some .nilUpdater)
  | some st =>
    if tableIndex < 1 then (some st, some (.invalidArg (s2l "tableIndex must be >= 1")))
    else if col < 1 then (some st, some (.invalidArg (s2l "col must be >= 1")))
    else if startRow < 1 then (some st, some (.invalidArg (s2l "startRow must be >= 1")))
    else if endRow ≤ startRow then
      (some st, some (.invalidArg (s2l "endRow must be greater than startRow")))
    else
      match mergeTableCellsVertical st.document tableIndex.toNat startRow.toNat
        endRow.toNat col.toNat with
      | .error e => (some st, some (.opFailed e))
      | .ok updated => (some ⟨updated⟩, none)

/-- Non-overlapping leftmost occurrence count of a literal pattern, Go
`regexp.FindAllIndex` on a literal regexp. -/
def patCount (pat : Buf) : Nat → Buf → Nat
  | 0, _ => 0
  | fuel + 1, l =>
    match firstIdx pat l with
    | none => 0
    | some i => 1 + patCount pat fuel (l.drop (i + pat.length))

/-- Embedding of Go exported `GetTableCount` (src/unnamed/part_012):
nil-receiver check, then the number of `<w:tbl>` matches in the stored
document bytes. -/
def GetTableCountOp (u : Option Updater) : Int × Option OpErr :=
  match u with
  | none => (0, some .nilUpdater)
  | some st =>
    ((patCount (s2l "<w:tbl>") (st.document.length + 1) st.document : Nat), none)

/-- Options of Go `InsertTrackedText` (src/trackchanges.go).  Go
`time.Time` values are modelled by their formatted RFC3339 strings, the
empty buffer standing for the zero time. -/
structure TrackedInsertOptions where
  text : Buf
  author : Buf
  date : Buf
  style : Buf
  bold : Bool
  italic : Bool
  underline : Bool

/-- Embedding of Go exported `InsertTrackedText` (src/trackchanges.go):
nil-receiver check, eager validation, option defaulting, revision-id
allocation, then payload generation and positioned insertion.  The payload
generator `gen` and the paragraph-insertion helper `insertAt` are the
operation's collaborators (the latter's source is not part of this
repository), and `now` stands for the formatted current time. -/
def InsertTrackedTextOp (gen : TrackedInsertOptions → Nat → Buf)
    (insertAt : Buf → Buf → Except FindErr Buf) (now : Buf)
    (u : Option Updater) (opts : TrackedInsertOptions) :
    Option Updater × Option OpErr :=
  match u with
  | none => (none, some .nilUpdater)
  | some st =>
    if opts.text = [] then (some st, some (.invalidArg (s2l "text cannot be empty")))
    else
      let author := if opts.author = [] then s2l "Author" else opts.author
      let date := if opts.date = [] then now else opts.date
      let style := if opts.style = [] then s2l "Normal" else opts.style
      let startID := getNextRevisionID st.document
      let trackedXML := gen
        ⟨opts.text, author, date, style, opts.bold, opts.italic, opts.underline⟩ startID
      match insertAt st.document trackedXML with
      | .error _ => (some st, some .insertFailed)
      | .ok updated => (some ⟨updated⟩, none)

/-- The concrete buffer used to instantiate the next-id theorem: one
footnote element with id 2 containing a revision element with id 7. -/
def docC5 : Buf := s2l "<w:footnote w:id=\"2\"><w:ins w:id=\"7\"/></w:footnote>"

/-- The symbolic insertion positions of Go `TOCOptions.Position`. -/
inductive InsertPosition where
  | positionBeginning
  | positionEnd
  | positionAfterText
  | positionBeforeText
deriving DecidableEq

/-- Errors of `insertTOCAtPosition`. -/
inductive TOCErr where
  | noBody
  | anchorRequired
  | helperFailed
deriving DecidableEq

/-- Fuel-based core of `lastIdx`: remembers the most recent occurrence
while scanning left to right. -/
def lastIdxAux (pat : Buf) : Nat → Buf → Nat → Option Nat → Option Nat
  | 0, _, _, acc => acc
  | fuel + 1, l, base, acc =>
    match firstIdx pat l with
    | none => acc
    | some i => lastIdxAux pat fuel (l.drop (i + 1)) (base + i + 1) (some (base + i))

/-- Embedding of Go `bytes.LastIndex`: index of the last occurrence of
`pat` in the buffer, `none` if there is none. -/
def lastIdx (pat l : Buf) : Option Nat := lastIdxAux pat (l.length + 1) l 0 none

/-- Embedding of Go `insertTOCAtPosition` (src/unnamed/part_004): choose
the insertion offset for the requested position, then splice the TOC
fragment there.  The body-content-start and anchor-paragraph locators are
the collaborators `findBodyStart` and `findParaRange` (their sources are
not part of this repository). -/
def insertTOCAtPosition (findBodyStart : Buf → Option Nat)
    (findParaRange : Buf → Buf → Option (Nat × Nat))
    (docXML tocXML : Buf) (position : InsertPosition) (anchor : Buf) :
    Except TOCErr Buf :=
  match position with
  | .positionBeginning =>
    match findBodyStart docXML with
    | none => .error .helperFailed
    | some p => .ok (docXML.take p ++ tocXML ++ docXML.drop p)
  | .positionEnd =>
    match firstIdx (s2l "</w:body>") docXML with
    | none => .error .noBody
    | some bodyEnd =>
      match lastIdx (s2l "<w:sectPr") (docXML.take bodyEnd) with
      | some p => .ok (docXML.take p ++ tocXML ++ docXML.drop p)
      | none => .ok (docXML.take bodyEnd ++ tocXML ++ docXML.drop bodyEnd)
  | .positionAfterText =>
    if anchor = [] then .error .anchorRequired
    else
      match findParaRange docXML anchor with
      | none => .error .helperFailed
      | some (_, paraEnd) => .ok (docXML.take paraEnd ++ tocXML ++ docXML.drop paraEnd)
  | .positionBeforeText =>
    if anchor = [] then .error .anchorRequired
    else
      match findParaRange docXML anchor with
      | none => .error .helperFailed
      | some (paraStart, _) =>
        .ok (docXML.take paraStart ++ tocXML ++ docXML.drop paraStart)

/-- The concrete body used to instantiate the End-position planning
theorem: a paragraph followed by a final section-properties block. -/
def docC7 : Buf := s2l
  "<w:document><w:body><w:p>A</w:p><w:sectPr><w:pgSz/></w:sectPr></w:body></w:document>"

/-- The element the vertical merge injects into row `r`: the restart
marker on the start row, the continuation marker on every later row. -/
def vElt (sr r : Nat) : Buf := if r = sr then vMergeRestart else vMergeCont

/-- The concrete cells, rows and table for the vertical-merge witness. -/
def cellA : Buf := s2l "<w:tc><w:p>A</w:p></w:tc>"

/-- The second concrete cell for the vertical-merge witness. -/
def cellB : Buf := s2l "<w:tc><w:p>B</w:p></w:tc>"

/-- The witness table's per-row cell lists. -/
def cellsRC4 (r : Nat) : List Buf := [if r = 1 then cellA else cellB]

/-- The witness table's rows. -/
def rowC4 (r : Nat) : Buf := assemble (s2l "<w:tr>") (cellsRC4 r) (s2l "</w:tr>")

/-- The witness document's single table. -/
def tblC4 : Buf := assemble (s2l "<w:tbl>") [rowC4 1, rowC4 2] (s2l "</w:tbl>")

/-- Embedding of Go `strings.Contains`: the pattern occurs somewhere in
the buffer. -/
def containsSub (l pat : Buf) : Bool := (firstIdx pat l).isSome

/-- Embedding of Go `strings.Replace` with count 1: replace the first
occurrence of the pattern, if any. -/
def strReplace1 (l pat repl : Buf) : Buf :=
  match firstIdx pat l with
  | none => l
  | some i => l.take i ++ repl ++ l.drop (i + pat.length)

/-- The match scan of the relationship-id namespace pattern
`Id="rId<digits>"`, in the style of the other id scans. -/
def relIdScan : Nat → Buf → List Nat
  | 0, _ => []
  | _ + 1, [] => []
  | fuel + 1, c :: t =>
    if (s2l "Id=\"rId").isPrefixOf (c :: t) then
      match digitRun ((c :: t).drop 7) with
      | ([], _) => relIdScan fuel t
      | (_ :: _, []) => relIdScan fuel t
      | (d :: ds, e :: rest2) =>
        if e = '"' then digitsToNat (d :: ds) :: relIdScan fuel rest2
        else relIdScan fuel t
    else relIdScan fuel t

/-- Modelled from the spec: `getNextRelIDFromFile` allocates the next
relationship id via the IDAllocator scoped to the `.rels` buffer —
`nextId` scans the buffer with the namespace pattern `Id="rId<digits>"`
and returns max+1, or 1 when nothing matches; the allocated id is
`rId<next>`.  (The function's Go source is not part of this repository;
only its call sites are.) -/
def getNextRelIDFromFile (rels : Buf) : Buf :=
  s2l "rId" ++ decDigits ((relIdScan (rels.length + 1) rels).foldl max 0 + 1)

/-- The relationship element Go `addNoteRelationship` inserts,
`<Relationship Id="%s" Type=".../%s" Target="%s"/>`. -/
def relEntry (relID relType filename : Buf) : Buf :=
  s2l "<Relationship Id=\"" ++ relID ++
    s2l "\" Type=\"http://schemas.openxmlformats.org/officeDocument/2006/relationships/" ++
    relType ++ s2l "\" Target=\"" ++ filename ++ s2l "\"/>"

/-- Embedding of Go `addNoteRelationship` (src/unnamed/part_001) over the
`.rels` buffer.  The Go method returns only an error; the second component
observes the id the call allocates and embeds into the buffer — `none` on
the already-present path, which allocates nothing and returns the bare nil
error without any id. -/
def addNoteRelationship (rels filename relType : Buf) : Buf × Option Buf :=
  if containsSub rels filename then (rels, none)
  else
    let relID := getNextRelIDFromFile rels
    (strReplace1 rels (s2l "</Relationships>")
      (relEntry relID relType filename ++ s2l "</Relationships>"), some relID)

/-- The concrete `.rels` buffer used for the registration example. -/
def relsC6 : Buf := s2l "<Relationships></Relationships>"

/-- Fuel-based collector of the text content of the `<w:t>` elements of a
paragraph, in document order. -/
def wtTextAux : Nat → Buf → Buf
  | 0, _ => []
  | fuel + 1, l =>
    match goOpen (s2l "w:t") l with
    | none => []
    | some i =>
      match firstIdx ['>'] (l.drop i) with
      | none => []
      | some g =>
        match firstIdx (closeT (s2l "w:t")) ((l.drop i).drop (g + 1)) with
        | none => []
        | some e =>
          ((l.drop i).drop (g + 1)).take e ++
            wtTextAux fuel (((l.drop i).drop (g + 1)).drop (e + (closeT (s2l "w:t")).length))

/-- The plain text of a paragraph: the concatenation of its runs' text,
markup ignored. -/
def wtText (l : Buf) : Buf := wtTextAux (l.length + 1) l

/-- Modelled from the spec: the anchor resolver walks the paragraph
elements in document order and returns the span of the first paragraph
whose run-concatenated plain text contains the anchor. -/
def anchorScanAux (docXML anchor : Buf) : Nat → Nat → Except FindErr (Nat × Nat)
  | 0, _ => .error (.notFound 0)
  | fuel + 1, n =>
    match findNthXMLBlock docXML (s2l "w:p") n with
    | .error e => .error e
    | .ok (ps, pe) =>
      if containsSub (wtText (extractSpan docXML ps pe)) anchor then .ok (ps, pe)
      else anchorScanAux docXML anchor fuel (n + 1)

/-- Modelled from the spec: `findParagraphRangeByAnchor` concatenates, for
each paragraph element, the plain text of all its runs in document order,
tests the anchor substring against that concatenation, and returns the
span of the first matching paragraph.  (The function's Go source is not
part of this repository; only its call sites are.) -/
def findParagraphRangeByAnchor (docXML anchor : Buf) : Except FindErr (Nat × Nat) :=
  anchorScanAux docXML anchor (docXML.length + 1) 1

/-- The concrete document for the split-run anchor example: a first
paragraph reading `Nope` and a second built from the runs `Hello`, ` Wo`
and `rld`. -/
def docC8 : Buf := s2l
  "<w:document><w:body><w:p><w:r><w:t>Nope</w:t></w:r></w:p><w:p><w:r><w:t>Hello</w:t></w:r><w:r><w:t> Wo</w:t></w:r><w:r><w:t>rld</w:t></w:r></w:p></w:body></w:document>"

/-- The concrete two-row document used to exhibit a vertical merge failing
partway through. -/
def docC9 : Buf := s2l
  "<w:document><w:body><w:tbl><w:tr><w:tc><w:p>A</w:p></w:tc></w:tr><w:tr><w:tc><w:p>B</w:p></w:tc></w:tr></w:tbl></w:body></w:document>"

theorem occAt_length {pat l : Buf} {i : Nat} (h : occAt pat l i)
    (hne : pat ≠ []) : i + pat.length ≤ l.length := by
  have hle : pat.length ≤ (l.drop i).length := h.length_le
  have hpos : 0 < pat.length := List.length_pos.mpr hne
  simp only [List.length_drop] at hle
  omega

theorem occAt_cons_succ {pat : Buf} {c : Char} {rest : Buf} {j : Nat} :
    occAt pat (c :: rest) (j + 1) ↔ occAt pat rest j := by
  simp [occAt, List.drop_succ_cons]

theorem occAt_zero {pat l : Buf} : occAt pat l 0 ↔ pat <+: l := by
  simp [occAt]

theorem firstIdx_isOcc {pat l : Buf} {i : Nat} (h : firstIdx pat l = some i) :
    occAt pat l i := by
  induction l generalizing i with
  | nil =>
    by_cases hp : pat.isEmpty
    · simp [firstIdx, hp] at h
      subst h
      simp [occAt, List.isEmpty_iff.mp hp]
    · simp [firstIdx, hp] at h
  | cons c rest ih =>
    by_cases hp : pat.isPrefixOf (c :: rest)
    · simp [firstIdx, hp] at h
      subst h
      exact occAt_zero.mpr (List.isPrefixOf_iff_prefix.mp hp)
    · simp [firstIdx, hp] at h
      obtain ⟨j, hj, rfl⟩ := h
      exact occAt_cons_succ.mpr (ih hj)

theorem firstIdx_least {pat l : Buf} {i : Nat} (h : firstIdx pat l = some i) :
    ∀ j, j < i → ¬ occAt pat l j := by
  induction l generalizing i with
  | nil =>
    by_cases hp : pat.isEmpty
    · simp [firstIdx, hp] at h; omega
    · simp [firstIdx, hp] at h
  | cons c rest ih =>
    by_cases hp : pat.isPrefixOf (c :: rest)
    · simp [firstIdx, hp] at h; omega
    · simp [firstIdx, hp] at h
      obtain ⟨i0, hi0, rfl⟩ := h
      intro j hj
      cases j with
      | zero =>
        intro hocc
        exact hp (List.isPrefixOf_iff_prefix.mpr (occAt_zero.mp hocc))
      | succ j0 =>
        intro hocc
        exact ih hi0 j0 (by omega) (occAt_cons_succ.mp hocc)

theorem firstIdx_none {pat l : Buf} (h : firstIdx pat l = none) :
    ∀ j, ¬ occAt pat l j := by
  induction l with
  | nil =>
    by_cases hp : pat.isEmpty
    · simp [firstIdx, hp] at h
    · intro j hocc
      have hnil : pat = [] := by
        have h2 := hocc
        simp [occAt] at h2
        exact h2
      simp [List.isEmpty_iff] at hp
      exact hp hnil
  | cons c rest ih =>
    by_cases hp : pat.isPrefixOf (c :: rest)
    · simp [firstIdx, hp] at h
    · simp [firstIdx, hp] at h
      intro j hocc
      cases j with
      | zero => exact hp (List.isPrefixOf_iff_prefix.mpr (occAt_zero.mp hocc))
      | succ j0 => exact ih h j0 (occAt_cons_succ.mp hocc)

theorem firstIdx_exists_of_occ {pat l : Buf} {j : Nat} (h : occAt pat l j) :
    ∃ i, firstIdx pat l = some i ∧ i ≤ j := by
  cases hf : firstIdx pat l with
  | none => exact absurd h (firstIdx_none hf j)
  | some i =>
    refine ⟨i, rfl, ?_⟩
    by_contra hlt
    exact firstIdx_least hf j (by omega) h

theorem occAt_drop {pat content : Buf} {off i : Nat} :
    occAt pat (content.drop off) i ↔ occAt pat content (off + i) := by
  unfold occAt
  rw [List.drop_drop, Nat.add_comm]

theorem goOpen_occ {tag l : Buf} {idx : Nat} (h : goOpen tag l = some idx) :
    occAt (openEx tag) l idx ∨ occAt (openAt tag) l idx := by
  unfold goOpen at h
  cases he : firstIdx (openEx tag) l with
  | none =>
    cases ha : firstIdx (openAt tag) l with
    | none => simp [he, ha] at h
    | some ia => simp [he, ha] at h; subst h; exact Or.inr (firstIdx_isOcc ha)
  | some ie =>
    cases ha : firstIdx (openAt tag) l with
    | none => simp [he, ha] at h; subst h; exact Or.inl (firstIdx_isOcc he)
    | some ia =>
      simp [he, ha] at h
      by_cases hle : ie ≤ ia
      · simp [hle] at h; subst h; exact Or.inl (firstIdx_isOcc he)
      · simp [hle] at h; subst h; exact Or.inr (firstIdx_isOcc ha)

theorem goOpen_least {tag l : Buf} {idx : Nat} (h : goOpen tag l = some idx) :
    ∀ j, j < idx → ¬ occAt (openEx tag) l j ∧ ¬ occAt (openAt tag) l j := by
  intro j hj
  unfold goOpen at h
  cases he : firstIdx (openEx tag) l with
  | none =>
    cases ha : firstIdx (openAt tag) l with
    | none => simp [he, ha] at h
    | some ia =>
      simp [he, ha] at h; subst h
      exact ⟨firstIdx_none he j, firstIdx_least ha j hj⟩
  | some ie =>
    cases ha : firstIdx (openAt tag) l with
    | none =>
      simp [he, ha] at h; subst h
      exact ⟨firstIdx_least he j hj, firstIdx_none ha j⟩
    | some ia =>
      simp [he, ha] at h
      by_cases hle : ie ≤ ia
      · simp [hle] at h; subst h
        exact ⟨firstIdx_least he j hj, firstIdx_least ha j (by omega)⟩
      · simp [hle] at h; subst h
        exact ⟨firstIdx_least he j (by omega), firstIdx_least ha j hj⟩

theorem goOpen_none {tag l : Buf} (h : goOpen tag l = none) :
    ∀ j, ¬ occAt (openEx tag) l j ∧ ¬ occAt (openAt tag) l j := by
  intro j
  unfold goOpen at h
  cases he : firstIdx (openEx tag) l with
  | none =>
    cases ha : firstIdx (openAt tag) l with
    | none => exact ⟨firstIdx_none he j, firstIdx_none ha j⟩
    | some ia => simp [he, ha] at h
  | some ie =>
    cases ha : firstIdx (openAt tag) l with
    | none => simp [he, ha] at h
    | some ia => simp [he, ha] at h

theorem goOpen_exists {tag l : Buf} {j : Nat}
    (h : occAt (openEx tag) l j ∨ occAt (openAt tag) l j) :
    ∃ i, goOpen tag l = some i ∧ i ≤ j := by
  cases hg : goOpen tag l with
  | none =>
    rcases h with h | h
    · exact absurd h (goOpen_none hg j).1
    · exact absurd h (goOpen_none hg j).2
  | some i =>
    refine ⟨i, rfl, ?_⟩
    by_contra hlt
    rcases h with h | h
    · exact (goOpen_least hg j (by omega)).1 h
    · exact (goOpen_least hg j (by omega)).2 h

theorem closeT_length (tag : Buf) : (closeT tag).length = tag.length + 3 := by
  simp [closeT]

theorem openEx_length (tag : Buf) : (openEx tag).length = tag.length + 2 := by
  simp [openEx]

theorem openAt_length (tag : Buf) : (openAt tag).length = tag.length + 2 := by
  simp [openAt]

/-- Shape of a successful scan: the returned span starts at a located
opening tag, ends just after a located closing tag, and lies inside the
buffer. -/
theorem scanAux_ok (tag : Buf) (n : Nat) (content : Buf) :
    ∀ fuel remaining off cnt s e, remaining = content.drop off →
    off ≤ content.length →
    scanAux tag n fuel remaining off cnt = .ok (s, e) →
    off ≤ s ∧ s + (closeT tag).length ≤ e ∧ e ≤ content.length ∧
      (occAt (openEx tag) content s ∨ occAt (openAt tag) content s) ∧
      occAt (closeT tag) content (e - (closeT tag).length) := by
  intro fuel
  induction fuel with
  | zero => intro remaining off cnt s e _ _ h; simp [scanAux] at h
  | succ fuel ih =>
    intro remaining off cnt s e hrem hoff h
    rw [scanAux] at h
    split at h
    · simp at h
    next idx hgo =>
      split at h
      · simp at h
      next ci hfc =>
        have hopen : occAt (openEx tag) content (off + idx) ∨
            occAt (openAt tag) content (off + idx) := by
          rcases goOpen_occ hgo with ho | ho
          · exact Or.inl (occAt_drop.mp (hrem ▸ ho))
          · exact Or.inr (occAt_drop.mp (hrem ▸ ho))
        have hclose : occAt (closeT tag) content (off + idx + ci) := by
          have h1 : occAt (closeT tag) (remaining.drop idx) ci := firstIdx_isOcc hfc
          have h2 : remaining.drop idx = content.drop (off + idx) := by
            rw [hrem, List.drop_drop, Nat.add_comm]
          rw [h2] at h1
          exact occAt_drop.mp h1
        have hcb : (off + idx + ci) + (closeT tag).length ≤ content.length :=
          occAt_length hclose (by simp [closeT])
        by_cases hcnt : cnt + 1 = n
        · simp [hcnt] at h
          obtain ⟨hs, he⟩ := h
          subst hs; subst he
          refine ⟨by omega, by omega, by omega, ?_, ?_⟩
          · simpa using hopen
          · have : off + idx + ci + (closeT tag).length - (closeT tag).length =
                off + idx + ci := by omega
            simpa [this] using hclose
        · simp [hcnt] at h
          have hrem2 : remaining.drop (idx + ci + (closeT tag).length) =
              content.drop (off + (idx + ci + (closeT tag).length)) := by
            rw [hrem, List.drop_drop, Nat.add_comm]
          have hoff2 : off + (idx + ci + (closeT tag).length) ≤ content.length := by
            omega
          have := ih (remaining.drop (idx + ci + (closeT tag).length))
            (off + (idx + ci + (closeT tag).length)) (cnt + 1) s e hrem2 hoff2
            (by
              have harr : off + idx + ci + (closeT tag).length =
                  off + (idx + ci + (closeT tag).length) := by omega
              rw [← harr]
              exact h)
          exact ⟨by omega, this.2.1, this.2.2.1, this.2.2.2.1, this.2.2.2.2⟩

/-- Relation between the scan of `findNthXMLBlock` and the block count:
when at least `n - cnt` more complete blocks exist the scan succeeds, and
otherwise it fails with `notFound` carrying the count actually found, or
with `unclosed` when a dangling opening tag remains. -/
theorem scanAux_count (tag : Buf) (n : Nat) :
    ∀ fuel remaining off cnt, remaining.length < fuel → cnt < n →
    (n ≤ cnt + (countAux tag fuel remaining).1 →
      ∃ s e, scanAux tag n fuel remaining off cnt = .ok (s, e)) ∧
    (cnt + (countAux tag fuel remaining).1 < n →
      scanAux tag n fuel remaining off cnt =
        (if (countAux tag fuel remaining).2 then
          .error (.notFound (cnt + (countAux tag fuel remaining).1))
        else .error .unclosed)) := by
  intro fuel
  induction fuel with
  | zero => intro remaining off cnt hlen hcnt; omega
  | succ fuel ih =>
    intro remaining off cnt hlen hcnt
    cases hgo : goOpen tag remaining with
    | none =>
      constructor
      · intro hle
        simp only [countAux, hgo] at hle
        omega
      · intro _
        simp only [scanAux, countAux, hgo]
        simp
    | some idx =>
      cases hfc : firstIdx (closeT tag) (remaining.drop idx) with
      | none =>
        constructor
        · intro hle
          simp only [countAux, hgo, hfc] at hle
          omega
        · intro _
          simp only [scanAux, countAux, hgo, hfc]
          simp
      | some ci =>
        have hocc : occAt (closeT tag) (remaining.drop idx) ci := firstIdx_isOcc hfc
        have hlenpos : 1 ≤ (closeT tag).length := by simp [closeT]
        have hlen2 : (remaining.drop (idx + ci + (closeT tag).length)).length < fuel := by
          have hb := occAt_length hocc (by simp [closeT])
          simp only [List.length_drop] at hb ⊢
          omega
        by_cases hn : cnt + 1 = n
        · constructor
          · intro _
            refine ⟨off + idx, off + idx + ci + (closeT tag).length, ?_⟩
            simp only [scanAux, hgo, hfc, if_pos hn]
          · intro hlt
            exfalso
            simp only [countAux, hgo, hfc] at hlt
            omega
        · have ihr := ih (remaining.drop (idx + ci + (closeT tag).length))
            (off + idx + ci + (closeT tag).length) (cnt + 1) hlen2 (by omega)
          constructor
          · intro hle
            simp only [countAux, hgo, hfc] at hle
            obtain ⟨s, e, hs⟩ := ihr.1 (by omega)
            refine ⟨s, e, ?_⟩
            simp only [scanAux, hgo, hfc, if_neg hn]
            exact hs
          · intro hlt
            simp only [countAux, hgo, hfc] at hlt ⊢
            simp only [scanAux, hgo, hfc, if_neg hn]
            rw [ihr.2 (by omega)]
            have harith : cnt + 1 +
                (countAux tag fuel (remaining.drop (idx + ci + (closeT tag).length))).1 =
                cnt + ((countAux tag fuel (remaining.drop (idx + ci + (closeT tag).length))).1 + 1) := by
              omega
            rw [harith]

theorem prefix_extract {pat content : Buf} {s e : Nat} (h : occAt pat content s)
    (hm : pat.length ≤ e - s) : pat <+: extractSpan content s e := by
  unfold occAt at h
  unfold extractSpan
  obtain ⟨t, ht⟩ := h
  rw [← ht, List.take_append_eq_append_take, List.take_of_length_le hm]
  exact List.prefix_append _ _

theorem suffix_extract {pat content : Buf} {s e : Nat}
    (h : occAt pat content (e - pat.length)) (hs : s + pat.length ≤ e) :
    pat <:+ extractSpan content s e := by
  unfold occAt at h
  unfold extractSpan
  have hk : (e - pat.length - s) + pat.length = e - s := by omega
  have hdd : (content.drop s).drop (e - pat.length - s) = content.drop (e - pat.length) := by
    rw [List.drop_drop]
    congr 1
    omega
  rw [← hk, List.take_add, hdd]
  obtain ⟨t, ht⟩ := h
  have htake : (content.drop (e - pat.length)).take pat.length = pat := by
    rw [← ht, List.take_append_eq_append_take, List.take_of_length_le (le_refl _)]
    simp
  rw [htake]
  exact List.suffix_append _ _

/-- C1: for every buffer, tag and `n` with `1 ≤ n ≤` the number of blocks
found by the scan, `findNthXMLBlock` returns a half-open span inside the
buffer whose content starts with `<tag>` or `<tag ` (whichever the scan
located) and ends with `</tag>`; for every larger `n` it returns the
not-found error carrying the count actually found, except that when a
located opening tag has no subsequent closing tag it returns the
unclosed-tag error. -/
theorem findNthXMLBlock_spec (content tag : Buf) (n : Nat) (hn : 1 ≤ n) :
    (n ≤ blockCount content tag →
      ∃ s e, findNthXMLBlock content tag n = .ok (s, e) ∧
        s ≤ e ∧ e ≤ content.length ∧
        (openEx tag <+: extractSpan content s e ∨
          openAt tag <+: extractSpan content s e) ∧
        closeT tag <:+ extractSpan content s e) ∧
    (blockCount content tag < n →
      findNthXMLBlock content tag n =
        if scanClean content tag then .error (.notFound (blockCount content tag))
        else .error .unclosed) := by
  have hc := scanAux_count tag n (content.length + 1) content 0 0 (by omega) (by omega)
  constructor
  · intro hle
    obtain ⟨s, e, hs⟩ := hc.1 (by simpa [blockCount] using hle)
    have hshape := scanAux_ok tag n content (content.length + 1) content 0 0 s e
      (by simp) (by simp) hs
    obtain ⟨h0s, hse, hec, hopen, hclose⟩ := hshape
    have hct := closeT_length tag
    refine ⟨s, e, by simpa [findNthXMLBlock] using hs, by omega, hec, ?_, ?_⟩
    · rcases hopen with h | h
      · exact Or.inl (prefix_extract h (by rw [openEx_length]; omega))
      · exact Or.inr (prefix_extract h (by rw [openAt_length]; omega))
    · exact suffix_extract hclose hse
  · intro hlt
    have := hc.2 (by simpa [blockCount] using hlt)
    simpa [findNthXMLBlock, blockCount, scanClean] using this

/-- Witness for C1 on a concrete two-block buffer. -/
theorem findNthXMLBlock_spec_witness :
    ∃ s e, findNthXMLBlock (s2l "a<w:p>1</w:p>b<w:p>2</w:p>") (s2l "w:p") 2 = .ok (s, e) ∧
      s ≤ e ∧ e ≤ (s2l "a<w:p>1</w:p>b<w:p>2</w:p>").length ∧
      (openEx (s2l "w:p") <+: extractSpan (s2l "a<w:p>1</w:p>b<w:p>2</w:p>") s e ∨
        openAt (s2l "w:p") <+: extractSpan (s2l "a<w:p>1</w:p>b<w:p>2</w:p>") s e) ∧
      closeT (s2l "w:p") <:+ extractSpan (s2l "a<w:p>1</w:p>b<w:p>2</w:p>") s e :=
  (findNthXMLBlock_spec (s2l "a<w:p>1</w:p>b<w:p>2</w:p>") (s2l "w:p") 2 (by decide)).1
    (by decide)

/-- C2: splicing content byte-identical to a span located by
`findNthXMLBlock` back into that span reproduces the original buffer. -/
theorem locate_splice_roundtrip (content tag : Buf) (n : Nat) (s e : Nat)
    (h : findNthXMLBlock content tag n = .ok (s, e)) :
    splice content s e (extractSpan content s e) = content := by
  have hshape := scanAux_ok tag n content (content.length + 1) content 0 0 s e
    (by simp) (by simp) h
  obtain ⟨-, hse, hec, -, -⟩ := hshape
  have hsle : s ≤ e := le_trans (Nat.le_add_right s _) hse
  unfold splice extractSpan
  have h1 : content.take s ++ (content.drop s).take (e - s) = content.take e := by
    rw [← List.take_add]
    congr 1
    omega
  rw [h1]
  exact List.take_append_drop e content

/-- Witness for C2 on a concrete buffer. -/
theorem locate_splice_roundtrip_witness :
    splice (s2l "a<w:p>1</w:p>b") 1 13 (extractSpan (s2l "a<w:p>1</w:p>b") 1 13) =
      s2l "a<w:p>1</w:p>b" :=
  locate_splice_roundtrip (s2l "a<w:p>1</w:p>b") (s2l "w:p") 1 1 13 rfl

theorem occAt_append_left {pat a : Buf} (b : Buf) {i : Nat} (h : occAt pat a i) :
    occAt pat (a ++ b) i := by
  unfold occAt at h ⊢
  rw [List.drop_append_eq_append_drop]
  exact h.trans (List.prefix_append _ _)

theorem occAt_append_right (a : Buf) {pat b : Buf} {j : Nat} (h : occAt pat b j) :
    occAt pat (a ++ b) (a.length + j) := by
  unfold occAt at h ⊢
  rw [List.drop_append_eq_append_drop, List.drop_of_length_le (by omega),
    Nat.add_comm a.length j, Nat.add_sub_cancel]
  simpa using h

theorem occAt_append_elim_left {pat a b : Buf} {i : Nat} (h : occAt pat (a ++ b) i)
    (hle : i + pat.length ≤ a.length) : occAt pat a i := by
  unfold occAt at h ⊢
  rw [List.drop_append_eq_append_drop] at h
  have hpl : pat = ((a.drop i) ++ b.drop (i - a.length)).take pat.length := by
    obtain ⟨t, ht⟩ := h
    rw [← ht, List.take_append_eq_append_take, List.take_of_length_le (le_refl _)]
    simp
  rw [List.take_append_eq_append_take] at hpl
  have hz : pat.length - (a.drop i).length = 0 := by
    simp only [List.length_drop]
    omega
  rw [hz, List.take_zero, List.append_nil] at hpl
  rw [hpl]
  exact List.take_prefix _ _

theorem occAt_append_elim_right {pat a b : Buf} {i : Nat} (h : occAt pat (a ++ b) i)
    (hge : a.length ≤ i) : occAt pat b (i - a.length) := by
  unfold occAt at h ⊢
  rw [List.drop_append_eq_append_drop, List.drop_of_length_le hge] at h
  simpa using h

theorem occAt_getElem {pat l : Buf} {i : Nat} (h : occAt pat l i) {j : Nat}
    (hj : j < pat.length) : l[i + j]? = some pat[j] := by
  unfold occAt at h
  obtain ⟨t, ht⟩ := h
  have h1 : (l.drop i)[j]? = some pat[j] := by
    rw [← ht, List.getElem?_append_left hj, List.getElem?_eq_getElem hj]
  rw [List.getElem?_drop] at h1
  exact h1

theorem occAt_head {c0 : Char} {tl l : Buf} {i : Nat} (h : occAt (c0 :: tl) l i) :
    l[i]? = some c0 := by
  have h2 := occAt_getElem h (show 0 < (c0 :: tl).length by simp)
  simpa using h2

/-- A pattern of the shape `'<' :: ptl` with no `'<'` in `ptl` cannot
straddle the boundary between `a` and a continuation that is empty or
starts with `'<'`. -/
theorem occAt_no_straddle {c : Char} {ptl a b : Buf} {i : Nat}
    (hc : c ∉ ptl) (hb : b = [] ∨ b.head? = some c)
    (h : occAt (c :: ptl) (a ++ b) i) (hi : i < a.length) :
    i + (c :: ptl).length ≤ a.length := by
  by_contra hstr
  have hk : a.length - i < (c :: ptl).length := by omega
  have h1 : (a ++ b)[i + (a.length - i)]? = some ((c :: ptl)[a.length - i]) :=
    occAt_getElem h hk
  have hik : i + (a.length - i) = a.length := by omega
  rw [hik, List.getElem?_append_right (le_refl _), Nat.sub_self] at h1
  rcases hb with rfl | hhead
  · simp at h1
  · rw [List.head?_eq_getElem?] at hhead
    rw [hhead] at h1
    have hge : 1 ≤ a.length - i := by omega
    have hmem : (c :: ptl)[a.length - i] ∈ ptl := by
      obtain ⟨k, hk2⟩ : ∃ k, a.length - i = k + 1 := ⟨a.length - i - 1, by omega⟩
      simp only [hk2, List.getElem_cons_succ]
      exact List.getElem_mem _
    have hceq : c = (c :: ptl)[a.length - i] := Option.some.inj h1
    rw [← hceq] at hmem
    exact hc hmem

/-- Two occurrences of `'<'`-headed patterns with `'<'`-free tails cannot
properly overlap: an occurrence of the first pattern starting inside an
occurrence of the second starts exactly at it. -/
theorem occAt_confined {c : Char} {ptl qtl l : Buf} {m i : Nat}
    (hq : c ∉ qtl) (hocc : occAt (c :: qtl) l m) (h : occAt (c :: ptl) l i)
    (him : m ≤ i) (hi : i < m + (c :: qtl).length) : i = m := by
  by_contra hne
  have hk : i - m < (c :: qtl).length := by omega
  have h1 : l[m + (i - m)]? = some ((c :: qtl)[i - m]) := occAt_getElem hocc hk
  have h2 : l[i + 0]? = some ((c :: ptl)[0]) := occAt_getElem h (by simp)
  have hmi : m + (i - m) = i := by omega
  rw [hmi] at h1
  rw [Nat.add_zero] at h2
  rw [h2] at h1
  have hge : 1 ≤ i - m := by omega
  have hmem : (c :: qtl)[i - m] ∈ qtl := by
    obtain ⟨k, hk2⟩ : ∃ k, i - m = k + 1 := ⟨i - m - 1, by omega⟩
    simp only [hk2, List.getElem_cons_succ]
    exact List.getElem_mem _
  have hc2 : (c :: ptl)[0] = c := rfl
  rw [hc2] at h1
  have hceq : c = (c :: qtl)[i - m] := Option.some.inj h1
  rw [← hceq] at hmem
  exact hq hmem

theorem NoOcc_iff {pat l : Buf} : NoOcc pat l ↔ ∀ i, ¬ occAt pat l i := by
  constructor
  · exact firstIdx_none
  · intro h
    cases hf : firstIdx pat l with
    | none => exact hf
    | some i => exact absurd (firstIdx_isOcc hf) (h i)

theorem firstIdx_eq_some_of {pat l : Buf} {m : Nat} (hocc : occAt pat l m)
    (hleast : ∀ j, j < m → ¬ occAt pat l j) : firstIdx pat l = some m := by
  obtain ⟨i, hi, hile⟩ := firstIdx_exists_of_occ hocc
  rcases Nat.lt_or_ge i m with hlt | hge
  · exact absurd (firstIdx_isOcc hi) (hleast i hlt)
  · have : i = m := by omega
    rw [← this]
    exact hi

theorem openEx_tail_no_lt {tag : Buf} (htag : '<' ∉ tag) : '<' ∉ tag ++ ['>'] := by
  intro h
  rcases List.mem_append.mp h with h | h
  · exact htag h
  · simp at h

theorem openAt_tail_no_lt {tag : Buf} (htag : '<' ∉ tag) : '<' ∉ tag ++ [' '] := by
  intro h
  rcases List.mem_append.mp h with h | h
  · exact htag h
  · simp at h

theorem closeT_tail_no_lt {tag : Buf} (htag : '<' ∉ tag) : '<' ∉ '/' :: (tag ++ ['>']) := by
  intro h
  rcases List.mem_cons.mp h with h | h
  · simp at h
  · exact openEx_tail_no_lt htag h

theorem cellWF_head {tag c : Buf} (h : CellWF tag c) : c.head? = some '<' := by
  rcases h.1 with hoc | hoc
  · obtain ⟨t, ht⟩ := occAt_zero.mp hoc
    rw [← ht]
    rfl
  · obtain ⟨t, ht⟩ := occAt_zero.mp hoc
    rw [← ht]
    rfl

theorem cellWF_ne_nil {tag c : Buf} (h : CellWF tag c) : c ≠ [] := by
  intro hc
  have := cellWF_head h
  rw [hc] at this
  simp at this

/-- No occurrence of a `'<'`-headed pattern in the concatenation of two
occurrence-free buffers whose joint is empty or `'<'`-headed. -/
theorem noOcc_append {ptl a b : Buf} (hc : '<' ∉ ptl)
    (hb : b = [] ∨ b.head? = some '<') (hna : NoOcc ('<' :: ptl) a)
    (hnb : NoOcc ('<' :: ptl) b) : NoOcc ('<' :: ptl) (a ++ b) := by
  rw [NoOcc_iff]
  intro i hocc
  rcases Nat.lt_or_ge i a.length with hlt | hge
  · have hconf := occAt_no_straddle hc hb hocc hlt
    exact (NoOcc_iff.mp hna i) (occAt_append_elim_left hocc hconf)
  · exact (NoOcc_iff.mp hnb (i - a.length)) (occAt_append_elim_right hocc hge)

/-- The first opening tag of a prefix-free buffer followed by a
well-formed block is located exactly at the end of the prefix. -/
theorem goOpen_pre_cell {tag pre c : Buf} (htag : '<' ∉ tag)
    (hpre : NoOpens tag pre) (hcell : CellWF tag c) (X : Buf) :
    goOpen tag (pre ++ (c ++ X)) = some pre.length := by
  have hhead : (c ++ X).head? = some '<' := by
    cases hcx : c with
    | nil => exact absurd hcx (cellWF_ne_nil hcell)
    | cons y ys =>
      have := cellWF_head hcell
      rw [hcx] at this
      simpa using this
  have hnostr : ∀ (P : Buf), P = openEx tag ∨ P = openAt tag →
      ∀ j, j < pre.length → ¬ occAt P (pre ++ (c ++ X)) j := by
    intro P hP j hj hocc
    rcases hP with rfl | rfl
    · rw [openEx] at hocc
      have hcf := occAt_no_straddle (openEx_tail_no_lt htag) (Or.inr hhead) hocc hj
      rw [← openEx] at hocc
      have hin : occAt (openEx tag) pre j := by
        apply occAt_append_elim_left hocc
        simpa [openEx] using hcf
      exact (NoOcc_iff.mp hpre.1 j) hin
    · rw [openAt] at hocc
      have hcf := occAt_no_straddle (openAt_tail_no_lt htag) (Or.inr hhead) hocc hj
      rw [← openAt] at hocc
      have hin : occAt (openAt tag) pre j := by
        apply occAt_append_elim_left hocc
        simpa [openAt] using hcf
      exact (NoOcc_iff.mp hpre.2 j) hin
  unfold goOpen
  rcases hcell.1 with hoc | hoc
  · have hocL : occAt (openEx tag) (pre ++ (c ++ X)) pre.length := by
      have h1 : occAt (openEx tag) (c ++ X) 0 := occAt_append_left X hoc
      have h2 := occAt_append_right pre h1
      simpa using h2
    have hEx : firstIdx (openEx tag) (pre ++ (c ++ X)) = some pre.length :=
      firstIdx_eq_some_of hocL (hnostr _ (Or.inl rfl))
    rw [hEx]
    cases hA : firstIdx (openAt tag) (pre ++ (c ++ X)) with
    | none => rfl
    | some ia =>
      have hia : pre.length ≤ ia := by
        by_contra hlt
        exact hnostr _ (Or.inr rfl) ia (by omega) (firstIdx_isOcc hA)
      simp [hia]
  · have hocL : occAt (openAt tag) (pre ++ (c ++ X)) pre.length := by
      have h1 : occAt (openAt tag) (c ++ X) 0 := occAt_append_left X hoc
      have h2 := occAt_append_right pre h1
      simpa using h2
    have hAt : firstIdx (openAt tag) (pre ++ (c ++ X)) = some pre.length :=
      firstIdx_eq_some_of hocL (hnostr _ (Or.inr rfl))
    rw [hAt]
    cases hE : firstIdx (openEx tag) (pre ++ (c ++ X)) with
    | none => rfl
    | some ie =>
      have hie : pre.length ≤ ie := by
        by_contra hlt
        exact hnostr _ (Or.inl rfl) ie (by omega) (firstIdx_isOcc hE)
      rcases Nat.lt_or_ge pre.length ie with hlt | hge
      · simp [Nat.not_le.mpr hlt]
      · have hie2 : ie = pre.length := by omega
        simp [hie2]

/-- The first closing tag after the start of a well-formed block is the
block's own final closing tag. -/
theorem close_at_cell {tag c : Buf} (hcell : CellWF tag c) (X : Buf) :
    firstIdx (closeT tag) (c ++ X) = some (c.length - (closeT tag).length) := by
  have hocc : occAt (closeT tag) (c ++ X) (c.length - (closeT tag).length) :=
    occAt_append_left X (firstIdx_isOcc hcell.2.2)
  apply firstIdx_eq_some_of hocc
  intro j hj hocc2
  have hle : j + (closeT tag).length ≤ c.length := by
    have h1 := hcell.2.1
    omega
  have hin : occAt (closeT tag) c j := occAt_append_elim_left hocc2 hle
  exact firstIdx_least hcell.2.2 j hj hin

theorem assemble_cons (pre c : Buf) (cs : List Buf) (post : Buf) :
    assemble pre (c :: cs) post = pre ++ (c ++ (cs.flatten ++ post)) := by
  simp [assemble, List.append_assoc]

theorem assemble_nil_pre (cs : List Buf) (post : Buf) :
    assemble [] cs post = cs.flatten ++ post := by
  simp [assemble]

theorem sumLen_nil : sumLen [] = 0 := rfl

theorem sumLen_cons (c : Buf) (cs : List Buf) :
    sumLen (c :: cs) = c.length + sumLen cs := by
  simp [sumLen]

theorem goOpen_none_seg {tag pre post : Buf} (htag : '<' ∉ tag)
    (hpre : NoOpens tag pre) (hpost : NoOpens tag post)
    (hh : post = [] ∨ post.head? = some '<') :
    goOpen tag (pre ++ post) = none := by
  have hEx : NoOcc (openEx tag) (pre ++ post) :=
    noOcc_append (openEx_tail_no_lt htag) hh hpre.1 hpost.1
  have hAt : NoOcc (openAt tag) (pre ++ post) :=
    noOcc_append (openAt_tail_no_lt htag) hh hpre.2 hpost.2
  unfold goOpen
  rw [hEx, hAt]

/-- Central characterization: on a buffer assembled from a prefix without
opening tags, a list of well-formed blocks, and a suffix without opening
tags, the scan of `findNthXMLBlock` returns exactly the spans of the
blocks, in order, and runs out cleanly after the last one. -/
theorem scanAux_seg (tag : Buf) (htag : '<' ∉ tag) (n : Nat) (post : Buf)
    (hpost : NoOpens tag post) (hh : post = [] ∨ post.head? = some '<') :
    ∀ cells pre fuel off cnt,
    NoOpens tag pre → (∀ c ∈ cells, CellWF tag c) →
    (assemble pre cells post).length < fuel → cnt < n →
    (n ≤ cnt + cells.length →
      scanAux tag n fuel (assemble pre cells post) off cnt =
        .ok (off + pre.length + sumLen (cells.take (n - cnt - 1)),
             off + pre.length + sumLen (cells.take (n - cnt)))) ∧
    (cnt + cells.length < n →
      scanAux tag n fuel (assemble pre cells post) off cnt =
        .error (.notFound (cnt + cells.length))) := by
  intro cells
  induction cells with
  | nil =>
    intro pre fuel off cnt hpre _ hfuel hcnt
    constructor
    · intro hle
      simp at hle
      omega
    · intro _
      cases fuel with
      | zero => simp [assemble] at hfuel
      | succ f =>
        have hb : assemble pre [] post = pre ++ post := by simp [assemble]
        rw [hb] at hfuel ⊢
        rw [scanAux, goOpen_none_seg htag hpre hpost hh]
        simp
  | cons c cs ih =>
    intro pre fuel off cnt hpre hcells hfuel hcnt
    have hcell : CellWF tag c := hcells c (List.mem_cons_self c cs)
    have hcs : ∀ x ∈ cs, CellWF tag x := fun x hx => hcells x (List.mem_cons_of_mem c hx)
    have hctlen : (closeT tag).length ≤ c.length := hcell.2.1
    have hctpos : 1 ≤ (closeT tag).length := by simp [closeT]
    cases fuel with
    | zero => simp [assemble] at hfuel
    | succ f =>
      rw [assemble_cons] at hfuel ⊢
      have hlen : (pre ++ (c ++ (cs.flatten ++ post))).length =
          pre.length + c.length + (cs.flatten ++ post).length := by
        simp [Nat.add_assoc]
      have hdrop1 : (pre ++ (c ++ (cs.flatten ++ post))).drop pre.length =
          c ++ (cs.flatten ++ post) := List.drop_left _ _
      simp only [scanAux, goOpen_pre_cell htag hpre hcell, hdrop1, close_at_cell hcell]
      have hadv : pre.length + (c.length - (closeT tag).length) + (closeT tag).length =
          pre.length + c.length := by omega
      by_cases hn : cnt + 1 = n
      · rw [if_pos hn]
        constructor
        · intro _
          have h1 : n - cnt - 1 = 0 := by omega
          have h2 : n - cnt = 1 := by omega
          rw [h1, h2]
          simp [sumLen_cons, sumLen_nil]
          omega
        · intro hlt
          simp at hlt
          omega
      · rw [if_neg hn]
        have hdrop2 : (pre ++ (c ++ (cs.flatten ++ post))).drop
            (pre.length + (c.length - (closeT tag).length) + (closeT tag).length) =
            cs.flatten ++ post := by
          rw [hadv]
          have : pre ++ (c ++ (cs.flatten ++ post)) = (pre ++ c) ++ (cs.flatten ++ post) := by
            simp [List.append_assoc]
          rw [this]
          have hl : pre.length + c.length = (pre ++ c).length := by simp
          rw [hl]
          exact List.drop_left _ _
        rw [hdrop2]
        have hfuel2 : (assemble [] cs post).length < f := by
          rw [assemble_nil_pre]
          rw [hlen] at hfuel
          omega
        have ihr := ih [] f (off + pre.length + (c.length - (closeT tag).length) +
          (closeT tag).length) (cnt + 1) ⟨rfl, rfl⟩ hcs hfuel2 (by omega)
        rw [assemble_nil_pre] at ihr
        have hoff : off + pre.length + (c.length - (closeT tag).length) + (closeT tag).length =
            off + pre.length + c.length := by omega
        constructor
        · intro hle
          have hle2 : n ≤ cnt + 1 + cs.length := by
            simp at hle
            omega
          rw [ihr.1 hle2]
          have hk : ∃ k, n - cnt - 1 = k + 1 := ⟨n - cnt - 2, by omega⟩
          obtain ⟨k, hk⟩ := hk
          have hk2 : n - cnt = k + 2 := by omega
          have hk3 : n - (cnt + 1) - 1 = k := by omega
          have hk4 : n - (cnt + 1) = k + 1 := by omega
          rw [hk, hk2, hk3, hk4]
          simp [List.take_succ_cons, sumLen_cons]
          constructor <;> omega
        · intro hlt
          have hlt2 : cnt + 1 + cs.length < n := by
            simp at hlt
            omega
          rw [ihr.2 hlt2]
          have : cnt + 1 + cs.length = cnt + (c :: cs).length := by simp; omega
          rw [this]

/-- Companion count characterization on assembled buffers. -/
theorem countAux_seg (tag : Buf) (htag : '<' ∉ tag) (post : Buf)
    (hpost : NoOpens tag post) (hh : post = [] ∨ post.head? = some '<') :
    ∀ cells pre fuel,
    NoOpens tag pre → (∀ c ∈ cells, CellWF tag c) →
    (assemble pre cells post).length < fuel →
    countAux tag fuel (assemble pre cells post) = (cells.length, true) := by
  intro cells
  induction cells with
  | nil =>
    intro pre fuel hpre _ hfuel
    cases fuel with
    | zero => simp [assemble] at hfuel
    | succ f =>
      have hb : assemble pre [] post = pre ++ post := by simp [assemble]
      rw [hb] at hfuel ⊢
      rw [countAux, goOpen_none_seg htag hpre hpost hh]
      simp
  | cons c cs ih =>
    intro pre fuel hpre hcells hfuel
    have hcell : CellWF tag c := hcells c (List.mem_cons_self c cs)
    have hcs : ∀ x ∈ cs, CellWF tag x := fun x hx => hcells x (List.mem_cons_of_mem c hx)
    have hctlen : (closeT tag).length ≤ c.length := hcell.2.1
    have hctpos : 1 ≤ (closeT tag).length := by simp [closeT]
    cases fuel with
    | zero => simp [assemble] at hfuel
    | succ f =>
      rw [assemble_cons] at hfuel ⊢
      have hlen : (pre ++ (c ++ (cs.flatten ++ post))).length =
          pre.length + c.length + (cs.flatten ++ post).length := by
        simp [Nat.add_assoc]
      have hdrop1 : (pre ++ (c ++ (cs.flatten ++ post))).drop pre.length =
          c ++ (cs.flatten ++ post) := List.drop_left _ _
      simp only [countAux, goOpen_pre_cell htag hpre hcell, hdrop1, close_at_cell hcell]
      have hdrop2 : (pre ++ (c ++ (cs.flatten ++ post))).drop
          (pre.length + (c.length - (closeT tag).length) + (closeT tag).length) =
          cs.flatten ++ post := by
        have hadv : pre.length + (c.length - (closeT tag).length) + (closeT tag).length =
            pre.length + c.length := by omega
        rw [hadv]
        have hasc : pre ++ (c ++ (cs.flatten ++ post)) = (pre ++ c) ++ (cs.flatten ++ post) := by
          simp [List.append_assoc]
        rw [hasc]
        have hl : pre.length + c.length = (pre ++ c).length := by simp
        rw [hl]
        exact List.drop_left _ _
      simp only [hdrop2]
      have hfuel2 : (assemble [] cs post).length < f := by
        rw [assemble_nil_pre]
        rw [hlen] at hfuel
        omega
      have ihr := ih [] f ⟨rfl, rfl⟩ hcs hfuel2
      rw [assemble_nil_pre] at ihr
      rw [ihr]
      simp

theorem findNth_assemble {tag pre post : Buf} {cells : List Buf} (htag : '<' ∉ tag)
    (hwf : SegWF tag pre cells post) {k : Nat} (hk1 : 1 ≤ k) (hk2 : k ≤ cells.length) :
    findNthXMLBlock (assemble pre cells post) tag k =
      .ok (pre.length + sumLen (cells.take (k - 1)),
           pre.length + sumLen (cells.take k)) := by
  obtain ⟨hpre, hcells, hpost, hh⟩ := hwf
  have h := (scanAux_seg tag htag k post hpost hh cells pre
    ((assemble pre cells post).length + 1) 0 0 hpre hcells (by omega) (by omega)).1
    (by omega)
  simpa [findNthXMLBlock] using h

theorem blockCount_assemble {tag pre post : Buf} {cells : List Buf} (htag : '<' ∉ tag)
    (hwf : SegWF tag pre cells post) :
    blockCount (assemble pre cells post) tag = cells.length ∧
      scanClean (assemble pre cells post) tag = true := by
  obtain ⟨hpre, hcells, hpost, hh⟩ := hwf
  have h := countAux_seg tag htag post hpost hh cells pre
    ((assemble pre cells post).length + 1) hpre hcells (by omega)
  unfold blockCount scanClean
  rw [h]
  exact ⟨rfl, rfl⟩

theorem sumLen_take_succ {cells : List Buf} {k : Nat} (hk : k < cells.length) :
    sumLen (cells.take (k + 1)) = sumLen (cells.take k) + (cells.get ⟨k, hk⟩).length := by
  have h : cells.take (k + 1) = cells.take k ++ [cells.get ⟨k, hk⟩] := by
    rw [List.take_succ, List.getElem?_eq_getElem hk]
    rfl
  unfold sumLen
  rw [h, List.map_append, List.sum_append]
  simp

theorem assemble_split {pre post : Buf} (cells : List Buf) (k : Nat)
    (hk : k < cells.length) :
    assemble pre cells post =
      (pre ++ (cells.take k).flatten) ++
        (cells.get ⟨k, hk⟩ ++ ((cells.drop (k + 1)).flatten ++ post)) := by
  unfold assemble
  have h1 : cells = cells.take k ++ (cells.get ⟨k, hk⟩ :: cells.drop (k + 1)) := by
    have := List.take_append_drop k cells
    rw [List.drop_eq_getElem_cons hk] at this
    exact this.symm
  calc pre ++ cells.flatten ++ post
      = pre ++ (cells.take k ++ (cells.get ⟨k, hk⟩ :: cells.drop (k + 1))).flatten ++ post := by
        rw [← h1]
    _ = (pre ++ (cells.take k).flatten) ++
        (cells.get ⟨k, hk⟩ ++ ((cells.drop (k + 1)).flatten ++ post)) := by
        rw [List.flatten_append]
        simp only [List.flatten_cons]
        simp [List.append_assoc]

theorem len_pre_flatten {pre : Buf} {cells : List Buf} {k : Nat} :
    (pre ++ (cells.take k).flatten).length = pre.length + sumLen (cells.take k) := by
  simp [List.length_flatten, sumLen]

theorem extract_assemble {pre post : Buf} {cells : List Buf} {k : Nat}
    (hk : k < cells.length) :
    extractSpan (assemble pre cells post) (pre.length + sumLen (cells.take k))
      (pre.length + sumLen (cells.take (k + 1))) = cells.get ⟨k, hk⟩ := by
  rw [assemble_split cells k hk]
  unfold extractSpan
  have h1 : pre.length + sumLen (cells.take k) = (pre ++ (cells.take k).flatten).length :=
    len_pre_flatten.symm
  rw [h1, List.drop_left]
  have h2 : pre.length + sumLen (cells.take (k + 1)) -
      (pre ++ (cells.take k).flatten).length = (cells.get ⟨k, hk⟩).length := by
    rw [len_pre_flatten, sumLen_take_succ hk]
    omega
  rw [h2]
  exact List.take_left _ _

theorem splice_assemble {pre post : Buf} {cells : List Buf} {k : Nat}
    (hk : k < cells.length) (repl : Buf) :
    splice (assemble pre cells post) (pre.length + sumLen (cells.take k))
      (pre.length + sumLen (cells.take (k + 1))) repl =
      assemble pre (cells.take k ++ repl :: cells.drop (k + 1)) post := by
  unfold splice
  have htk : (assemble pre cells post).take (pre.length + sumLen (cells.take k)) =
      pre ++ (cells.take k).flatten := by
    rw [assemble_split cells k hk, len_pre_flatten.symm, List.take_left]
  have hdp : (assemble pre cells post).drop (pre.length + sumLen (cells.take (k + 1))) =
      (cells.drop (k + 1)).flatten ++ post := by
    have h3 : assemble pre cells post =
        ((pre ++ (cells.take k).flatten) ++ cells.get ⟨k, hk⟩) ++
          ((cells.drop (k + 1)).flatten ++ post) := by
      rw [assemble_split cells k hk]
      simp [List.append_assoc]
    rw [h3]
    have h4 : pre.length + sumLen (cells.take (k + 1)) =
        ((pre ++ (cells.take k).flatten) ++ cells.get ⟨k, hk⟩).length := by
      simp [List.length_flatten, sumLen, sumLen_take_succ hk]
      have := sumLen_take_succ hk
      simp [sumLen] at this
      omega
    rw [h4, List.drop_left]
  rw [htk, hdp]
  unfold assemble
  rw [List.flatten_append]
  simp [List.append_assoc]

theorem injectTcPr_eq_split (cellContent elt : Buf) :
    injectTcPrElement cellContent elt =
      cellContent.take (injectSplit cellContent elt).1 ++
        (injectSplit cellContent elt).2.2 ++
        cellContent.drop ((injectSplit cellContent elt).1 +
          (injectSplit cellContent elt).2.1) := by
  unfold injectTcPrElement injectSplit
  cases h1 : firstIdx (s2l "<w:tcPr/>") cellContent with
  | some idx => simp [List.append_assoc]
  | none =>
    cases h2 : firstIdx (s2l "<w:tcPr>") cellContent with
    | some idx => simp [List.append_assoc]
    | none =>
      cases h3 : firstIdx (s2l "<w:tcPr ") cellContent with
      | some idx =>
        cases h4 : firstIdx ['>'] (cellContent.drop idx) with
        | some ci => simp [h4, List.append_assoc]
        | none =>
          cases h5 : firstIdx ['>'] cellContent with
          | some oe => simp [h4, h5, List.append_assoc]
          | none => simp [h4, h5]
      | none =>
        cases h5 : firstIdx ['>'] cellContent with
        | some oe => simp [h5, List.append_assoc]
        | none => simp [h5]

theorem occAt_take_elim {pat l : Buf} {p i : Nat} (h : occAt pat (l.take p) i) :
    occAt pat l i := by
  have h2 := occAt_append_left (l.drop p) h
  rw [List.take_append_drop] at h2
  exact h2

theorem noOcc_take {pat l : Buf} (p : Nat) (h : NoOcc pat l) : NoOcc pat (l.take p) := by
  rw [NoOcc_iff] at h ⊢
  intro i hocc
  exact h i (occAt_take_elim hocc)

theorem noOcc_drop {pat l : Buf} (q : Nat) (h : NoOcc pat l) : NoOcc pat (l.drop q) := by
  rw [NoOcc_iff] at h ⊢
  intro i hocc
  exact h (q + i) (occAt_drop.mp hocc)

/-- No occurrence of a `'<'`-headed pattern in a concatenation when the
left part has no `'<'` in its final stretch (so nothing can straddle). -/
theorem noOcc_append_tailfree {ptl a b : Buf}
    (hna : NoOcc ('<' :: ptl) a) (hnb : NoOcc ('<' :: ptl) b)
    (htail : ∀ i, i < a.length → a.length < i + ('<' :: ptl).length →
      a[i]? ≠ some '<') : NoOcc ('<' :: ptl) (a ++ b) := by
  rw [NoOcc_iff]
  intro i hocc
  rcases Nat.lt_or_ge i a.length with hlt | hge
  · rcases le_or_lt (i + ('<' :: ptl).length) a.length with hin | hstr
    · exact (NoOcc_iff.mp hna i) (occAt_append_elim_left hocc hin)
    · have hhd : (a ++ b)[i + 0]? = some (('<' :: ptl)[0]) :=
        occAt_getElem hocc (by simp)
      rw [Nat.add_zero, List.getElem?_append_left hlt] at hhd
      exact htail i hlt hstr hhd
  · exact (NoOcc_iff.mp hnb (i - a.length)) (occAt_append_elim_right hocc hge)

theorem decDigitsAux_mem {fuel n : Nat} {c : Char} (h : c ∈ decDigitsAux fuel n) :
    ∃ k, k < 10 ∧ c = Char.ofNat (48 + k) := by
  induction fuel generalizing n with
  | zero => simp [decDigitsAux] at h
  | succ f ih =>
    rw [decDigitsAux] at h
    by_cases h0 : n = 0
    · simp [h0] at h
    · rw [if_neg h0] at h
      rcases List.mem_append.mp h with h2 | h2
      · exact ih h2
      · simp at h2
        exact ⟨n % 10, Nat.mod_lt _ (by omega), h2⟩

theorem decDigits_no_lt (n : Nat) : '<' ∉ decDigits n := by
  intro hmem
  unfold decDigits at hmem
  by_cases h0 : n = 0
  · simp [h0] at hmem
  · rw [if_neg h0] at hmem
    obtain ⟨k, hk, hck⟩ := decDigitsAux_mem hmem
    have : ∀ j, j < 10 → Char.ofNat (48 + j) ≠ '<' := by decide
    exact this k hk hck.symm

theorem gridSpan_len (n : Nat) :
    (gridSpanElt n).length = 19 + (decDigits n).length + 3 := by
  unfold gridSpanElt
  rw [List.length_append, List.length_append]
  have h1 : (s2l "<w:gridSpan w:val=\"").length = 19 := by decide
  have h2 : (s2l "\"/>").length = 3 := by decide
  omega

/-- The only `'<'` in a grid-span element is its leading one. -/
theorem gridSpan_no_lt_tail (n : Nat) :
    ∀ i, 1 ≤ i → (gridSpanElt n)[i]? ≠ some '<' := by
  intro i hi
  unfold gridSpanElt
  rw [List.append_assoc]
  rcases Nat.lt_or_ge i 19 with hlt | hge
  · have hA : (s2l "<w:gridSpan w:val=\"").length = 19 := by decide
    rw [List.getElem?_append_left (by rw [hA]; omega)]
    have : ∀ j, j < 19 → 1 ≤ j → (s2l "<w:gridSpan w:val=\"")[j]? ≠ some '<' := by decide
    exact this i hlt hi
  · have hA : (s2l "<w:gridSpan w:val=\"").length = 19 := by decide
    rw [List.getElem?_append_right (by rw [hA]; omega)]
    intro hcontra
    have hmem : '<' ∈ decDigits n ++ s2l "\"/>" := List.getElem?_mem hcontra
    rcases List.mem_append.mp hmem with h2 | h2
    · exact decDigits_no_lt n h2
    · have : '<' ∉ s2l "\"/>" := by decide
      exact this h2

/-- A short `'<'`-headed pattern that is not a prefix of the grid-span
literal occurs nowhere in a grid-span element. -/
theorem noOcc_gridSpan {ptl : Buf} {n : Nat}
    (hlen : ('<' :: ptl).length ≤ 19)
    (h0 : ¬ ('<' :: ptl) <+: s2l "<w:gridSpan w:val=\"") :
    NoOcc ('<' :: ptl) (gridSpanElt n) := by
  rw [NoOcc_iff]
  intro i hocc
  cases i with
  | zero =>
    have hA : (s2l "<w:gridSpan w:val=\"").length = 19 := by decide
    have h1 : occAt ('<' :: ptl) (s2l "<w:gridSpan w:val=\"") 0 := by
      apply @occAt_append_elim_left ('<' :: ptl) (s2l "<w:gridSpan w:val=\"")
        (decDigits n ++ s2l "\"/>") 0
      · unfold gridSpanElt at hocc
        simpa [List.append_assoc] using hocc
      · omega
    exact h0 (occAt_zero.mp h1)
  | succ j =>
    have hhd : (gridSpanElt n)[j + 1 + 0]? = some (('<' :: ptl)[0]) :=
      occAt_getElem hocc (by simp)
    rw [Nat.add_zero] at hhd
    exact gridSpan_no_lt_tail n (j + 1) (by omega) hhd

theorem prefix_take_of_le {pat l : Buf} (h : pat <+: l) {p : Nat}
    (hp : pat.length ≤ p) : pat <+: l.take p := by
  obtain ⟨t, ht⟩ := h
  rw [← ht, List.take_append_eq_append_take, List.take_of_length_le hp]
  exact List.prefix_append _ _

theorem cellWF_close_unique {tag c : Buf} (hcell : CellWF tag c) {i : Nat}
    (h : occAt (closeT tag) c i) : i = c.length - (closeT tag).length := by
  have h1 := occAt_length h (by simp [closeT])
  rcases Nat.lt_or_ge i (c.length - (closeT tag).length) with hlt | hge
  · exact absurd h (firstIdx_least hcell.2.2 i hlt)
  · omega

theorem head?_append_ne_nil {a b : Buf} (ha : a ≠ []) :
    (a ++ b).head? = a.head? := by
  cases a with
  | nil => exact absurd rfl ha
  | cons x xs => rfl

/-- After a fitting injection, the modified cell is still a well-formed
block for the scanned tag. -/
theorem injectTcPr_cellWF {tag cell elt : Buf} (htag : '<' ∉ tag)
    (hct9 : (closeT tag).length ≤ 9)
    (hcell : CellWF tag cell)
    (hins : InsOK tag (injectSplit cell elt).2.2)
    (hfit : InjectFits tag cell elt) :
    CellWF tag (injectTcPrElement cell elt) := by
  obtain ⟨hhead, hnoE, hnoA, hnoC, htail⟩ := hins
  obtain ⟨hp, hpd⟩ := hfit
  rw [injectTcPr_eq_split]
  set p := (injectSplit cell elt).1 with hpdef
  set d := (injectSplit cell elt).2.1 with hddef
  set ins := (injectSplit cell elt).2.2 with hinsdef
  set A := cell.take p with hA
  set B := cell.drop (p + d) with hB
  have hclen : (closeT tag).length ≤ cell.length := hcell.2.1
  have hplen : p ≤ cell.length := by omega
  have hAlen : A.length = p := by
    rw [hA, List.length_take]
    omega
  have hBlen : B.length = cell.length - (p + d) := by
    rw [hB, List.length_drop]
  have hinsne : ins ≠ [] := by
    intro hn
    rw [hn] at hhead
    simp at hhead
  have hinsheadB : (ins ++ B).head? = some '<' := by
    rw [head?_append_ne_nil hinsne]
    exact hhead
  have hF : occAt (closeT tag) cell (cell.length - (closeT tag).length) :=
    firstIdx_isOcc hcell.2.2
  refine ⟨?_, ?_, ?_⟩
  · have hopen : occAt (openEx tag) A 0 ∨ occAt (openAt tag) A 0 := by
      rcases hcell.1 with ho | ho
      · exact Or.inl (occAt_zero.mpr (prefix_take_of_le (occAt_zero.mp ho)
          (by rw [openEx_length] at hp ⊢; omega)))
      · exact Or.inr (occAt_zero.mpr (prefix_take_of_le (occAt_zero.mp ho)
          (by rw [openAt_length]; rw [openEx_length] at hp; omega)))
    rcases hopen with ho | ho
    · exact Or.inl (occAt_append_left _ (occAt_append_left _ ho))
    · exact Or.inr (occAt_append_left _ (occAt_append_left _ ho))
  · simp only [List.length_append]
    omega
  · have hNF : (A ++ ins ++ B).length - (closeT tag).length =
        A.length + ins.length + (B.length - (closeT tag).length) := by
      simp only [List.length_append]
      omega
    have hoccB : occAt (closeT tag) B (cell.length - (closeT tag).length - (p + d)) := by
      rw [hB]
      rw [occAt_drop]
      have : p + d + (cell.length - (closeT tag).length - (p + d)) =
          cell.length - (closeT tag).length := by omega
      rw [this]
      exact hF
    have hoccNF : occAt (closeT tag) (A ++ ins ++ B)
        ((A ++ ins ++ B).length - (closeT tag).length) := by
      rw [hNF]
      have h1 := occAt_append_right (A ++ ins) hoccB
      have h2 : (A ++ ins).length = A.length + ins.length := by simp
      rw [h2] at h1
      have h3 : B.length - (closeT tag).length =
          cell.length - (closeT tag).length - (p + d) := by omega
      rw [h3]
      exact h1
    apply firstIdx_eq_some_of hoccNF
    intro j hj hocc
    rw [hNF] at hj
    rcases Nat.lt_or_ge j A.length with hjA | hjA
    · rcases le_or_lt (j + (closeT tag).length) A.length with hin | hstr
      · have hocc2 : occAt (closeT tag) (A ++ ins) j := by
          apply occAt_append_elim_left hocc
          simp only [List.length_append]
          omega
        have hocc3 : occAt (closeT tag) A j := occAt_append_elim_left hocc2 hin
        have hocc4 : occAt (closeT tag) cell j := by
          rw [hA] at hocc3
          exact occAt_take_elim hocc3
        have := cellWF_close_unique hcell hocc4
        omega
      · have hocc2 : occAt (closeT tag) (A ++ (ins ++ B)) j := by
          simpa [List.append_assoc] using hocc
        rw [closeT] at hocc2
        have := occAt_no_straddle (closeT_tail_no_lt htag) (Or.inr hinsheadB)
          hocc2 hjA
        rw [← closeT] at this
        rw [closeT_length] at this hstr
        omega
    · rcases le_or_lt (j + (closeT tag).length) (A.length + ins.length) with hin | hstr
      · have hocc2 : occAt (closeT tag) (ins ++ B) (j - A.length) := by
          have h4 : occAt (closeT tag) (A ++ (ins ++ B)) j := by
            simpa [List.append_assoc] using hocc
          exact occAt_append_elim_right h4 hjA
        have hocc3 : occAt (closeT tag) ins (j - A.length) := by
          apply occAt_append_elim_left hocc2
          omega
        exact (NoOcc_iff.mp hnoC _) hocc3
      · rcases Nat.lt_or_ge j (A.length + ins.length) with hjI | hjI
        · have hhd : (A ++ ins ++ B)[j]? = some '<' := occAt_head hocc
          have hj2 : (A ++ ins ++ B)[j]? = ins[j - A.length]? := by
            have e1 : (A ++ ins ++ B)[j]? = (ins ++ B)[j - A.length]? := by
              rw [List.append_assoc, List.getElem?_append_right hjA]
            rw [e1, List.getElem?_append_left (by omega)]
          rw [hj2] at hhd
          exact htail (j - A.length) (by omega) (by omega) hhd
        · have hocc2 : occAt (closeT tag) B (j - A.length - ins.length) := by
            have h4 : occAt (closeT tag) (A ++ ins ++ B) j := hocc
            have h5 : occAt (closeT tag) ((A ++ ins) ++ B) j := h4
            have h6 := occAt_append_elim_right h5 (by simp; omega)
            have h7 : j - (A ++ ins).length = j - A.length - ins.length := by
              simp
              omega
            rw [h7] at h6
            exact h6
          have hocc3 : occAt (closeT tag) cell (p + d + (j - A.length - ins.length)) := by
            rw [hB] at hocc2
            exact occAt_drop.mp hocc2
          have := cellWF_close_unique hcell hocc3
          omega

/-- A fitting injection introduces no occurrence of an unrelated
`'<'`-headed marker. -/
theorem injectTcPr_noOccPat {ptl cell elt : Buf} (hlt : '<' ∉ ptl)
    (hplen : ('<' :: ptl).length ≤ 9)
    (hcell : NoOcc ('<' :: ptl) cell)
    (hins : NoOcc ('<' :: ptl) (injectSplit cell elt).2.2)
    (hinshead : (injectSplit cell elt).2.2.head? = some '<')
    (htail : ∀ i, i < (injectSplit cell elt).2.2.length →
      (injectSplit cell elt).2.2.length < i + 9 →
      (injectSplit cell elt).2.2[i]? ≠ some '<') :
    NoOcc ('<' :: ptl) (injectTcPrElement cell elt) := by
  rw [injectTcPr_eq_split]
  set p := (injectSplit cell elt).1
  set d := (injectSplit cell elt).2.1
  set ins := (injectSplit cell elt).2.2
  have hinsne : ins ≠ [] := by
    intro hn
    rw [hn] at hinshead
    simp at hinshead
  have h1 : NoOcc ('<' :: ptl) (ins ++ cell.drop (p + d)) := by
    apply noOcc_append_tailfree hins (noOcc_drop _ hcell)
    intro i hi hstr
    exact htail i hi (by omega)
  have h2 : NoOcc ('<' :: ptl) (cell.take p ++ (ins ++ cell.drop (p + d))) := by
    apply noOcc_append hlt
    · right
      rw [head?_append_ne_nil hinsne]
      exact hinshead
    · exact noOcc_take _ hcell
    · exact h1
  have h3 : cell.take p ++ ins ++ cell.drop (p + d) =
      cell.take p ++ (ins ++ cell.drop (p + d)) := by
    simp [List.append_assoc]
  rw [h3]
  exact h2

/-- The injected element occurs in the modified cell. -/
theorem injectTcPr_contains {cell elt : Buf}
    (hne : (injectSplit cell elt).2.2 ≠ []) :
    ∃ i, occAt elt (injectTcPrElement cell elt) i := by
  have hwrap : ∃ j, occAt elt (s2l "<w:tcPr>" ++ elt ++ s2l "</w:tcPr>") j := by
    refine ⟨8, ?_⟩
    simp only [occAt]
    rw [List.append_assoc]
    have h8 : (8 : Nat) = (s2l "<w:tcPr>").length := by decide
    rw [h8, List.drop_left]
    exact List.prefix_append _ _
  have hself : ∃ j, occAt elt elt j := ⟨0, occAt_zero.mpr (List.prefix_refl _)⟩
  have hmain : ∃ j, occAt elt (injectSplit cell elt).2.2 j := by
    cases h1 : firstIdx (s2l "<w:tcPr/>") cell with
    | some idx =>
      simp only [injectSplit, h1]
      exact hwrap
    | none =>
      cases h2 : firstIdx (s2l "<w:tcPr>") cell with
      | some idx =>
        simp only [injectSplit, h1, h2]
        exact hself
      | none =>
        cases h3 : firstIdx (s2l "<w:tcPr ") cell with
        | some idx =>
          cases h4 : firstIdx ['>'] (cell.drop idx) with
          | some ci =>
            simp only [injectSplit, h1, h2, h3, h4]
            exact hself
          | none =>
            cases h5 : firstIdx ['>'] cell with
            | some oe =>
              simp only [injectSplit, h1, h2, h3, h4, h5]
              exact hwrap
            | none =>
              simp only [injectSplit, h1, h2, h3, h4, h5] at hne
              exact absurd rfl hne
        | none =>
          cases h5 : firstIdx ['>'] cell with
          | some oe =>
            simp only [injectSplit, h1, h2, h3, h5]
            exact hwrap
          | none =>
            simp only [injectSplit, h1, h2, h3, h5] at hne
            exact absurd rfl hne
  obtain ⟨j, hj⟩ := hmain
  refine ⟨(cell.take (injectSplit cell elt).1).length + j, ?_⟩
  rw [injectTcPr_eq_split]
  have h1 : occAt elt (cell.take (injectSplit cell elt).1 ++
      (injectSplit cell elt).2.2) ((cell.take (injectSplit cell elt).1).length + j) :=
    occAt_append_right _ hj
  exact occAt_append_left _ h1

theorem noOcc_nil {ptl : Buf} : NoOcc ('<' :: ptl) [] := by
  simp [NoOcc, firstIdx]

theorem flatten_head {cells : List Buf} (hh : LtHeads cells) :
    cells.flatten = [] ∨ cells.flatten.head? = some '<' := by
  cases cells with
  | nil => exact Or.inl rfl
  | cons c cs =>
    right
    have hc : c.head? = some '<' := hh c (List.mem_cons_self c cs)
    have hcne : c ≠ [] := by
      intro h
      rw [h] at hc
      simp at hc
    rw [List.flatten_cons, head?_append_ne_nil hcne]
    exact hc

theorem noOcc_flatten {ptl : Buf} {cells : List Buf} (hlt : '<' ∉ ptl)
    (h : ∀ c ∈ cells, NoOcc ('<' :: ptl) c) (hh : LtHeads cells) :
    NoOcc ('<' :: ptl) cells.flatten := by
  induction cells with
  | nil => exact noOcc_nil
  | cons c cs ih =>
    rw [List.flatten_cons]
    have hhcs : LtHeads cs := fun x hx => hh x (List.mem_cons_of_mem c hx)
    apply noOcc_append hlt (flatten_head hhcs) (h c (List.mem_cons_self c cs))
    exact ih (fun x hx => h x (List.mem_cons_of_mem c hx)) hhcs

theorem noOcc_assemble {ptl pre post : Buf} {cells : List Buf} (hlt : '<' ∉ ptl)
    (hpre : NoOcc ('<' :: ptl) pre) (hcells : ∀ c ∈ cells, NoOcc ('<' :: ptl) c)
    (hh : LtHeads cells) (hpost : NoOcc ('<' :: ptl) post)
    (hph : post = [] ∨ post.head? = some '<') :
    NoOcc ('<' :: ptl) (assemble pre cells post) := by
  have h1 : NoOcc ('<' :: ptl) (cells.flatten ++ post) :=
    noOcc_append hlt hph (noOcc_flatten hlt hcells hh) hpost
  have h2 : cells.flatten ++ post = [] ∨ (cells.flatten ++ post).head? = some '<' := by
    rcases flatten_head hh with hfe | hfh
    · rw [hfe]
      simpa using hph
    · right
      have hfne : cells.flatten ≠ [] := by
        intro h
        rw [h] at hfh
        simp at hfh
      rw [head?_append_ne_nil hfne]
      exact hfh
  have h3 : NoOcc ('<' :: ptl) (pre ++ (cells.flatten ++ post)) :=
    noOcc_append hlt h2 hpre h1
  unfold assemble
  have h4 : pre ++ cells.flatten ++ post = pre ++ (cells.flatten ++ post) := by
    simp [List.append_assoc]
  rw [h4]
  exact h3

/-- A buffer assembled from an opening prefix, marker-free inner blocks,
and a closing suffix is itself a well-formed block for the outer tag. -/
theorem nestWF_cellWF {tag pre post : Buf} {cells : List Buf} (htag : '<' ∉ tag)
    (hopen : occAt (openEx tag) pre 0 ∨ occAt (openAt tag) pre 0)
    (hpre : NoOcc (closeT tag) pre)
    (hcells : ∀ c ∈ cells, NoOcc (closeT tag) c)
    (hh : LtHeads cells)
    (hplen : (closeT tag).length ≤ post.length)
    (hpfirst : firstIdx (closeT tag) post = some (post.length - (closeT tag).length))
    (hphead : post.head? = some '<') :
    CellWF tag (assemble pre cells post) := by
  have hlen : (assemble pre cells post).length =
      (pre ++ cells.flatten).length + post.length := by
    simp [assemble]
    omega
  have hF : (assemble pre cells post).length - (closeT tag).length =
      (pre ++ cells.flatten).length + (post.length - (closeT tag).length) := by
    omega
  refine ⟨?_, ?_, ?_⟩
  · rcases hopen with ho | ho
    · exact Or.inl (occAt_append_left _ (occAt_append_left _ ho))
    · exact Or.inr (occAt_append_left _ (occAt_append_left _ ho))
  · omega
  · have hocc : occAt (closeT tag) (assemble pre cells post)
        ((assemble pre cells post).length - (closeT tag).length) := by
      rw [hF]
      exact occAt_append_right (pre ++ cells.flatten) (firstIdx_isOcc hpfirst)
    apply firstIdx_eq_some_of hocc
    intro j hj hocc2
    rcases Nat.lt_or_ge j (pre ++ cells.flatten).length with hjl | hjr
    · have h6 : occAt ('<' :: ('/' :: (tag ++ ['>'])))
          ((pre ++ cells.flatten) ++ post) j := hocc2
      have h7 := occAt_no_straddle (closeT_tail_no_lt htag) (Or.inr hphead) h6 hjl
      have h8 : ('<' :: ('/' :: (tag ++ ['>']))).length = tag.length + 3 := by simp
      rw [h8] at h7
      have hstr : j + (closeT tag).length ≤ (pre ++ cells.flatten).length := by
        rw [closeT_length]
        omega
      have hin : occAt (closeT tag) (pre ++ cells.flatten) j :=
        occAt_append_elim_left hocc2 hstr
      have hno : NoOcc ('<' :: ('/' :: (tag ++ ['>']))) (pre ++ cells.flatten) :=
        noOcc_append (closeT_tail_no_lt htag) (flatten_head hh) hpre
          (noOcc_flatten (closeT_tail_no_lt htag) hcells hh)
      exact (NoOcc_iff.mp hno j) hin
    · have hin : occAt (closeT tag) post (j - (pre ++ cells.flatten).length) :=
        occAt_append_elim_right hocc2 hjr
      have hlst := firstIdx_least hpfirst (j - (pre ++ cells.flatten).length)
        (by rw [hF] at hj; omega)
      exact hlst hin

theorem injectSplit_ins_cases (cell elt : Buf) :
    (injectSplit cell elt).2.2 = elt ∨
    (injectSplit cell elt).2.2 = s2l "<w:tcPr>" ++ elt ++ s2l "</w:tcPr>" ∨
    (injectSplit cell elt).2.2 = [] := by
  unfold injectSplit
  cases h1 : firstIdx (s2l "<w:tcPr/>") cell with
  | some idx => simp
  | none =>
    cases h2 : firstIdx (s2l "<w:tcPr>") cell with
    | some idx => simp
    | none =>
      cases h3 : firstIdx (s2l "<w:tcPr ") cell with
      | some idx =>
        cases h4 : firstIdx ['>'] (cell.drop idx) with
        | some ci => simp [h4]
        | none =>
          cases h5 : firstIdx ['>'] cell with
          | some oe => simp [h4, h5]
          | none => simp [h4, h5]
      | none =>
        cases h5 : firstIdx ['>'] cell with
        | some oe => simp [h5]
        | none => simp [h5]

theorem injectSplit_nil {cell elt : Buf}
    (h : (injectSplit cell elt).2.2 = []) :
    elt = [] ∨ (injectSplit cell elt).1 = 0 := by
  unfold injectSplit at h ⊢
  cases h1 : firstIdx (s2l "<w:tcPr/>") cell with
  | some idx =>
    exfalso
    simp [h1] at h
    exact absurd h.1 (by decide)
  | none =>
    cases h2 : firstIdx (s2l "<w:tcPr>") cell with
    | some idx =>
      simp [h1, h2] at h
      exact Or.inl h
    | none =>
      cases h3 : firstIdx (s2l "<w:tcPr ") cell with
      | some idx =>
        cases h4 : firstIdx ['>'] (cell.drop idx) with
        | some ci =>
          simp [h1, h2, h3, h4] at h
          exact Or.inl h
        | none =>
          cases h5 : firstIdx ['>'] cell with
          | some oe =>
            exfalso
            simp [h1, h2, h3, h4, h5] at h
            exact absurd h.1 (by decide)
          | none =>
            right
            simp [h1, h2, h3, h4, h5]
      | none =>
        cases h5 : firstIdx ['>'] cell with
        | some oe =>
          exfalso
          simp [h1, h2, h3, h5] at h
          exact absurd h.1 (by decide)
        | none =>
          right
          simp [h1, h2, h3, h5]

theorem decDigits_ne_nil (n : Nat) : decDigits n ≠ [] := by
  unfold decDigits
  by_cases h0 : n = 0
  · simp [h0]
  · rw [if_neg h0]
    cases n with
    | zero => exact absurd rfl h0
    | succ m =>
      rw [decDigitsAux]
      simp [h0]

/-- Positions past the buffer never hold a character. -/
theorem no_lt_all (l : Buf) (hbound : ∀ k, k < l.length → 1 ≤ k → l[k]? ≠ some '<') :
    ∀ k, 1 ≤ k → l[k]? ≠ some '<' := by
  intro k hk
  rcases Nat.lt_or_ge k l.length with h | h
  · exact hbound k h hk
  · rw [List.getElem?_eq_none h]
    simp

theorem gridSpan_head (n : Nat) : (gridSpanElt n).head? = some '<' := by
  unfold gridSpanElt
  rw [List.append_assoc, head?_append_ne_nil (by decide)]
  decide

theorem gridSpan_len_ge (n : Nat) : 23 ≤ (gridSpanElt n).length := by
  have h1 := gridSpan_len n
  have h2 : 1 ≤ (decDigits n).length :=
    List.length_pos.mpr (decDigits_ne_nil n)
  omega

theorem gridSpan_tailfree (n : Nat) :
    ∀ i, i < (gridSpanElt n).length → (gridSpanElt n).length < i + 9 →
      (gridSpanElt n)[i]? ≠ some '<' := by
  intro i hi hstr
  have := gridSpan_len_ge n
  exact gridSpan_no_lt_tail n i (by omega)

theorem wrapGrid_eq (n : Nat) :
    s2l "<w:tcPr>" ++ gridSpanElt n ++ s2l "</w:tcPr>" =
      s2l "<w:tcPr>" ++ (gridSpanElt n ++ s2l "</w:tcPr>") := by
  simp [List.append_assoc]

theorem wrapGrid_head (n : Nat) :
    (s2l "<w:tcPr>" ++ gridSpanElt n ++ s2l "</w:tcPr>").head? = some '<' := by
  rw [wrapGrid_eq, head?_append_ne_nil (by decide)]
  decide

theorem wrapGrid_len (n : Nat) :
    (s2l "<w:tcPr>" ++ gridSpanElt n ++ s2l "</w:tcPr>").length =
      8 + (gridSpanElt n).length + 9 := by
  simp only [List.length_append]
  have h1 : (s2l "<w:tcPr>").length = 8 := by decide
  have h2 : (s2l "</w:tcPr>").length = 9 := by decide
  omega

theorem wrapGrid_tailfree (n : Nat) :
    ∀ i, i < (s2l "<w:tcPr>" ++ gridSpanElt n ++ s2l "</w:tcPr>").length →
      (s2l "<w:tcPr>" ++ gridSpanElt n ++ s2l "</w:tcPr>").length < i + 9 →
      (s2l "<w:tcPr>" ++ gridSpanElt n ++ s2l "</w:tcPr>")[i]? ≠ some '<' := by
  intro i hi hstr
  have hlen := wrapGrid_len n
  have h8 : (s2l "<w:tcPr>").length = 8 := by decide
  have hge : 8 + (gridSpanElt n).length + 1 ≤ i := by omega
  have e1 : (s2l "<w:tcPr>" ++ gridSpanElt n ++ s2l "</w:tcPr>")[i]? =
      (gridSpanElt n ++ s2l "</w:tcPr>")[i - 8]? := by
    rw [wrapGrid_eq, List.getElem?_append_right (by omega)]
    rw [h8]
  have e2 : (gridSpanElt n ++ s2l "</w:tcPr>")[i - 8]? =
      (s2l "</w:tcPr>")[i - 8 - (gridSpanElt n).length]? := by
    rw [List.getElem?_append_right (by omega)]
  rw [e1, e2]
  have hj : 1 ≤ i - 8 - (gridSpanElt n).length := by omega
  exact no_lt_all (s2l "</w:tcPr>") (by decide) _ hj

/-- Master lemma: a `'<'`-headed marker that is short and matches neither
literal prefix occurs nowhere in either form of the injected grid-span
string. -/
theorem noOcc_wrapGrid {ptl : Buf} {n : Nat}
    (hlt : '<' ∉ ptl)
    (hlen : ('<' :: ptl).length ≤ 9)
    (h0 : ¬ ('<' :: ptl) <+: s2l "<w:gridSpan w:val=\"")
    (h1 : ¬ ('<' :: ptl) <+: s2l "<w:tcPr>")
    (h2 : ¬ ('<' :: ptl) <+: s2l "</w:tcPr>") :
    NoOcc ('<' :: ptl) (s2l "<w:tcPr>" ++ gridSpanElt n ++ s2l "</w:tcPr>") := by
  have hg : NoOcc ('<' :: ptl) (gridSpanElt n) := noOcc_gridSpan (by omega) h0
  have hgne : gridSpanElt n ≠ [] := by
    have hge := gridSpan_len_ge n
    intro hcon
    rw [hcon] at hge
    simp at hge
  have ha : NoOcc ('<' :: ptl) (s2l "<w:tcPr>") := by
    rw [NoOcc_iff]
    intro i hocc
    cases i with
    | zero => exact h1 (occAt_zero.mp hocc)
    | succ j =>
      exact no_lt_all (s2l "<w:tcPr>") (by decide) (j + 1) (by omega) (occAt_head hocc)
  have hb : NoOcc ('<' :: ptl) (s2l "</w:tcPr>") := by
    rw [NoOcc_iff]
    intro i hocc
    cases i with
    | zero => exact h2 (occAt_zero.mp hocc)
    | succ j =>
      exact no_lt_all (s2l "</w:tcPr>") (by decide) (j + 1) (by omega) (occAt_head hocc)
  have hgb : NoOcc ('<' :: ptl) (gridSpanElt n ++ s2l "</w:tcPr>") :=
    noOcc_append hlt (Or.inr (by decide)) hg hb
  have hhead : (gridSpanElt n ++ s2l "</w:tcPr>").head? = some '<' := by
    rw [head?_append_ne_nil hgne]
    exact gridSpan_head n
  rw [wrapGrid_eq]
  exact noOcc_append hlt (Or.inr hhead) ha hgb

theorem assemble_split2 {pre post : Buf} (cells : List Buf) (b : Nat) :
    assemble pre cells post =
      (pre ++ (cells.take b).flatten) ++ ((cells.drop b).flatten ++ post) := by
  unfold assemble
  conv_lhs => rw [← List.take_append_drop b cells]
  rw [List.flatten_append]
  simp [List.append_assoc]

theorem splice_assemble_range {pre post : Buf} {cells : List Buf} (a b : Nat)
    (repl : Buf) :
    splice (assemble pre cells post) (pre.length + sumLen (cells.take a))
      (pre.length + sumLen (cells.take b)) repl =
      assemble pre (cells.take a ++ repl :: cells.drop b) post := by
  unfold splice
  have htk : (assemble pre cells post).take (pre.length + sumLen (cells.take a)) =
      pre ++ (cells.take a).flatten := by
    rw [assemble_split2 cells a]
    rw [show pre.length + sumLen (cells.take a) = (pre ++ (cells.take a).flatten).length from
      len_pre_flatten.symm]
    exact List.take_left _ _
  have hdp : (assemble pre cells post).drop (pre.length + sumLen (cells.take b)) =
      (cells.drop b).flatten ++ post := by
    rw [assemble_split2 cells b]
    rw [show pre.length + sumLen (cells.take b) = (pre ++ (cells.take b).flatten).length from
      len_pre_flatten.symm]
    exact List.drop_left _ _
  rw [htk, hdp]
  unfold assemble
  rw [List.flatten_append, List.flatten_cons]
  simp [List.append_assoc]

theorem segWF_ltHeads {tag pre post : Buf} {cells : List Buf}
    (h : SegWF tag pre cells post) : LtHeads cells :=
  fun c hc => cellWF_head (h.2.1 c hc)

/-- The string that `injectTcPrElement` inserts for a grid-span element
satisfies all marker-freedom conditions, in both of its forms. -/
theorem gridSpan_ins_props {cell : Buf} {n : Nat}
    (hne : (injectSplit cell (gridSpanElt n)).2.2 ≠ []) :
    InsOK (s2l "w:tc") (injectSplit cell (gridSpanElt n)).2.2 ∧
    NoOcc (closeT (s2l "w:tr")) (injectSplit cell (gridSpanElt n)).2.2 ∧
    NoOcc (closeT (s2l "w:tbl")) (injectSplit cell (gridSpanElt n)).2.2 := by
  rcases injectSplit_ins_cases cell (gridSpanElt n) with hc | hc | hc
  · rw [hc]
    refine ⟨⟨gridSpan_head n, ?_, ?_, ?_, gridSpan_tailfree n⟩, ?_, ?_⟩
    · exact noOcc_gridSpan (by decide) (by decide)
    · exact noOcc_gridSpan (by decide) (by decide)
    · exact noOcc_gridSpan (by decide) (by decide)
    · exact noOcc_gridSpan (by decide) (by decide)
    · exact noOcc_gridSpan (by decide) (by decide)
  · rw [hc]
    refine ⟨⟨wrapGrid_head n, ?_, ?_, ?_, wrapGrid_tailfree n⟩, ?_, ?_⟩
    · exact noOcc_wrapGrid (by decide) (by decide) (by decide) (by decide) (by decide)
    · exact noOcc_wrapGrid (by decide) (by decide) (by decide) (by decide) (by decide)
    · exact noOcc_wrapGrid (by decide) (by decide) (by decide) (by decide) (by decide)
    · exact noOcc_wrapGrid (by decide) (by decide) (by decide) (by decide) (by decide)
    · exact noOcc_wrapGrid (by decide) (by decide) (by decide) (by decide) (by decide)
  · exact absurd hc hne

/-- C3: horizontal merge on a well-formed three-level table structure.
The addressed row's cell count drops by exactly `ec - sc`, the surviving
first cell carries a `gridSpan` annotation of value `ec - sc + 1`, and
the result is the original document with the deleted cells' bytes
removed: the cells of the result row are exactly the original cells with
positions `sc+1 .. ec` gone and the first surviving cell annotated. -/
theorem mergeHorizontal_spec
    {preD postD preT postT preR postR : Buf} {tbls rows cells : List Buf}
    {ti ri sc ec : Nat}
    (hdoc : SegWF (s2l "w:tbl") preD tbls postD)
    (htblseg : SegWF (s2l "w:tr") preT rows postT)
    (hrowseg : SegWF (s2l "w:tc") preR cells postR)
    (hti1 : 1 ≤ ti) (hti2 : ti ≤ tbls.length)
    (hri1 : 1 ≤ ri) (hri2 : ri ≤ rows.length)
    (hsc : 1 ≤ sc) (hscec : sc < ec) (hec : ec ≤ cells.length)
    (htblv : tbls.get ⟨ti - 1, by omega⟩ = assemble preT rows postT)
    (hrowv : rows.get ⟨ri - 1, by omega⟩ = assemble preR cells postR)
    (hfit : InjectFits (s2l "w:tc") (cells.get ⟨sc - 1, by omega⟩)
      (gridSpanElt (ec - sc + 1))) :
    ∃ modCell newCells,
      modCell = injectTcPrElement (cells.get ⟨sc - 1, by omega⟩)
        (gridSpanElt (ec - sc + 1)) ∧
      newCells = cells.take (sc - 1) ++ modCell :: cells.drop ec ∧
      mergeTableCellsHorizontal (assemble preD tbls postD) ti ri sc ec =
        .ok (assemble preD (tbls.take (ti - 1) ++
          (assemble preT (rows.take (ri - 1) ++
            (assemble preR newCells postR) :: rows.drop ri) postT) ::
          tbls.drop ti) postD) ∧
      blockCount (assemble preR newCells postR) (s2l "w:tc") =
        cells.length - (ec - sc) ∧
      (∃ i, occAt (gridSpanElt (ec - sc + 1)) modCell i) ∧
      (∀ k, (hk1 : 1 ≤ k) → (hk2 : k ≤ newCells.length) →
        findNthXMLBlock (assemble preR newCells postR) (s2l "w:tc") k =
          .ok (preR.length + sumLen (newCells.take (k - 1)),
               preR.length + sumLen (newCells.take k)) ∧
        extractSpan (assemble preR newCells postR)
          (preR.length + sumLen (newCells.take (k - 1)))
          (preR.length + sumLen (newCells.take k)) =
          newCells.get ⟨k - 1, by omega⟩) := by
  have hsc3 : sc - 1 < cells.length := by omega
  have hcellWF : CellWF (s2l "w:tc") (cells.get ⟨sc - 1, hsc3⟩) :=
    hrowseg.2.1 _ (List.get_mem cells _ hsc3)
  have hinsne : (injectSplit (cells.get ⟨sc - 1, hsc3⟩)
      (gridSpanElt (ec - sc + 1))).2.2 ≠ [] := by
    intro hnil
    rcases injectSplit_nil hnil with he | hp
    · have := gridSpan_len_ge (ec - sc + 1)
      rw [he] at this
      simp at this
    · have h1 := hfit.1
      rw [hp] at h1
      rw [openEx_length] at h1
      simp at h1
  obtain ⟨hinsok, hnotr, hnotbl⟩ := gridSpan_ins_props hinsne
  set modCell := injectTcPrElement (cells.get ⟨sc - 1, hsc3⟩)
    (gridSpanElt (ec - sc + 1)) with hmodDef
  set newCells := cells.take (sc - 1) ++ modCell :: cells.drop ec with hnewDef
  have hmodWF : CellWF (s2l "w:tc") modCell :=
    injectTcPr_cellWF (by decide) (by decide) hcellWF hinsok hfit
  have hnewWF : SegWF (s2l "w:tc") preR newCells postR := by
    refine ⟨hrowseg.1, ?_, hrowseg.2.2.1, hrowseg.2.2.2⟩
    intro c hc
    rw [hnewDef] at hc
    rcases List.mem_append.mp hc with hc1 | hc1
    · exact hrowseg.2.1 c (List.take_subset _ _ hc1)
    · rcases List.mem_cons.mp hc1 with rfl | hc2
      · exact hmodWF
      · exact hrowseg.2.1 c (List.drop_subset _ _ hc2)
  have hnewLen : newCells.length = cells.length - (ec - sc) := by
    rw [hnewDef]
    simp only [List.length_append, List.length_cons, List.length_take,
      List.length_drop]
    omega
  refine ⟨modCell, newCells, rfl, rfl, ?_, ?_, ?_, ?_⟩
  · -- evaluation of the merge
    unfold mergeTableCellsHorizontal
    rw [if_neg (by omega)]
    have hTop := findNth_assemble (by decide) hdoc hti1 hti2
    simp only [hTop]
    have hti3 : ti - 1 < tbls.length := by omega
    have hle1 := @extract_assemble preD postD tbls (ti - 1) hti3
    rw [show ti - 1 + 1 = ti from by omega] at hle1
    rw [hle1, htblv]
    have hRow := findNth_assemble (by decide) htblseg hri1 hri2
    simp only [hRow]
    have hri3 : ri - 1 < rows.length := by omega
    have hle2 := @extract_assemble preT postT rows (ri - 1) hri3
    rw [show ri - 1 + 1 = ri from by omega] at hle2
    rw [hle2, hrowv]
    have hCell1 := findNth_assemble (by decide) hrowseg hsc (by omega)
    have hCellE := findNth_assemble (by decide) hrowseg
      (show 1 ≤ ec from by omega) hec
    simp only [hCell1, hCellE]
    have hle3 := @extract_assemble preR postR cells (sc - 1) hsc3
    rw [show sc - 1 + 1 = sc from by omega] at hle3
    rw [hle3]
    have hnewTR : (assemble preR cells postR).take
        (preR.length + sumLen (cells.take (sc - 1))) ++ modCell ++
        (assemble preR cells postR).drop
        (preR.length + sumLen (cells.take ec)) =
        assemble preR newCells postR := by
      have h := @splice_assemble_range preR postR cells (sc - 1) ec modCell
      unfold splice at h
      rw [hnewDef]
      exact h
    rw [hnewTR]
    have hnewTbl : (assemble preT rows postT).take
        (preT.length + sumLen (rows.take (ri - 1))) ++
        (assemble preR newCells postR) ++
        (assemble preT rows postT).drop
        (preT.length + sumLen (rows.take ri)) =
        assemble preT (rows.take (ri - 1) ++
          (assemble preR newCells postR) :: rows.drop ri) postT := by
      have h := @splice_assemble_range preT postT rows (ri - 1) ri
        (assemble preR newCells postR)
      unfold splice at h
      exact h
    rw [hnewTbl]
    have hnewDoc : (assemble preD tbls postD).take
        (preD.length + sumLen (tbls.take (ti - 1))) ++
        (assemble preT (rows.take (ri - 1) ++
          (assemble preR newCells postR) :: rows.drop ri) postT) ++
        (assemble preD tbls postD).drop
        (preD.length + sumLen (tbls.take ti)) =
        assemble preD (tbls.take (ti - 1) ++
          (assemble preT (rows.take (ri - 1) ++
            (assemble preR newCells postR) :: rows.drop ri) postT) ::
          tbls.drop ti) postD := by
      have h := @splice_assemble_range preD postD tbls (ti - 1) ti
        (assemble preT (rows.take (ri - 1) ++
          (assemble preR newCells postR) :: rows.drop ri) postT)
      unfold splice at h
      exact h
    rw [hnewDoc]
  · rw [(blockCount_assemble (by decide) hnewWF).1, hnewLen]
  · exact injectTcPr_contains hinsne
  · intro k hk1 hk2
    constructor
    · exact findNth_assemble (by decide) hnewWF hk1 hk2
    · have hk3 : k - 1 < newCells.length := by omega
      have h := @extract_assemble preR postR newCells (k - 1) hk3
      rw [show k - 1 + 1 = k from by omega] at h
      exact h

set_option maxRecDepth 100000 in
/-- Witness for C3 on a concrete one-table document with three cells,
merging columns 1..3 of row 1. -/
theorem mergeHorizontal_spec_witness :
    ∃ out, mergeTableCellsHorizontal
      (assemble (s2l "<w:document><w:body>")
        [assemble (s2l "<w:tbl>")
          [assemble (s2l "<w:tr>")
            [s2l "<w:tc><w:p>A</w:p></w:tc>", s2l "<w:tc><w:p>B</w:p></w:tc>",
              s2l "<w:tc><w:p>C</w:p></w:tc>"] (s2l "</w:tr>")]
          (s2l "</w:tbl>")]
        (s2l "</w:body></w:document>")) 1 1 1 3 = .ok out := by
  obtain ⟨modCell, newCells, -, -, hok, -, -, -⟩ :=
    @mergeHorizontal_spec (s2l "<w:document><w:body>") (s2l "</w:body></w:document>")
      (s2l "<w:tbl>") (s2l "</w:tbl>") (s2l "<w:tr>") (s2l "</w:tr>")
      [assemble (s2l "<w:tbl>")
        [assemble (s2l "<w:tr>")
          [s2l "<w:tc><w:p>A</w:p></w:tc>", s2l "<w:tc><w:p>B</w:p></w:tc>",
            s2l "<w:tc><w:p>C</w:p></w:tc>"] (s2l "</w:tr>")]
        (s2l "</w:tbl>")]
      [assemble (s2l "<w:tr>")
        [s2l "<w:tc><w:p>A</w:p></w:tc>", s2l "<w:tc><w:p>B</w:p></w:tc>",
          s2l "<w:tc><w:p>C</w:p></w:tc>"] (s2l "</w:tr>")]
      [s2l "<w:tc><w:p>A</w:p></w:tc>", s2l "<w:tc><w:p>B</w:p></w:tc>",
        s2l "<w:tc><w:p>C</w:p></w:tc>"] 1 1 1 3
      (by decide) (by decide) (by decide) (by decide) (by decide) (by decide)
      (by decide) (by decide) (by decide) (by decide) (by decide) (by decide)
      (by decide)
  exact ⟨_, hok⟩

theorem digitRun_append {ds r : Buf} (hds : ∀ c ∈ ds, c.isDigit = true)
    (hr : ∀ c, r.head? = some c → c.isDigit = false) :
    digitRun (ds ++ r) = (ds, r) := by
  induction ds with
  | nil =>
    cases r with
    | nil => rfl
    | cons c t =>
      have hc := hr c rfl
      simp [digitRun, hc]
  | cons c ds ih =>
    have hc : c.isDigit = true := hds c (by simp)
    have ih2 := ih (fun x hx => hds x (by simp [hx]))
    simp [digitRun, hc, ih2]

theorem digitRun_eq {l ds r : Buf} (h : digitRun l = (ds, r)) :
    l = ds ++ r ∧ (∀ c ∈ ds, c.isDigit = true) ∧
      ∀ c, r.head? = some c → c.isDigit = false := by
  induction l generalizing ds r with
  | nil =>
    simp [digitRun] at h
    obtain ⟨rfl, rfl⟩ := h
    simp
  | cons c t ih =>
    by_cases hc : c.isDigit
    · cases hdr : digitRun t with
      | mk ds2 r2 =>
        simp [digitRun, hc, hdr] at h
        obtain ⟨rfl, rfl⟩ := h
        obtain ⟨he, hd, hh⟩ := ih hdr
        refine ⟨by simp [he], ?_, hh⟩
        intro x hx
        rcases List.mem_cons.mp hx with h | h
        · exact h ▸ hc
        · exact hd x h
    · simp [digitRun, hc] at h
      obtain ⟨rfl, rfl⟩ := h
      refine ⟨rfl, by simp, ?_⟩
      intro x hx
      simp at hx
      exact hx ▸ (by simpa using hc)

theorem decDigits_isDigit {n : Nat} : ∀ c ∈ decDigits n, c.isDigit = true := by
  intro c hc
  unfold decDigits at hc
  by_cases hn : n = 0
  · simp [hn] at hc
    simp [hc]
  · simp [hn] at hc
    obtain ⟨k, hk, hck⟩ := decDigitsAux_mem hc
    subst hck
    interval_cases k <;> decide

theorem foldl_digit_append (ds : Buf) (c : Char) (a : Nat) :
    ((ds ++ [c]).foldl (fun acc x => acc * 10 + (x.toNat - 48)) a) =
      (ds.foldl (fun acc x => acc * 10 + (x.toNat - 48)) a) * 10 + (c.toNat - 48) := by
  rw [List.foldl_append]
  rfl

theorem decDigitsAux_foldl : ∀ fuel n a, n ≤ fuel →
    (decDigitsAux fuel n).foldl (fun acc x => acc * 10 + (x.toNat - 48)) a =
      a * 10 ^ (decDigitsAux fuel n).length + n := by
  intro fuel
  induction fuel with
  | zero =>
    intro n a hn
    have : n = 0 := Nat.le_zero.mp hn
    subst this
    simp [decDigitsAux]
  | succ fuel ih =>
    intro n a hn
    by_cases hz : n = 0
    · subst hz
      simp [decDigitsAux]
    · rw [decDigitsAux]
      simp only [hz, if_false]
      rw [foldl_digit_append]
      have hd : n / 10 ≤ fuel := by
        have hlt : n / 10 < n := Nat.div_lt_self (Nat.pos_of_ne_zero hz) (by omega)
        omega
      rw [ih (n / 10) a hd]
      have hmod : n % 10 < 10 := Nat.mod_lt _ (by norm_num)
      have htn : (Char.ofNat (48 + n % 10)).toNat = 48 + n % 10 := by
        interval_cases h : n % 10 <;> rfl
      rw [htn]
      simp [List.length_append, pow_succ]
      have := Nat.div_add_mod n 10
      ring_nf
      omega

theorem digitsToNat_decDigits (n : Nat) : digitsToNat (decDigits n) = n := by
  unfold digitsToNat decDigits
  by_cases hz : n = 0
  · subst hz
    rfl
  · simp only [hz, if_false]
    rw [decDigitsAux_foldl n n 0 (le_refl n)]
    simp

theorem revPat_head {ds : Buf} :
    s2l "w:id=\"" ++ ds ++ ['"'] = 'w' :: (s2l ":id=\"" ++ ds ++ ['"']) := rfl

theorem occ0_digitRun {l ds : Buf} (hds : ∀ c ∈ ds, c.isDigit = true)
    (h : occAt (s2l "w:id=\"" ++ ds ++ ['"']) l 0) :
    (s2l "w:id=\"").isPrefixOf l = true ∧
      ∃ tail, digitRun (l.drop 6) = (ds, '"' :: tail) := by
  obtain ⟨tail, hl⟩ := h
  rw [List.drop_zero] at hl
  subst hl
  constructor
  · rw [List.isPrefixOf_iff_prefix]
    exact ⟨ds ++ ['"'] ++ tail, by simp [List.append_assoc]⟩
  · refine ⟨tail, ?_⟩
    have hre : (s2l "w:id=\"" ++ ds ++ ['"'] ++ tail) =
        s2l "w:id=\"" ++ (ds ++ '"' :: tail) := by
      simp [List.append_assoc]
    rw [hre]
    have h6 : (s2l "w:id=\"").length = 6 := rfl
    rw [show (6 : Nat) = (s2l "w:id=\"").length from rfl, List.drop_left]
    exact digitRun_append hds (fun c hc => by
      simp at hc
      subst hc
      rfl)

theorem no_w_interior {dd rest : Buf} (hdd : ∀ c ∈ dd, c.isDigit = true) :
    ∀ j, 0 < j → j < 7 + dd.length →
      (s2l "w:id=\"" ++ (dd ++ '"' :: rest))[j]? ≠ some 'w' := by
  intro j hj0 hj hw
  by_cases h6 : j < 6
  · rw [List.getElem?_append_left (by simp [s2l]; omega)] at hw
    have hp6 : s2l "w:id=\"" = ['w', ':', 'i', 'd', '=', '"'] := rfl
    rw [hp6] at hw
    interval_cases j <;> simp at hw
  · have h6' : 6 ≤ j := le_of_not_lt h6
    rw [List.getElem?_append_right (by simp [s2l]; omega)] at hw
    have h6l : (s2l "w:id=\"").length = 6 := rfl
    rw [h6l] at hw
    by_cases hd : j - 6 < dd.length
    · rw [List.getElem?_append_left hd] at hw
      have hmem := List.getElem?_mem hw
      have := hdd _ hmem
      simp at this
    · have hje : j - 6 = dd.length := by omega
      rw [List.getElem?_append_right (le_of_not_lt hd), hje, Nat.sub_self] at hw
      simp at hw

theorem occAt_shift_cons {pat t : Buf} {c : Char} {i : Nat}
    (h : occAt pat (c :: t) (i + 1)) : occAt pat t i := by
  unfold occAt at h ⊢
  simpa using h

theorem occAt_cons_of {pat t : Buf} (c : Char) {i : Nat}
    (h : occAt pat t i) : occAt pat (c :: t) (i + 1) := by
  unfold occAt at h ⊢
  simpa using h

theorem revIdScan_complete : ∀ fuel l i id, l.length < fuel →
    occAt (s2l "w:id=\"" ++ decDigits id ++ ['"']) l i →
    id ∈ revIdScan fuel l := by
  intro fuel
  induction fuel with
  | zero => intro l i id hlen _; omega
  | succ fuel ih =>
    intro l i id hlen hocc
    cases l with
    | nil =>
      obtain ⟨tail, hl⟩ := hocc
      have := congrArg List.length hl
      simp [s2l] at this
    | cons c t =>
      by_cases hp : (s2l "w:id=\"").isPrefixOf (c :: t)
      · cases hdr : digitRun ((c :: t).drop 6) with
        | mk dsr r =>
          cases dsr with
          | nil =>
            have hi0 : i ≠ 0 := by
              intro hi
              subst hi
              obtain ⟨_, tail, hdr2⟩ := occ0_digitRun (@decDigits_isDigit id) hocc
              rw [hdr] at hdr2
              have := congrArg Prod.fst hdr2
              simp at this
              exact decDigits_ne_nil id this
            obtain ⟨k, hk⟩ : ∃ k, i = k + 1 := ⟨i - 1, by omega⟩
            subst hk
            have hocc2 := occAt_shift_cons hocc
            have := ih t k id (by simp at hlen; omega) hocc2
            have hdr5 : digitRun (List.drop 5 t) = ([], r) := hdr
            simp [revIdScan, hp, hdr5]
            exact this
          | cons d ds =>
            cases r with
            | nil =>
              have hi0 : i ≠ 0 := by
                intro hi
                subst hi
                obtain ⟨_, tail, hdr2⟩ := occ0_digitRun (@decDigits_isDigit id) hocc
                rw [hdr] at hdr2
                have := congrArg Prod.snd hdr2
                simp at this
              obtain ⟨k, hk⟩ : ∃ k, i = k + 1 := ⟨i - 1, by omega⟩
              subst hk
              have hocc2 := occAt_shift_cons hocc
              have := ih t k id (by simp at hlen; omega) hocc2
              have hdr5 : digitRun (List.drop 5 t) = (d :: ds, []) := hdr
              simp [revIdScan, hp, hdr5]
              exact this
            | cons e rest2 =>
              by_cases he : e = '"'
              · subst he
                obtain ⟨hde, hdig, hrh⟩ := digitRun_eq hdr
                have hl6 : (c :: t).take 6 = s2l "w:id=\"" := by
                  rw [List.isPrefixOf_iff_prefix] at hp
                  rw [List.prefix_iff_eq_take] at hp
                  exact hp.symm
                have hldec : c :: t = s2l "w:id=\"" ++ ((d :: ds) ++ '"' :: rest2) := by
                  conv_lhs => rw [← List.take_append_drop 6 (c :: t)]
                  rw [hl6, hde]
                by_cases hi : i = 0
                · subst hi
                  obtain ⟨_, tail, hdr2⟩ := occ0_digitRun (@decDigits_isDigit id) hocc
                  rw [hdr] at hdr2
                  have h1 := congrArg Prod.fst hdr2
                  simp at h1
                  have hdr5 : digitRun (List.drop 5 t) = (d :: ds, '"' :: rest2) := hdr
                  simp [revIdScan, hp, hdr5]
                  left
                  rw [h1, digitsToNat_decDigits]
                · have hw : (c :: t)[i]? = some 'w' := by
                    have : occAt ('w' :: (s2l ":id=\"" ++ decDigits id ++ ['"']))
                        (c :: t) i := by
                      rw [← revPat_head]
                      exact hocc
                    exact occAt_head this
                  have hge : 7 + (d :: ds).length ≤ i := by
                    by_contra hlt
                    push_neg at hlt
                    exact no_w_interior hdig i (by omega) hlt (hldec ▸ hw)
                  have hocc3 : occAt (s2l "w:id=\"" ++ decDigits id ++ ['"'])
                      rest2 (i - (7 + (d :: ds).length)) := by
                    have h2 := hldec ▸ hocc
                    have hlen2 : (s2l "w:id=\"" ++ ((d :: ds) ++ ['"'])).length =
                        7 + (d :: ds).length := by
                      simp [s2l]
                      omega
                    have hre : s2l "w:id=\"" ++ ((d :: ds) ++ '"' :: rest2) =
                        (s2l "w:id=\"" ++ ((d :: ds) ++ ['"'])) ++ rest2 := by
                      simp [List.append_assoc]
                    rw [hre] at h2
                    have := occAt_append_elim_right h2 (by rw [hlen2]; omega)
                    rwa [hlen2] at this
                  have hrl : rest2.length < fuel := by
                    have := congrArg List.length hldec
                    simp [s2l] at this hlen
                    omega
                  have := ih rest2 (i - (7 + (d :: ds).length)) id hrl hocc3
                  have hdr5 : digitRun (List.drop 5 t) = (d :: ds, '"' :: rest2) := hdr
                  simp [revIdScan, hp, hdr5]
                  right
                  exact this
              · have hi0 : i ≠ 0 := by
                  intro hi
                  subst hi
                  obtain ⟨_, tail, hdr2⟩ := occ0_digitRun (@decDigits_isDigit id) hocc
                  rw [hdr] at hdr2
                  have := congrArg Prod.snd hdr2
                  simp at this
                  exact he this.1
                obtain ⟨k, hk⟩ : ∃ k, i = k + 1 := ⟨i - 1, by omega⟩
                subst hk
                have hocc2 := occAt_shift_cons hocc
                have := ih t k id (by simp at hlen; omega) hocc2
                have hdr5 : digitRun (List.drop 5 t) = (d :: ds, e :: rest2) := hdr
                simp [revIdScan, hp, hdr5, he]
                exact this
      · have hi0 : i ≠ 0 := by
          intro hi
          subst hi
          obtain ⟨h1, _⟩ := occ0_digitRun (@decDigits_isDigit id) hocc
          exact hp h1
        obtain ⟨k, hk⟩ : ∃ k, i = k + 1 := ⟨i - 1, by omega⟩
        subst hk
        have hocc2 := occAt_shift_cons hocc
        have := ih t k id (by simp at hlen; omega) hocc2
        simp [revIdScan, hp]
        exact this

theorem revIdScan_sound : ∀ fuel l id, id ∈ revIdScan fuel l →
    ∃ i ds, ds ≠ [] ∧ (∀ c ∈ ds, c.isDigit = true) ∧ digitsToNat ds = id ∧
      occAt (s2l "w:id=\"" ++ ds ++ ['"']) l i := by
  intro fuel
  induction fuel with
  | zero => intro l id h; simp [revIdScan] at h
  | succ fuel ih =>
    intro l id h
    cases l with
    | nil => simp [revIdScan] at h
    | cons c t =>
      by_cases hp : (s2l "w:id=\"").isPrefixOf (c :: t)
      · cases hdr : digitRun ((c :: t).drop 6) with
        | mk dsr r =>
          cases dsr with
          | nil =>
            have hdr5 : digitRun (List.drop 5 t) = ([], r) := hdr
            simp [revIdScan, hp, hdr5] at h
            obtain ⟨i, ds, h1, h2, h3, h4⟩ := ih t id h
            exact ⟨i + 1, ds, h1, h2, h3, occAt_cons_of c h4⟩
          | cons d ds =>
            cases r with
            | nil =>
              have hdr5 : digitRun (List.drop 5 t) = (d :: ds, []) := hdr
              simp [revIdScan, hp, hdr5] at h
              obtain ⟨i, ds2, h1, h2, h3, h4⟩ := ih t id h
              exact ⟨i + 1, ds2, h1, h2, h3, occAt_cons_of c h4⟩
            | cons e rest2 =>
              by_cases he : e = '"'
              · subst he
                have hdr5 : digitRun (List.drop 5 t) = (d :: ds, '"' :: rest2) := hdr
                simp [revIdScan, hp, hdr5] at h
                obtain ⟨hde, hdig, hrh⟩ := digitRun_eq hdr
                have hl6 : (c :: t).take 6 = s2l "w:id=\"" := by
                  rw [List.isPrefixOf_iff_prefix] at hp
                  rw [List.prefix_iff_eq_take] at hp
                  exact hp.symm
                have hldec : c :: t = s2l "w:id=\"" ++ ((d :: ds) ++ '"' :: rest2) := by
                  conv_lhs => rw [← List.take_append_drop 6 (c :: t)]
                  rw [hl6, hde]
                rcases h with h | h
                · refine ⟨0, d :: ds, by simp, hdig, h.symm, ?_⟩
                  refine ⟨rest2, ?_⟩
                  rw [List.drop_zero, hldec]
                  simp [List.append_assoc]
                · obtain ⟨i, ds2, h1, h2, h3, h4⟩ := ih rest2 id h
                  refine ⟨(7 + (d :: ds).length) + i, ds2, h1, h2, h3, ?_⟩
                  rw [hldec]
                  have hre : s2l "w:id=\"" ++ ((d :: ds) ++ '"' :: rest2) =
                      (s2l "w:id=\"" ++ ((d :: ds) ++ ['"'])) ++ rest2 := by
                    simp [List.append_assoc]
                  rw [hre]
                  have hlen2 : (s2l "w:id=\"" ++ ((d :: ds) ++ ['"'])).length =
                      7 + (d :: ds).length := by
                    simp [s2l]
                    omega
                  have := occAt_append_right (s2l "w:id=\"" ++ ((d :: ds) ++ ['"'])) h4
                  rwa [hlen2] at this
              · have hdr5 : digitRun (List.drop 5 t) = (d :: ds, e :: rest2) := hdr
                simp [revIdScan, hp, hdr5, he] at h
                obtain ⟨i, ds2, h1, h2, h3, h4⟩ := ih t id h
                exact ⟨i + 1, ds2, h1, h2, h3, occAt_cons_of c h4⟩
      · simp [revIdScan, hp] at h
        obtain ⟨i, ds, h1, h2, h3, h4⟩ := ih t id h
        exact ⟨i + 1, ds, h1, h2, h3, occAt_cons_of c h4⟩

theorem foldl_max_init_le (l : List Nat) (b : Nat) : b ≤ l.foldl max b := by
  induction l generalizing b with
  | nil => simp
  | cons c t ih => exact le_trans (le_max_left b c) (ih (max b c))

theorem foldl_max_mem_le {l : List Nat} {a : Nat} (b : Nat) (h : a ∈ l) :
    a ≤ l.foldl max b := by
  induction l generalizing b with
  | nil => simp at h
  | cons c t ih =>
    rcases List.mem_cons.mp h with h | h
    · subst h
      exact le_trans (le_max_right b a) (foldl_max_init_le t (max b a))
    · exact ih (max b c) h

theorem foldl_max_eq_init_or_mem (l : List Nat) (b : Nat) :
    l.foldl max b = b ∨ l.foldl max b ∈ l := by
  induction l generalizing b with
  | nil => left; rfl
  | cons c t ih =>
    rcases ih (max b c) with h | h
    · rcases max_choice b c with h2 | h2
      · left
        rw [List.foldl_cons]
        rw [h2] at h ⊢
        exact h
      · right
        rw [List.foldl_cons, h, h2]
        exact List.mem_cons_self c t
    · right
      exact List.mem_cons_of_mem c h

theorem occAt_of_drop {pat l : Buf} {q i : Nat} (h : occAt pat (l.drop q) i) :
    occAt pat l (q + i) := by
  unfold occAt at h ⊢
  rw [List.drop_drop] at h
  exact h

theorem idGroupAt_sound {l : Buf} {v len : Nat} (h : idGroupAt l = some (v, len)) :
    ∃ ds, ds ≠ [] ∧ (∀ c ∈ ds, c.isDigit = true) ∧ digitsToNat ds = v ∧
      len = 7 + ds.length ∧ occAt (s2l "w:id=\"" ++ ds ++ ['"']) l 0 := by
  by_cases hp : (s2l "w:id=\"").isPrefixOf l
  · cases hdr : digitRun (l.drop 6) with
    | mk dsr r =>
      cases dsr with
      | nil => simp [idGroupAt, hp, hdr] at h
      | cons d ds =>
        cases r with
        | nil => simp [idGroupAt, hp, hdr] at h
        | cons e rest2 =>
          by_cases he : e = '"'
          · subst he
            simp [idGroupAt, hp, hdr] at h
            obtain ⟨hv, hlen⟩ := h
            obtain ⟨hde, hdig, hrh⟩ := digitRun_eq hdr
            have hl6 : l.take 6 = s2l "w:id=\"" := by
              rw [List.isPrefixOf_iff_prefix] at hp
              rw [List.prefix_iff_eq_take] at hp
              exact hp.symm
            have hldec : l = s2l "w:id=\"" ++ ((d :: ds) ++ '"' :: rest2) := by
              conv_lhs => rw [← List.take_append_drop 6 l]
              rw [hl6, hde]
            refine ⟨d :: ds, by simp, hdig, hv, by simp; omega, rest2, ?_⟩
            rw [List.drop_zero, hldec]
            simp [List.append_assoc]
          · simp [idGroupAt, hp, hdr, he] at h
  · simp [idGroupAt, hp] at h

theorem greedyIdAux_sound {after : Buf} : ∀ j0 j v len,
    greedyIdAux after j0 = some (j, v, len) →
    j ≤ j0 ∧ idGroupAt (after.drop j) = some (v, len) := by
  intro j0
  induction j0 with
  | zero =>
    intro j v len h
    cases hg : idGroupAt after with
    | none => simp [greedyIdAux, hg] at h
    | some p =>
      cases p with
      | mk v0 len0 =>
        simp [greedyIdAux, hg] at h
        obtain ⟨rfl, rfl, rfl⟩ := h
        exact ⟨le_refl 0, by simpa using hg⟩
  | succ j0 ih =>
    intro j v len h
    cases hg : idGroupAt (after.drop (j0 + 1)) with
    | none =>
      simp [greedyIdAux, hg] at h
      obtain ⟨h1, h2⟩ := ih j v len h
      exact ⟨by omega, h2⟩
    | some p =>
      cases p with
      | mk v0 len0 =>
        simp [greedyIdAux, hg] at h
        obtain ⟨rfl, rfl, rfl⟩ := h
        exact ⟨le_refl _, hg⟩

theorem take_window_no_gt {after : Buf} {j : Nat} {c : Char}
    (hj : j ≤ (after.takeWhile (fun ch => ch != '>')).length)
    (hc : c ∈ after.take j) : c ≠ '>' := by
  have hpre : after.takeWhile (fun ch => ch != '>') <+: after :=
    List.takeWhile_prefix _
  have heq : after.takeWhile (fun ch => ch != '>') =
      after.take ((after.takeWhile (fun ch => ch != '>')).length) :=
    List.prefix_iff_eq_take.mp hpre
  have htake : after.take j = (after.takeWhile (fun ch => ch != '>')).take j := by
    rw [heq, List.take_take, min_eq_left hj]
  rw [htake] at hc
  have hmem : c ∈ after.takeWhile (fun ch => ch != '>') :=
    List.take_subset j _ hc
  have hp := List.mem_takeWhile_imp hmem
  simpa using hp

theorem noteIdScan_sound (openPat : Buf) : ∀ fuel l v, v ∈ noteIdScan openPat fuel l →
    ∃ i gap ds, (∀ c ∈ gap, c ≠ '>') ∧ ds ≠ [] ∧ (∀ c ∈ ds, c.isDigit = true) ∧
      digitsToNat ds = v ∧
      occAt (openPat ++ gap ++ (s2l "w:id=\"" ++ ds ++ ['"'])) l i := by
  intro fuel
  induction fuel with
  | zero => intro l v h; simp [noteIdScan] at h
  | succ fuel ih =>
    intro l v h
    cases l with
    | nil => simp [noteIdScan] at h
    | cons c t =>
      by_cases hp : openPat.isPrefixOf (c :: t)
      · cases hg : greedyIdAux ((c :: t).drop openPat.length)
          ((((c :: t).drop openPat.length).takeWhile (fun ch => ch != '>')).length) with
        | some p =>
          obtain ⟨j, v0, len⟩ := p
          simp [noteIdScan, hp, hg] at h
          obtain ⟨hj, hid⟩ := greedyIdAux_sound _ j v0 len hg
          rcases h with h | h
          · subst h
            obtain ⟨ds, hne, hdig, hval, hlen, htl, hdrop⟩ := idGroupAt_sound hid
            rw [List.drop_zero] at hdrop
            refine ⟨0, ((c :: t).drop openPat.length).take j, ds,
              fun x hx => take_window_no_gt hj hx, hne, hdig, hval, ?_⟩
            refine ⟨htl, ?_⟩
            rw [List.drop_zero]
            have hsplit : c :: t =
                openPat ++ ((c :: t).drop openPat.length) := by
              conv_lhs => rw [← List.take_append_drop openPat.length (c :: t)]
              rw [List.isPrefixOf_iff_prefix] at hp
              rw [List.prefix_iff_eq_take] at hp
              rw [← hp]
            have hafter : ((c :: t).drop openPat.length) =
                (((c :: t).drop openPat.length).take j) ++
                  (s2l "w:id=\"" ++ ds ++ ['"']) ++ htl := by
              conv_lhs =>
                rw [← List.take_append_drop j ((c :: t).drop openPat.length)]
              rw [← hdrop]
              simp [List.append_assoc]
            conv_rhs => rw [hsplit, hafter]
            simp [List.append_assoc]
          · obtain ⟨i, gap, ds, h1, h2, h3, h4, h5⟩ := ih _ v h
            exact ⟨(openPat.length + (j + len)) + i, gap, ds, h1, h2, h3, h4,
              occAt_of_drop h5⟩
        | none =>
          simp [noteIdScan, hp, hg] at h
          obtain ⟨i, gap, ds, h1, h2, h3, h4, h5⟩ := ih t v h
          exact ⟨i + 1, gap, ds, h1, h2, h3, h4, occAt_cons_of c h5⟩
      · simp [noteIdScan, hp] at h
        obtain ⟨i, gap, ds, h1, h2, h3, h4, h5⟩ := ih t v h
        exact ⟨i + 1, gap, ds, h1, h2, h3, h4, occAt_cons_of c h5⟩

/-- C5: next-id allocation.  For the revision namespace (Go
`getNextRevisionID`): on a buffer with no matches the result is 1; every
canonically-written id occurring in the buffer (and small enough for
`strconv.Atoi`) is strictly below the result; every scanned id is realized
by an occurrence of `w:id="<digits>"`; and the result is 1 or exactly one
more than a scanned id, i.e. max(existing)+1.  For the note namespace (Go
`getNextNoteID`): no matches give 1; every matched id is strictly below
the result; every matched id is realized by an opening tag, a `>`-free
attribute gap and a `w:id="<digits>"` occurrence; and the result is 1 or
exactly one more than a matched id. -/
theorem nextId_spec (doc nt : Buf) :
    (revIdScan (doc.length + 1) doc = [] → getNextRevisionID doc = 1) ∧
    (∀ id i, id ≤ int64Max →
      occAt (s2l "w:id=\"" ++ decDigits id ++ ['"']) doc i →
      id < getNextRevisionID doc) ∧
    (∀ id, id ∈ revIdScan (doc.length + 1) doc →
      ∃ i ds, ds ≠ [] ∧ (∀ c ∈ ds, c.isDigit = true) ∧ digitsToNat ds = id ∧
        occAt (s2l "w:id=\"" ++ ds ++ ['"']) doc i) ∧
    (getNextRevisionID doc = 1 ∨
      ∃ id, id ∈ revIdScan (doc.length + 1) doc ∧ getNextRevisionID doc = id + 1) ∧
    (noteIdScan (s2l "<w:" ++ nt) (doc.length + 1) doc = [] →
      getNextNoteID doc nt = 1) ∧
    (∀ id, id ∈ noteIdScan (s2l "<w:" ++ nt) (doc.length + 1) doc →
      id ≤ int64Max → id < getNextNoteID doc nt) ∧
    (∀ id, id ∈ noteIdScan (s2l "<w:" ++ nt) (doc.length + 1) doc →
      ∃ i gap ds, (∀ c ∈ gap, c ≠ '>') ∧ ds ≠ [] ∧
        (∀ c ∈ ds, c.isDigit = true) ∧ digitsToNat ds = id ∧
        occAt ((s2l "<w:" ++ nt) ++ gap ++ (s2l "w:id=\"" ++ ds ++ ['"'])) doc i) ∧
    (getNextNoteID doc nt = 1 ∨
      ∃ id, id ∈ noteIdScan (s2l "<w:" ++ nt) (doc.length + 1) doc ∧
        getNextNoteID doc nt = id + 1) := by
  refine ⟨?_, ?_, ?_, ?_, ?_, ?_, ?_, ?_⟩
  · intro h
    unfold getNextRevisionID
    rw [h]
    rfl
  · intro id i hcap hocc
    have hmem := revIdScan_complete (doc.length + 1) doc i id (by omega) hocc
    have hf : id ∈ (revIdScan (doc.length + 1) doc).filter
        (fun id => id ≤ int64Max) := by
      rw [List.mem_filter]
      exact ⟨hmem, by simpa using hcap⟩
    have := foldl_max_mem_le 0 hf
    unfold getNextRevisionID
    omega
  · intro id h
    exact revIdScan_sound _ doc id h
  · rcases foldl_max_eq_init_or_mem
      ((revIdScan (doc.length + 1) doc).filter (fun id => id ≤ int64Max)) 0 with h | h
    · left
      unfold getNextRevisionID
      rw [h]
    · right
      exact ⟨_, (List.mem_filter.mp h).1, rfl⟩
  · intro h
    unfold getNextNoteID
    rw [h]
    rfl
  · intro id hmem hcap
    have hf : id ∈ (noteIdScan (s2l "<w:" ++ nt) (doc.length + 1) doc).filter
        (fun id => id ≤ int64Max) := by
      rw [List.mem_filter]
      exact ⟨hmem, by simpa using hcap⟩
    have := foldl_max_mem_le 0 hf
    unfold getNextNoteID
    omega
  · intro id h
    exact noteIdScan_sound _ _ doc id h
  · rcases foldl_max_eq_init_or_mem
      ((noteIdScan (s2l "<w:" ++ nt) (doc.length + 1) doc).filter
        (fun id => id ≤ int64Max)) 0 with h | h
    · left
      unfold getNextNoteID
      rw [h]
    · right
      exact ⟨_, (List.mem_filter.mp h).1, rfl⟩

set_option maxRecDepth 100000 in
/-- Witness for C5: on the concrete buffer the next revision id exceeds
the occurring id 7, the next footnote id exceeds the matched id 2, and the
empty buffer yields id 1. -/
theorem nextId_spec_witness :
    7 < getNextRevisionID docC5 ∧ 2 < getNextNoteID docC5 (s2l "footnote") ∧
    getNextRevisionID [] = 1 :=
  ⟨(nextId_spec docC5 (s2l "footnote")).2.1 7 28 (by decide) (by decide),
   (nextId_spec docC5 (s2l "footnote")).2.2.2.2.2.1 2 (by decide) (by decide),
   (nextId_spec [] []).1 (by decide)⟩

theorem lastIdxAux_some_ne_none (pat : Buf) : ∀ fuel l base a,
    lastIdxAux pat fuel l base (some a) ≠ none := by
  intro fuel
  induction fuel with
  | zero => intro l base a h; simp [lastIdxAux] at h
  | succ fuel ih =>
    intro l base a h
    cases hf : firstIdx pat l with
    | none => simp [lastIdxAux, hf] at h
    | some i =>
      simp [lastIdxAux, hf] at h
      exact ih _ _ _ h

theorem lastIdxAux_none (pat : Buf) : ∀ fuel l base acc, l.length < fuel →
    lastIdxAux pat fuel l base acc = none →
    acc = none ∧ ∀ q, ¬ occAt pat l q := by
  intro fuel
  induction fuel with
  | zero => intro l base acc hlen _; omega
  | succ fuel _ =>
    intro l base acc hlen h
    cases hf : firstIdx pat l with
    | none =>
      simp [lastIdxAux, hf] at h
      exact ⟨h, firstIdx_none hf⟩
    | some i =>
      simp [lastIdxAux, hf] at h
      exact absurd h (lastIdxAux_some_ne_none pat _ _ _ _)

theorem lastIdxAux_lb (pat : Buf) : ∀ fuel l base a p,
    lastIdxAux pat fuel l base (some a) = some p → p = a ∨ base ≤ p := by
  intro fuel
  induction fuel with
  | zero =>
    intro l base a p h
    simp [lastIdxAux] at h
    exact Or.inl h.symm
  | succ fuel ih =>
    intro l base a p h
    cases hf : firstIdx pat l with
    | none =>
      simp [lastIdxAux, hf] at h
      exact Or.inl h.symm
    | some i =>
      simp [lastIdxAux, hf] at h
      rcases ih _ _ _ _ h with h2 | h2
      · right; omega
      · right; omega

theorem lastIdxAux_sound (pat : Buf) (hpat : pat ≠ []) :
    ∀ fuel l base acc p, l.length < fuel →
    lastIdxAux pat fuel l base acc = some p →
    (∃ q, occAt pat l q ∧ p = base + q) ∨ (acc = some p ∧ ∀ q, ¬ occAt pat l q) := by
  intro fuel
  induction fuel with
  | zero => intro l base acc p hlen _; omega
  | succ fuel ih =>
    intro l base acc p hlen h
    cases hf : firstIdx pat l with
    | none =>
      simp [lastIdxAux, hf] at h
      exact Or.inr ⟨by rw [h], firstIdx_none hf⟩
    | some i =>
      simp [lastIdxAux, hf] at h
      have hocc0 := firstIdx_isOcc hf
      have hilen : i + pat.length ≤ l.length := occAt_length hocc0 hpat
      have hplen : 0 < pat.length := List.length_pos.mpr hpat
      have hrec : (l.drop (i + 1)).length < fuel := by
        simp [List.length_drop]
        omega
      rcases ih _ _ _ _ hrec h with ⟨q, hq, hpq⟩ | ⟨hacc, _⟩
      · left
        refine ⟨(i + 1) + q, occAt_drop.mp hq, by omega⟩
      · left
        have : p = base + i := by
          have := Option.some.inj hacc
          omega
        exact ⟨i, hocc0, this⟩

theorem lastIdxAux_ge (pat : Buf) (hpat : pat ≠ []) :
    ∀ fuel l base acc p, l.length < fuel →
    lastIdxAux pat fuel l base acc = some p →
    ∀ q, occAt pat l q → base + q ≤ p := by
  intro fuel
  induction fuel with
  | zero => intro l base acc p hlen _; omega
  | succ fuel ih =>
    intro l base acc p hlen h q hq
    cases hf : firstIdx pat l with
    | none => exact absurd hq (firstIdx_none hf q)
    | some i =>
      simp [lastIdxAux, hf] at h
      have hiq : i ≤ q := by
        by_contra hlt
        exact firstIdx_least hf q (by omega) hq
      have hocc0 := firstIdx_isOcc hf
      have hilen : i + pat.length ≤ l.length := occAt_length hocc0 hpat
      have hplen : 0 < pat.length := List.length_pos.mpr hpat
      have hrec : (l.drop (i + 1)).length < fuel := by
        simp [List.length_drop]
        omega
      by_cases hqi : q = i
      · subst hqi
        rcases lastIdxAux_lb pat _ _ _ _ _ h with h2 | h2 <;> omega
      · have hq2 : occAt pat (l.drop (i + 1)) (q - (i + 1)) := by
          rw [occAt_drop]
          rwa [show (i + 1) + (q - (i + 1)) = q from by omega]
        have := ih _ _ _ _ hrec h _ hq2
        omega

theorem lastIdx_none_no_occ {pat l : Buf} (h : lastIdx pat l = none) :
    ∀ q, ¬ occAt pat l q :=
  (lastIdxAux_none pat _ l 0 none (by omega) h).2

theorem lastIdx_sound {pat l : Buf} {p : Nat} (hpat : pat ≠ [])
    (h : lastIdx pat l = some p) : occAt pat l p := by
  rcases lastIdxAux_sound pat hpat _ l 0 none p (by omega) h with
    ⟨q, hq, hpq⟩ | ⟨hacc, _⟩
  · rwa [show p = q from by omega]
  · simp at hacc

theorem lastIdx_greatest {pat l : Buf} {p : Nat} (hpat : pat ≠ [])
    (h : lastIdx pat l = some p) : ∀ q, occAt pat l q → q ≤ p := by
  intro q hq
  have := lastIdxAux_ge pat hpat _ l 0 none p (by omega) h q hq
  omega

/-- C7: planning an insertion at the End position.  The chosen body end is
the first occurrence of the closing body tag; when no section-properties
block occurs before it the TOC is spliced exactly there, and when one
does, the TOC is spliced at the last `<w:sectPr` occurrence before the
body end — an offset strictly before the body end. -/
theorem insertTOC_end_spec (findBodyStart : Buf → Option Nat)
    (findParaRange : Buf → Buf → Option (Nat × Nat))
    (docXML tocXML anchor : Buf) (bodyEnd : Nat)
    (hbody : firstIdx (s2l "</w:body>") docXML = some bodyEnd) :
    occAt (s2l "</w:body>") docXML bodyEnd ∧
    (∀ q, q < bodyEnd → ¬ occAt (s2l "</w:body>") docXML q) ∧
    ((lastIdx (s2l "<w:sectPr") (docXML.take bodyEnd) = none ∧
      (∀ q, ¬ occAt (s2l "<w:sectPr") (docXML.take bodyEnd) q) ∧
      insertTOCAtPosition findBodyStart findParaRange docXML tocXML
          .positionEnd anchor =
        .ok (docXML.take bodyEnd ++ tocXML ++ docXML.drop bodyEnd)) ∨
     (∃ p, lastIdx (s2l "<w:sectPr") (docXML.take bodyEnd) = some p ∧
       p < bodyEnd ∧ occAt (s2l "<w:sectPr") docXML p ∧
       (∀ q, occAt (s2l "<w:sectPr") (docXML.take bodyEnd) q → q ≤ p) ∧
       insertTOCAtPosition findBodyStart findParaRange docXML tocXML
           .positionEnd anchor =
         .ok (docXML.take p ++ tocXML ++ docXML.drop p))) := by
  have hpat : s2l "<w:sectPr" ≠ [] := by decide
  refine ⟨firstIdx_isOcc hbody, fun q hq => firstIdx_least hbody q hq, ?_⟩
  cases hl : lastIdx (s2l "<w:sectPr") (docXML.take bodyEnd) with
  | none =>
    left
    exact ⟨rfl, lastIdx_none_no_occ hl,
      by simp [insertTOCAtPosition, hbody, hl]⟩
  | some p =>
    right
    have hocc := lastIdx_sound hpat hl
    have hlen := occAt_length hocc hpat
    have hlt : p < bodyEnd := by
      simp [List.length_take, s2l] at hlen
      omega
    exact ⟨p, rfl, hlt, occAt_take_elim hocc, lastIdx_greatest hpat hl,
      by simp [insertTOCAtPosition, hbody, hl]⟩

set_option maxRecDepth 100000 in
/-- Witness for C7: on the concrete body the closing tag is at offset 62,
the final section-properties block starts at offset 32, and the TOC is
spliced at 32, strictly before the body end. -/
theorem insertTOC_end_spec_witness :
    insertTOCAtPosition (fun _ => none) (fun _ _ => none) docC7 (s2l "[TOC]")
        .positionEnd [] =
      .ok (docC7.take 32 ++ s2l "[TOC]" ++ docC7.drop 32) := by
  rcases insertTOC_end_spec (fun _ => none) (fun _ _ => none) docC7 (s2l "[TOC]")
      [] 62 (by decide) with ⟨h1, h2, h3 | h3⟩
  · exact absurd (show occAt (s2l "<w:sectPr") (docC7.take 62) 32 by decide)
      (h3.2.1 32)
  · obtain ⟨p, hp, hlt, hocc, hgr, heq⟩ := h3
    have h32 : lastIdx (s2l "<w:sectPr") (docC7.take 62) = some 32 := by decide
    rw [h32] at hp
    have hp32 : p = 32 := (Option.some.inj hp).symm
    rw [hp32] at heq
    exact heq

theorem getD_eq_get (l : List Buf) (i : Nat) (h : i < l.length) :
    l.getD i [] = l.get ⟨i, h⟩ := by
  induction l generalizing i with
  | nil => simp at h
  | cons x t ih =>
    cases i with
    | zero => rfl
    | succ j =>
      simp at h
      exact ih j (by omega)

theorem list_mid_recon (l : List Buf) (i : Nat) (h : i < l.length) :
    l = l.take i ++ l.getD i [] :: l.drop (i + 1) := by
  rw [getD_eq_get l i h]
  conv_lhs => rw [← List.take_append_drop i l]
  rw [List.drop_eq_getElem_cons h]
  rfl

theorem mid_length (l : List Buf) (x : Buf) (i : Nat) (h : i < l.length) :
    (l.take i ++ x :: l.drop (i + 1)).length = l.length := by
  simp [List.length_take, List.length_drop]
  omega

theorem mid_getD_self (l : List Buf) (x : Buf) (i : Nat) (h : i ≤ l.length) :
    (l.take i ++ x :: l.drop (i + 1)).getD i [] = x := by
  have hlt : (l.take i).length = i := by
    simp [List.length_take]
    omega
  unfold List.getD
  rw [List.get?_eq_getElem?]
  rw [List.getElem?_append_right (le_of_eq hlt)]
  rw [hlt, Nat.sub_self]
  simp

theorem mid_getD_lt (l : List Buf) (x : Buf) {i k : Nat} (hk : k < i)
    (h : i ≤ l.length) : (l.take i ++ x :: l.drop (i + 1)).getD k [] = l.getD k [] := by
  have hlt : (l.take i).length = i := by
    simp [List.length_take]
    omega
  unfold List.getD
  rw [List.get?_eq_getElem?, List.get?_eq_getElem?]
  rw [List.getElem?_append_left (by rw [hlt]; omega)]
  rw [List.getElem?_take, if_pos hk]

theorem mid_getD_gt (l : List Buf) (x : Buf) {i k : Nat} (hk : i < k)
    (h : i ≤ l.length) : (l.take i ++ x :: l.drop (i + 1)).getD k [] = l.getD k [] := by
  have hlt : (l.take i).length = i := by
    simp [List.length_take]
    omega
  unfold List.getD
  rw [List.get?_eq_getElem?, List.get?_eq_getElem?]
  rw [List.getElem?_append_right (by rw [hlt]; omega)]
  rw [hlt]
  have h2 : k - i = (k - i - 1) + 1 := by omega
  rw [h2]
  rw [List.getElem?_cons_succ]
  rw [List.getElem?_drop]
  have h3 : i + 1 + (k - i - 1) = k := by omega
  rw [h3]

theorem mid_take (l : List Buf) (x : Buf) (i : Nat) (h : i ≤ l.length) :
    (l.take i ++ x :: l.drop (i + 1)).take i = l.take i := by
  have h1 : (l.take i).length = i := by simp; omega
  have h2 := List.take_left (l.take i) (x :: l.drop (i + 1))
  rw [h1] at h2
  exact h2

theorem mid_drop (l : List Buf) (x : Buf) (i : Nat) (h : i ≤ l.length) :
    (l.take i ++ x :: l.drop (i + 1)).drop (i + 1) = l.drop (i + 1) := by
  have hre : l.take i ++ x :: l.drop (i + 1) =
      (l.take i ++ [x]) ++ l.drop (i + 1) := by simp
  rw [hre]
  have h1 : (l.take i ++ [x]).length = i + 1 := by simp; omega
  have h2 := List.drop_left (l.take i ++ [x]) (l.drop (i + 1))
  rw [h1] at h2
  exact h2

theorem mid_mem {l : List Buf} {x y : Buf} {i : Nat}
    (hy : y ∈ l.take i ++ x :: l.drop (i + 1)) : y = x ∨ y ∈ l := by
  rcases List.mem_append.mp hy with h | h
  · exact Or.inr (List.take_subset _ _ h)
  · rcases List.mem_cons.mp h with h | h
    · exact Or.inl h
    · exact Or.inr (List.drop_subset _ _ h)

theorem extract_of_occ {pat content : Buf} {p : Nat} (h : occAt pat content p)
    (hpne : pat ≠ []) :
    extractSpan content p (p + pat.length) = pat := by
  have hlen := occAt_length h hpne
  have hpre := @prefix_extract pat content p (p + pat.length) h (by omega)
  have hl : (extractSpan content p (p + pat.length)).length = pat.length := by
    unfold extractSpan
    simp [List.length_take, List.length_drop]
    omega
  exact (hpre.eq_of_length (by omega)).symm

theorem injectSplit_d_cases (cell elt : Buf) :
    (injectSplit cell elt).2.1 = 0 ∨
    ((injectSplit cell elt).2.1 = 9 ∧
      extractSpan cell (injectSplit cell elt).1
        ((injectSplit cell elt).1 + (injectSplit cell elt).2.1) = s2l "<w:tcPr/>") := by
  cases h1 : firstIdx (s2l "<w:tcPr/>") cell with
  | some idx =>
    right
    have hocc := firstIdx_isOcc h1
    have he := extract_of_occ hocc (show s2l "<w:tcPr/>" ≠ [] by decide)
    have hd : (injectSplit cell elt).2.1 = (s2l "<w:tcPr/>").length := by
      simp [injectSplit, h1]
    have hp : (injectSplit cell elt).1 = idx := by
      simp [injectSplit, h1]
    have h9 : (s2l "<w:tcPr/>").length = 9 := rfl
    rw [hd, hp, h9] at *
    exact ⟨rfl, he⟩
  | none =>
    left
    unfold injectSplit
    rw [h1]
    cases h2 : firstIdx (s2l "<w:tcPr>") cell with
    | some idx => simp
    | none =>
      cases h3 : firstIdx (s2l "<w:tcPr ") cell with
      | some idx =>
        cases h4 : firstIdx ['>'] (cell.drop idx) with
        | some ci => simp [h4]
        | none =>
          cases h5 : firstIdx ['>'] cell with
          | some oe => simp [h4, h5]
          | none => simp [h4, h5]
      | none =>
        cases h5 : firstIdx ['>'] cell with
        | some oe => simp [h5]
        | none => simp [h5]

theorem vmergeStep_seg
    {preD postD preT postT preR postR : Buf} {tbls rows cells : List Buf}
    {ti ri col : Nat} (elt : Buf)
    (hdoc : SegWF (s2l "w:tbl") preD tbls postD)
    (htblseg : SegWF (s2l "w:tr") preT rows postT)
    (hrowseg : SegWF (s2l "w:tc") preR cells postR)
    (hti1 : 1 ≤ ti) (hti2 : ti ≤ tbls.length)
    (hri1 : 1 ≤ ri) (hri2 : ri ≤ rows.length)
    (hcol1 : 1 ≤ col) (hcol2 : col ≤ cells.length)
    (htblv : tbls.getD (ti - 1) [] = assemble preT rows postT)
    (hrowv : rows.getD (ri - 1) [] = assemble preR cells postR) :
    vmergeStep (assemble preD tbls postD) ti ri col elt =
      .ok (assemble preD (tbls.take (ti - 1) ++
        (assemble preT (rows.take (ri - 1) ++
          (assemble preR (cells.take (col - 1) ++
            injectTcPrElement (cells.getD (col - 1) []) elt :: cells.drop col)
            postR) :: rows.drop ri) postT) ::
        tbls.drop ti) postD) := by
  have hti3 : ti - 1 < tbls.length := by omega
  have hri3 : ri - 1 < rows.length := by omega
  have hcol3 : col - 1 < cells.length := by omega
  unfold vmergeStep
  have hTop := findNth_assemble (by decide) hdoc hti1 hti2
  simp only [hTop]
  have hle1 := @extract_assemble preD postD tbls (ti - 1) hti3
  rw [show ti - 1 + 1 = ti from by omega] at hle1
  rw [← getD_eq_get tbls (ti - 1) hti3] at hle1
  rw [hle1, htblv]
  have hRow := findNth_assemble (by decide) htblseg hri1 hri2
  simp only [hRow]
  have hle2 := @extract_assemble preT postT rows (ri - 1) hri3
  rw [show ri - 1 + 1 = ri from by omega] at hle2
  rw [← getD_eq_get rows (ri - 1) hri3] at hle2
  rw [hle2, hrowv]
  have hCell := findNth_assemble (by decide) hrowseg hcol1 hcol2
  simp only [hCell]
  have hle3 := @extract_assemble preR postR cells (col - 1) hcol3
  rw [show col - 1 + 1 = col from by omega] at hle3
  rw [← getD_eq_get cells (col - 1) hcol3] at hle3
  rw [hle3]
  have hnewTR : (assemble preR cells postR).take
      (preR.length + sumLen (cells.take (col - 1))) ++
      injectTcPrElement (cells.getD (col - 1) []) elt ++
      (assemble preR cells postR).drop
      (preR.length + sumLen (cells.take col)) =
      assemble preR (cells.take (col - 1) ++
        injectTcPrElement (cells.getD (col - 1) []) elt :: cells.drop col) postR := by
    have h := @splice_assemble_range preR postR cells (col - 1) col
      (injectTcPrElement (cells.getD (col - 1) []) elt)
    unfold splice at h
    exact h
  rw [hnewTR]
  have hnewTbl : (assemble preT rows postT).take
      (preT.length + sumLen (rows.take (ri - 1))) ++
      (assemble preR (cells.take (col - 1) ++
        injectTcPrElement (cells.getD (col - 1) []) elt :: cells.drop col) postR) ++
      (assemble preT rows postT).drop
      (preT.length + sumLen (rows.take ri)) =
      assemble preT (rows.take (ri - 1) ++
        (assemble preR (cells.take (col - 1) ++
          injectTcPrElement (cells.getD (col - 1) []) elt :: cells.drop col) postR) ::
        rows.drop ri) postT := by
    have h := @splice_assemble_range preT postT rows (ri - 1) ri
      (assemble preR (cells.take (col - 1) ++
        injectTcPrElement (cells.getD (col - 1) []) elt :: cells.drop col) postR)
    unfold splice at h
    exact h
  rw [hnewTbl]
  have hnewDoc : (assemble preD tbls postD).take
      (preD.length + sumLen (tbls.take (ti - 1))) ++
      (assemble preT (rows.take (ri - 1) ++
        (assemble preR (cells.take (col - 1) ++
          injectTcPrElement (cells.getD (col - 1) []) elt :: cells.drop col) postR) ::
        rows.drop ri) postT) ++
      (assemble preD tbls postD).drop
      (preD.length + sumLen (tbls.take ti)) =
      assemble preD (tbls.take (ti - 1) ++
        (assemble preT (rows.take (ri - 1) ++
          (assemble preR (cells.take (col - 1) ++
            injectTcPrElement (cells.getD (col - 1) []) elt :: cells.drop col) postR) ::
          rows.drop ri) postT) ::
        tbls.drop ti) postD := by
    have h := @splice_assemble_range preD postD tbls (ti - 1) ti
      (assemble preT (rows.take (ri - 1) ++
        (assemble preR (cells.take (col - 1) ++
          injectTcPrElement (cells.getD (col - 1) []) elt :: cells.drop col) postR) ::
        rows.drop ri) postT)
    unfold splice at h
    exact h
  rw [hnewDoc]

theorem vElt_cases (sr r : Nat) : vElt sr r = vMergeRestart ∨ vElt sr r = vMergeCont := by
  unfold vElt
  by_cases h : r = sr
  · simp [h]
  · simp [h]

theorem vElt_ins_props {cell : Buf} {sr r : Nat}
    (hne : (injectSplit cell (vElt sr r)).2.2 ≠ []) :
    InsOK (s2l "w:tc") (injectSplit cell (vElt sr r)).2.2 ∧
    NoOcc (closeT (s2l "w:tr")) (injectSplit cell (vElt sr r)).2.2 ∧
    NoOcc (closeT (s2l "w:tbl")) (injectSplit cell (vElt sr r)).2.2 := by
  rcases injectSplit_ins_cases cell (vElt sr r) with hc | hc | hc
  · rw [hc]
    rcases vElt_cases sr r with h | h <;> rw [h] <;>
      exact ⟨by decide, by decide, by decide⟩
  · rw [hc]
    rcases vElt_cases sr r with h | h <;> rw [h] <;>
      exact ⟨by decide, by decide, by decide⟩
  · exact absurd hc hne

theorem vElt_ins_ne {cell : Buf} {sr r : Nat}
    (hfit : InjectFits (s2l "w:tc") cell (vElt sr r)) :
    (injectSplit cell (vElt sr r)).2.2 ≠ [] := by
  intro hnil
  rcases injectSplit_nil hnil with he | hp
  · rcases vElt_cases sr r with h | h <;> rw [h] at he <;> exact absurd he (by decide)
  · have h1 := hfit.1
    rw [hp, openEx_length] at h1
    omega

theorem vElt_modCell_props {cell : Buf} {sr r : Nat}
    (hcell : CellWF (s2l "w:tc") cell)
    (htr : NoOcc (closeT (s2l "w:tr")) cell)
    (htbl : NoOcc (closeT (s2l "w:tbl")) cell)
    (hfit : InjectFits (s2l "w:tc") cell (vElt sr r)) :
    CellWF (s2l "w:tc") (injectTcPrElement cell (vElt sr r)) ∧
    NoOcc (closeT (s2l "w:tr")) (injectTcPrElement cell (vElt sr r)) ∧
    NoOcc (closeT (s2l "w:tbl")) (injectTcPrElement cell (vElt sr r)) ∧
    (∃ i, occAt (vElt sr r) (injectTcPrElement cell (vElt sr r)) i) := by
  have hne := vElt_ins_ne hfit
  obtain ⟨hinsok, htrins, htblins⟩ := vElt_ins_props hne
  obtain ⟨hhead, hnoE, hnoA, hnoC, htail⟩ := hinsok
  refine ⟨injectTcPr_cellWF (by decide) (by decide) hcell
    ⟨hhead, hnoE, hnoA, hnoC, htail⟩ hfit, ?_, ?_, injectTcPr_contains hne⟩
  · have hct : closeT (s2l "w:tr") = '<' :: ('/' :: (s2l "w:tr" ++ ['>'])) := rfl
    rw [hct] at htr htrins ⊢
    exact injectTcPr_noOccPat (by decide) (by decide) htr htrins hhead htail
  · have hct : closeT (s2l "w:tbl") = '<' :: ('/' :: (s2l "w:tbl" ++ ['>'])) := rfl
    rw [hct] at htbl htblins ⊢
    exact injectTcPr_noOccPat (by decide) (by decide) htbl htblins hhead htail

theorem modRow_props {preR postR : Buf} {cells : List Buf} {col sr r : Nat}
    (hrowseg : SegWF (s2l "w:tc") preR cells postR)
    (hcol1 : 1 ≤ col) (hcol2 : col ≤ cells.length)
    (hopenR : occAt (openEx (s2l "w:tr")) preR 0 ∨ occAt (openAt (s2l "w:tr")) preR 0)
    (hcTrPre : NoOcc (closeT (s2l "w:tr")) preR)
    (hcTrCells : ∀ c ∈ cells, NoOcc (closeT (s2l "w:tr")) c)
    (hplenR : (closeT (s2l "w:tr")).length ≤ postR.length)
    (hpfirstR : firstIdx (closeT (s2l "w:tr")) postR =
      some (postR.length - (closeT (s2l "w:tr")).length))
    (hcTblPre : NoOcc (closeT (s2l "w:tbl")) preR)
    (hcTblCells : ∀ c ∈ cells, NoOcc (closeT (s2l "w:tbl")) c)
    (hcTblPost : NoOcc (closeT (s2l "w:tbl")) postR)
    (hfit : InjectFits (s2l "w:tc") (cells.getD (col - 1) []) (vElt sr r)) :
    CellWF (s2l "w:tr") (assemble preR (cells.take (col - 1) ++
      injectTcPrElement (cells.getD (col - 1) []) (vElt sr r) :: cells.drop col)
      postR) ∧
    NoOcc (closeT (s2l "w:tbl")) (assemble preR (cells.take (col - 1) ++
      injectTcPrElement (cells.getD (col - 1) []) (vElt sr r) :: cells.drop col)
      postR) ∧
    SegWF (s2l "w:tc") preR (cells.take (col - 1) ++
      injectTcPrElement (cells.getD (col - 1) []) (vElt sr r) :: cells.drop col)
      postR ∧
    (cells.take (col - 1) ++
      injectTcPrElement (cells.getD (col - 1) []) (vElt sr r) ::
        cells.drop col).length = cells.length := by
  have hcol3 : col - 1 < cells.length := by omega
  have hmem : cells.getD (col - 1) [] ∈ cells := by
    rw [getD_eq_get cells (col - 1) hcol3]
    exact List.get_mem cells _ hcol3
  have hcellWF := hrowseg.2.1 _ hmem
  obtain ⟨hmodWF, hmodTr, hmodTbl, _⟩ := vElt_modCell_props hcellWF
    (hcTrCells _ hmem) (hcTblCells _ hmem) hfit
  have hco : col - 1 + 1 = col := by omega
  have hmemc : ∀ c ∈ cells.take (col - 1) ++
      injectTcPrElement (cells.getD (col - 1) []) (vElt sr r) :: cells.drop col,
      c = injectTcPrElement (cells.getD (col - 1) []) (vElt sr r) ∨ c ∈ cells := by
    intro c hc
    rw [← hco] at hc
    exact mid_mem hc
  have hcellsWF : ∀ c ∈ cells.take (col - 1) ++
      injectTcPrElement (cells.getD (col - 1) []) (vElt sr r) :: cells.drop col,
      CellWF (s2l "w:tc") c := by
    intro c hc
    rcases hmemc c hc with rfl | hc2
    · exact hmodWF
    · exact hrowseg.2.1 c hc2
  have hheads : LtHeads (cells.take (col - 1) ++
      injectTcPrElement (cells.getD (col - 1) []) (vElt sr r) :: cells.drop col) :=
    fun c hc => cellWF_head (hcellsWF c hc)
  have hphead : postR.head? = some '<' := by
    rcases hrowseg.2.2.2 with h | h
    · rw [h] at hplenR
      rw [closeT_length] at hplenR
      simp at hplenR
    · exact h
  refine ⟨?_, ?_, ?_, ?_⟩
  · exact nestWF_cellWF (by decide) hopenR hcTrPre
      (fun c hc => by
        rcases hmemc c hc with rfl | hc2
        · exact hmodTr
        · exact hcTrCells c hc2)
      hheads hplenR hpfirstR hphead
  · have hct : closeT (s2l "w:tbl") = '<' :: ('/' :: (s2l "w:tbl" ++ ['>'])) := rfl
    rw [hct]
    refine noOcc_assemble (by decide) (by rw [hct] at hcTblPre; exact hcTblPre)
      (fun c hc => by
        rcases hmemc c hc with rfl | hc2
        · rw [hct] at hmodTbl; exact hmodTbl
        · rw [← hct]; exact hcTblCells c hc2)
      hheads (by rw [hct] at hcTblPost; exact hcTblPost) (Or.inr hphead)
  · exact ⟨hrowseg.1, hcellsWF, hrowseg.2.2.1, hrowseg.2.2.2⟩
  · rw [← hco]
    exact mid_length cells _ (col - 1) hcol3

theorem vmergeLoop_seg
    {preD postD preT postT : Buf} {tbls rows : List Buf}
    {preR postR : Nat → Buf} {cellsR : Nat → List Buf}
    {ti col sr er : Nat}
    (hdoc : SegWF (s2l "w:tbl") preD tbls postD)
    (hti1 : 1 ≤ ti) (hti2 : ti ≤ tbls.length)
    (hopenT : occAt (openEx (s2l "w:tbl")) preT 0 ∨ occAt (openAt (s2l "w:tbl")) preT 0)
    (hpreT : NoOcc (closeT (s2l "w:tbl")) preT)
    (hplenT : (closeT (s2l "w:tbl")).length ≤ postT.length)
    (hpfirstT : firstIdx (closeT (s2l "w:tbl")) postT =
      some (postT.length - (closeT (s2l "w:tbl")).length))
    (hpheadT : postT.head? = some '<')
    (hsr1 : 1 ≤ sr)
    (hcol1 : 1 ≤ col)
    (her : er ≤ rows.length)
    (hrowv : ∀ r, sr ≤ r → r ≤ er → rows.getD (r - 1) [] =
      assemble (preR r) (cellsR r) (postR r))
    (hrowseg : ∀ r, sr ≤ r → r ≤ er → SegWF (s2l "w:tc") (preR r) (cellsR r) (postR r))
    (hcol2 : ∀ r, sr ≤ r → r ≤ er → col ≤ (cellsR r).length)
    (hfit : ∀ r, sr ≤ r → r ≤ er →
      InjectFits (s2l "w:tc") ((cellsR r).getD (col - 1) []) (vElt sr r))
    (hopenR : ∀ r, sr ≤ r → r ≤ er →
      occAt (openEx (s2l "w:tr")) (preR r) 0 ∨ occAt (openAt (s2l "w:tr")) (preR r) 0)
    (hcTrPre : ∀ r, sr ≤ r → r ≤ er → NoOcc (closeT (s2l "w:tr")) (preR r))
    (hcTrCells : ∀ r, sr ≤ r → r ≤ er → ∀ c ∈ cellsR r, NoOcc (closeT (s2l "w:tr")) c)
    (hplenR : ∀ r, sr ≤ r → r ≤ er → (closeT (s2l "w:tr")).length ≤ (postR r).length)
    (hpfirstR : ∀ r, sr ≤ r → r ≤ er → firstIdx (closeT (s2l "w:tr")) (postR r) =
      some ((postR r).length - (closeT (s2l "w:tr")).length))
    (hcTblPre : ∀ r, sr ≤ r → r ≤ er → NoOcc (closeT (s2l "w:tbl")) (preR r))
    (hcTblCells : ∀ r, sr ≤ r → r ≤ er → ∀ c ∈ cellsR r, NoOcc (closeT (s2l "w:tbl")) c)
    (hcTblPost : ∀ r, sr ≤ r → r ≤ er → NoOcc (closeT (s2l "w:tbl")) (postR r)) :
    ∀ n r rowsCur, sr ≤ r → r + n = er + 1 →
      rowsCur.length = rows.length →
      (∀ k, r - 1 ≤ k → rowsCur.getD k [] = rows.getD k []) →
      SegWF (s2l "w:tr") preT rowsCur postT →
      (∀ row ∈ rowsCur, NoOcc (closeT (s2l "w:tbl")) row) →
      ∃ newRows,
        vmergeLoop ti col sr (List.range' r n)
          (assemble preD (tbls.take (ti - 1) ++
            (assemble preT rowsCur postT) :: tbls.drop ti) postD) =
          .ok (assemble preD (tbls.take (ti - 1) ++
            (assemble preT newRows postT) :: tbls.drop ti) postD) ∧
        newRows.length = rowsCur.length ∧
        (∀ k, k < r - 1 → newRows.getD k [] = rowsCur.getD k []) ∧
        (∀ k, er ≤ k → newRows.getD k [] = rowsCur.getD k []) ∧
        (∀ rr, r ≤ rr → rr ≤ er → newRows.getD (rr - 1) [] =
          assemble (preR rr) ((cellsR rr).take (col - 1) ++
            injectTcPrElement ((cellsR rr).getD (col - 1) []) (vElt sr rr) ::
            (cellsR rr).drop col) (postR rr)) := by
  intro n
  induction n with
  | zero =>
    intro r rowsCur hr hrn hlen hsame hseg hnoocc
    refine ⟨rowsCur, ?_, rfl, fun k _ => rfl, fun k _ => rfl,
      fun rr h1 h2 => by omega⟩
    simp [vmergeLoop, List.range']
  | succ n ih =>
    intro r rowsCur hr hrn hlen hsame hseg hnoocc
    have hrer : r ≤ er := by omega
    have hr1 : 1 ≤ r := by omega
    have hti3 : ti - 1 < tbls.length := by omega
    have hcoT : ti - 1 + 1 = ti := by omega
    have hcoR : r - 1 + 1 = r := by omega
    have hrlen : r ≤ rowsCur.length := by omega
    have hr3 : r - 1 < rowsCur.length := by omega
    have hcur : rowsCur.getD (r - 1) [] = assemble (preR r) (cellsR r) (postR r) := by
      rw [hsame (r - 1) (le_refl _)]
      exact hrowv r hr hrer
    have htblCurWF : CellWF (s2l "w:tbl") (assemble preT rowsCur postT) :=
      nestWF_cellWF (by decide) hopenT hpreT hnoocc (segWF_ltHeads hseg)
        hplenT hpfirstT hpheadT
    have htlist : tbls.take (ti - 1) ++ (assemble preT rowsCur postT) :: tbls.drop ti =
        tbls.take (ti - 1) ++ (assemble preT rowsCur postT) ::
          tbls.drop (ti - 1 + 1) := by
      rw [hcoT]
    have hdocCur : SegWF (s2l "w:tbl") preD
        (tbls.take (ti - 1) ++ (assemble preT rowsCur postT) :: tbls.drop ti)
        postD := by
      refine ⟨hdoc.1, ?_, hdoc.2.2.1, hdoc.2.2.2⟩
      intro c hc
      rw [htlist] at hc
      rcases mid_mem hc with rfl | hc2
      · exact htblCurWF
      · exact hdoc.2.1 c hc2
    have htlenCur : (tbls.take (ti - 1) ++
        (assemble preT rowsCur postT) :: tbls.drop ti).length = tbls.length := by
      have h := mid_length tbls (assemble preT rowsCur postT) (ti - 1) hti3
      rw [hcoT] at h
      exact h
    have htvCur : (tbls.take (ti - 1) ++
        (assemble preT rowsCur postT) :: tbls.drop ti).getD (ti - 1) [] =
        assemble preT rowsCur postT := by
      have h := mid_getD_self tbls (assemble preT rowsCur postT) (ti - 1) (by omega)
      rw [hcoT] at h
      exact h
    have hstep := vmergeStep_seg (vElt sr r) hdocCur hseg
      (hrowseg r hr hrer) hti1 (by omega) hr1 (by omega) hcol1
      (hcol2 r hr hrer) htvCur hcur
    obtain ⟨hmrWF, hmrTbl, hmrSeg, hmrLen⟩ := modRow_props (hrowseg r hr hrer)
      hcol1 (hcol2 r hr hrer) (hopenR r hr hrer) (hcTrPre r hr hrer)
      (hcTrCells r hr hrer) (hplenR r hr hrer) (hpfirstR r hr hrer)
      (hcTblPre r hr hrer) (hcTblCells r hr hrer) (hcTblPost r hr hrer)
      (hfit r hr hrer)
    set modRow := assemble (preR r) ((cellsR r).take (col - 1) ++
      injectTcPrElement ((cellsR r).getD (col - 1) []) (vElt sr r) ::
      (cellsR r).drop col) (postR r) with hmodRow
    set rowsCur2 := rowsCur.take (r - 1) ++ modRow :: rowsCur.drop r with hrows2
    have hrlist : rowsCur.take (r - 1) ++ modRow :: rowsCur.drop r =
        rowsCur.take (r - 1) ++ modRow :: rowsCur.drop (r - 1 + 1) := by
      rw [hcoR]
    have hstep2 : vmergeStep (assemble preD (tbls.take (ti - 1) ++
        (assemble preT rowsCur postT) :: tbls.drop ti) postD) ti r col
        (vElt sr r) =
        .ok (assemble preD (tbls.take (ti - 1) ++
          (assemble preT rowsCur2 postT) :: tbls.drop ti) postD) := by
      rw [hstep]
      have htk := mid_take tbls (assemble preT rowsCur postT) (ti - 1) (by omega)
      rw [hcoT] at htk
      have hdr := mid_drop tbls (assemble preT rowsCur postT) (ti - 1) (by omega)
      rw [hcoT] at hdr
      rw [htk, hdr]
    have hlen2 : rowsCur2.length = rows.length := by
      rw [hrows2]
      have h := mid_length rowsCur modRow (r - 1) hr3
      rw [hcoR] at h
      rw [h]
      exact hlen
    have hgt2 : ∀ k, r - 1 < k → rowsCur2.getD k [] = rowsCur.getD k [] := by
      intro k hk
      rw [hrows2]
      have h := mid_getD_gt rowsCur modRow hk (by omega)
      rw [hcoR] at h
      exact h
    have hlt2 : ∀ k, k < r - 1 → rowsCur2.getD k [] = rowsCur.getD k [] := by
      intro k hk
      rw [hrows2]
      have h := mid_getD_lt rowsCur modRow hk (by omega)
      rw [hcoR] at h
      exact h
    have hself2 : rowsCur2.getD (r - 1) [] = modRow := by
      rw [hrows2]
      have h := mid_getD_self rowsCur modRow (r - 1) (by omega)
      rw [hcoR] at h
      exact h
    have hmem2 : ∀ c ∈ rowsCur2, c = modRow ∨ c ∈ rowsCur := by
      intro c hc
      rw [hrows2, hrlist] at hc
      exact mid_mem hc
    have hsame2 : ∀ k, (r + 1) - 1 ≤ k → rowsCur2.getD k [] = rows.getD k [] := by
      intro k hk
      rw [hgt2 k (by omega)]
      exact hsame k (by omega)
    have hseg2 : SegWF (s2l "w:tr") preT rowsCur2 postT := by
      refine ⟨hseg.1, ?_, hseg.2.2.1, hseg.2.2.2⟩
      intro c hc
      rcases hmem2 c hc with rfl | hc2
      · exact hmrWF
      · exact hseg.2.1 c hc2
    have hnoocc2 : ∀ row ∈ rowsCur2, NoOcc (closeT (s2l "w:tbl")) row := by
      intro c hc
      rcases hmem2 c hc with rfl | hc2
      · exact hmrTbl
      · exact hnoocc c hc2
    obtain ⟨newRows, hloop, hnlen, hnlt, hnge, hnmod⟩ :=
      ih (r + 1) rowsCur2 (by omega) (by omega) hlen2 hsame2 hseg2 hnoocc2
    refine ⟨newRows, ?_, ?_, ?_, ?_, ?_⟩
    · have hrange : List.range' r (n + 1) = r :: List.range' (r + 1) n := rfl
      rw [hrange]
      have hif : (if r = sr then vMergeRestart else vMergeCont) = vElt sr r := rfl
      simp only [vmergeLoop, hif]
      rw [hstep2]
      exact hloop
    · rw [hnlen, hlen2, hlen]
    · intro k hk
      rw [hnlt k (by omega)]
      exact hlt2 k hk
    · intro k hk
      rw [hnge k hk]
      exact hgt2 k (by omega)
    · intro rr hrr1 hrr2
      by_cases hrreq : rr = r
      · subst hrreq
        rw [hnlt (rr - 1) (by omega)]
        exact hself2
      · exact hnmod rr (by omega) hrr2

/-- C4: vertical merge on a well-formed three-level table structure.  The
start-row cell is annotated with the vMerge restart marker and every
subsequent row's cell with the plain vMerge continuation marker; every
merged row keeps its full cell count (so the merged column still has
`er - sr + 1` cells, one per row); rows outside the range are
byte-identical; and each cell modification only inserts bytes (the sole
removed span, when present, is the pure-markup self-closing `<w:tcPr/>`
tag), so all original cell text content is still present. -/
theorem mergeVertical_spec
    {preD postD preT postT : Buf} {tbls rows : List Buf}
    {preR postR : Nat → Buf} {cellsR : Nat → List Buf}
    {ti col sr er : Nat}
    (hdoc : SegWF (s2l "w:tbl") preD tbls postD)
    (hti1 : 1 ≤ ti) (hti2 : ti ≤ tbls.length)
    (hopenT : occAt (openEx (s2l "w:tbl")) preT 0 ∨ occAt (openAt (s2l "w:tbl")) preT 0)
    (hpreT : NoOcc (closeT (s2l "w:tbl")) preT)
    (hplenT : (closeT (s2l "w:tbl")).length ≤ postT.length)
    (hpfirstT : firstIdx (closeT (s2l "w:tbl")) postT =
      some (postT.length - (closeT (s2l "w:tbl")).length))
    (hpheadT : postT.head? = some '<')
    (hsr1 : 1 ≤ sr)
    (hcol1 : 1 ≤ col)
    (her : er ≤ rows.length)
    (hrowv : ∀ r, sr ≤ r → r ≤ er → rows.getD (r - 1) [] =
      assemble (preR r) (cellsR r) (postR r))
    (hrowseg : ∀ r, sr ≤ r → r ≤ er → SegWF (s2l "w:tc") (preR r) (cellsR r) (postR r))
    (hcol2 : ∀ r, sr ≤ r → r ≤ er → col ≤ (cellsR r).length)
    (hfit : ∀ r, sr ≤ r → r ≤ er →
      InjectFits (s2l "w:tc") ((cellsR r).getD (col - 1) []) (vElt sr r))
    (hopenR : ∀ r, sr ≤ r → r ≤ er →
      occAt (openEx (s2l "w:tr")) (preR r) 0 ∨ occAt (openAt (s2l "w:tr")) (preR r) 0)
    (hcTrPre : ∀ r, sr ≤ r → r ≤ er → NoOcc (closeT (s2l "w:tr")) (preR r))
    (hcTrCells : ∀ r, sr ≤ r → r ≤ er → ∀ c ∈ cellsR r, NoOcc (closeT (s2l "w:tr")) c)
    (hplenR : ∀ r, sr ≤ r → r ≤ er → (closeT (s2l "w:tr")).length ≤ (postR r).length)
    (hpfirstR : ∀ r, sr ≤ r → r ≤ er → firstIdx (closeT (s2l "w:tr")) (postR r) =
      some ((postR r).length - (closeT (s2l "w:tr")).length))
    (hcTblPre : ∀ r, sr ≤ r → r ≤ er → NoOcc (closeT (s2l "w:tbl")) (preR r))
    (hcTblCells : ∀ r, sr ≤ r → r ≤ er → ∀ c ∈ cellsR r, NoOcc (closeT (s2l "w:tbl")) c)
    (hcTblPost : ∀ r, sr ≤ r → r ≤ er → NoOcc (closeT (s2l "w:tbl")) (postR r))
    (htblv : tbls.getD (ti - 1) [] = assemble preT rows postT)
    (htblseg : SegWF (s2l "w:tr") preT rows postT)
    (hrowsTbl : ∀ row ∈ rows, NoOcc (closeT (s2l "w:tbl")) row)
    (hsrer : sr < er) :
    vElt sr sr = vMergeRestart ∧
    (∀ r, r ≠ sr → vElt sr r = vMergeCont) ∧
    (∀ cell elt, injectTcPrElement cell elt =
        cell.take (injectSplit cell elt).1 ++ (injectSplit cell elt).2.2 ++
          cell.drop ((injectSplit cell elt).1 + (injectSplit cell elt).2.1) ∧
      ((injectSplit cell elt).2.1 = 0 ∨
        ((injectSplit cell elt).2.1 = 9 ∧
          extractSpan cell (injectSplit cell elt).1
            ((injectSplit cell elt).1 + (injectSplit cell elt).2.1) =
            s2l "<w:tcPr/>"))) ∧
    ∃ newRows,
      mergeTableCellsVertical (assemble preD tbls postD) ti sr er col =
        .ok (assemble preD (tbls.take (ti - 1) ++
          (assemble preT newRows postT) :: tbls.drop ti) postD) ∧
      newRows.length = rows.length ∧
      (∀ k, k < sr - 1 → newRows.getD k [] = rows.getD k []) ∧
      (∀ k, er ≤ k → newRows.getD k [] = rows.getD k []) ∧
      (∀ r, sr ≤ r → r ≤ er →
        newRows.getD (r - 1) [] =
          assemble (preR r) ((cellsR r).take (col - 1) ++
            injectTcPrElement ((cellsR r).getD (col - 1) []) (vElt sr r) ::
            (cellsR r).drop col) (postR r) ∧
        blockCount (newRows.getD (r - 1) []) (s2l "w:tc") = (cellsR r).length ∧
        (∃ i, occAt (vElt sr r)
          (injectTcPrElement ((cellsR r).getD (col - 1) []) (vElt sr r)) i)) := by
  refine ⟨by simp [vElt], fun r h => by simp [vElt, h],
    fun cell elt => ⟨injectTcPr_eq_split cell elt, injectSplit_d_cases cell elt⟩, ?_⟩
  have hcoT : ti - 1 + 1 = ti := by omega
  have hrecon : tbls = tbls.take (ti - 1) ++
      (assemble preT rows postT) :: tbls.drop ti := by
    have h := list_mid_recon tbls (ti - 1) (by omega)
    rw [hcoT, htblv] at h
    exact h
  obtain ⟨newRows, hloopEq, hnlen, hnlt, hnge, hnmod⟩ :=
    vmergeLoop_seg hdoc hti1 hti2 hopenT hpreT hplenT hpfirstT hpheadT hsr1
      hcol1 her hrowv hrowseg hcol2 hfit hopenR hcTrPre hcTrCells hplenR
      hpfirstR hcTblPre hcTblCells hcTblPost (er - sr + 1) sr rows (le_refl sr)
      (by omega) rfl (fun k _ => rfl) htblseg hrowsTbl
  refine ⟨newRows, ?_, hnlen, hnlt, hnge, ?_⟩
  · unfold mergeTableCellsVertical
    rw [if_neg (by omega)]
    have hstate : assemble preD tbls postD = assemble preD (tbls.take (ti - 1) ++
        (assemble preT rows postT) :: tbls.drop ti) postD := by
      conv_lhs => rw [hrecon]
    rw [hstate]
    exact hloopEq
  · intro r h1 h2
    have hcol3 : col - 1 < (cellsR r).length := by
      have := hcol2 r h1 h2
      omega
    have hmem : (cellsR r).getD (col - 1) [] ∈ cellsR r := by
      rw [getD_eq_get _ _ hcol3]
      exact List.get_mem _ _ hcol3
    obtain ⟨_, _, _, hocc⟩ := vElt_modCell_props ((hrowseg r h1 h2).2.1 _ hmem)
      (hcTrCells r h1 h2 _ hmem) (hcTblCells r h1 h2 _ hmem) (hfit r h1 h2)
    obtain ⟨_, _, hmrSeg, hmrLen⟩ := modRow_props (hrowseg r h1 h2) hcol1
      (hcol2 r h1 h2) (hopenR r h1 h2) (hcTrPre r h1 h2) (hcTrCells r h1 h2)
      (hplenR r h1 h2) (hpfirstR r h1 h2) (hcTblPre r h1 h2)
      (hcTblCells r h1 h2) (hcTblPost r h1 h2) (hfit r h1 h2)
    refine ⟨hnmod r h1 h2, ?_, hocc⟩
    rw [hnmod r h1 h2]
    rw [(blockCount_assemble (by decide) hmrSeg).1, hmrLen]

set_option maxRecDepth 400000 in
/-- Witness for C4 on a concrete one-table, two-row, one-column document:
merging rows 1..2 of column 1 succeeds, produces two rows, annotates row 1
with the restart marker and row 2 with the continuation marker. -/
theorem mergeVertical_spec_witness :
    ∃ newRows,
      mergeTableCellsVertical
        (assemble (s2l "<w:document><w:body>") [tblC4]
          (s2l "</w:body></w:document>")) 1 1 2 1 =
        .ok (assemble (s2l "<w:document><w:body>") ([tblC4].take 0 ++
          (assemble (s2l "<w:tbl>") newRows (s2l "</w:tbl>")) :: [tblC4].drop 1)
          (s2l "</w:body></w:document>")) ∧
      newRows.length = 2 ∧
      (∀ r, 1 ≤ r → r ≤ 2 →
        blockCount (newRows.getD (r - 1) []) (s2l "w:tc") = 1 ∧
        (∃ i, occAt (vElt 1 r)
          (injectTcPrElement ((cellsRC4 r).getD 0 []) (vElt 1 r)) i)) := by
  obtain ⟨hm1, hm2, hm3, newRows, hok, hlen, hlt, hge, hmod⟩ :=
    @mergeVertical_spec (s2l "<w:document><w:body>") (s2l "</w:body></w:document>")
      (s2l "<w:tbl>") (s2l "</w:tbl>") [tblC4] [rowC4 1, rowC4 2]
      (fun _ => s2l "<w:tr>") (fun _ => s2l "</w:tr>") cellsRC4 1 1 1 2
      (by decide) (by decide) (by decide) (by decide) (by decide) (by decide)
      (by decide) (by decide) (by decide) (by decide) (by decide)
      (by intro r h1 h2; interval_cases r <;> rfl)
      (by intro r h1 h2; interval_cases r <;> decide)
      (by intro r h1 h2; interval_cases r <;> decide)
      (by intro r h1 h2; interval_cases r <;> decide)
      (by intro r h1 h2; interval_cases r <;> decide)
      (by intro r h1 h2; interval_cases r <;> decide)
      (by intro r h1 h2; interval_cases r <;> decide)
      (by intro r h1 h2; interval_cases r <;> decide)
      (by intro r h1 h2; interval_cases r <;> decide)
      (by intro r h1 h2; interval_cases r <;> decide)
      (by intro r h1 h2; interval_cases r <;> decide)
      (by intro r h1 h2; interval_cases r <;> decide)
      rfl (by decide) (by decide) (by decide)
  refine ⟨newRows, hok, by rw [hlen]; rfl, ?_⟩
  intro r h1 h2
  obtain ⟨heq, hbc, hocc⟩ := hmod r h1 h2
  refine ⟨?_, hocc⟩
  rw [hbc]
  interval_cases r <;> rfl

/-- C6 (amended): registering the same target twice.  The first call on a
buffer not containing the filename splices exactly one relationship
element before the closing tag and allocates an id; the second call finds
the filename present, leaves the buffer byte-identical, and returns no id
at all — so the two calls do not both return an id, let alone the same
one. -/
theorem addNoteRelationship_twice (rels filename relType : Buf) (j : Nat)
    (hfresh : firstIdx filename rels = none)
    (hclose : firstIdx (s2l "</Relationships>") rels = some j) :
    ∃ relID,
      addNoteRelationship rels filename relType =
        (rels.take j ++ relEntry relID relType filename ++
          (s2l "</Relationships>" ++ rels.drop (j + 16)), some relID) ∧
      addNoteRelationship
        (rels.take j ++ relEntry relID relType filename ++
          (s2l "</Relationships>" ++ rels.drop (j + 16))) filename relType =
        (rels.take j ++ relEntry relID relType filename ++
          (s2l "</Relationships>" ++ rels.drop (j + 16)), none) := by
  refine ⟨getNextRelIDFromFile rels, ?_, ?_⟩
  · have hc : containsSub rels filename = false := by
      simp [containsSub, hfresh]
    have h16 : (s2l "</Relationships>").length = 16 := rfl
    simp [addNoteRelationship, hc, strReplace1, hclose, h16, List.append_assoc]
  · set relID := getNextRelIDFromFile rels
    set pre1 := s2l "<Relationship Id=\"" ++ relID ++
      s2l "\" Type=\"http://schemas.openxmlformats.org/officeDocument/2006/relationships/" ++
      relType ++ s2l "\" Target=\"" with hpre1
    have hre : relEntry relID relType filename =
        pre1 ++ (filename ++ s2l "\"/>") := by
      rw [hpre1]
      simp [relEntry, List.append_assoc]
    have hocc1 : occAt filename (relEntry relID relType filename) pre1.length := by
      rw [hre]
      unfold occAt
      rw [List.drop_left]
      exact ⟨s2l "\"/>", rfl⟩
    set L := rels.take j ++ relEntry relID relType filename ++
      (s2l "</Relationships>" ++ rels.drop (j + 16)) with hL
    have hocc2 : occAt filename L ((rels.take j).length + pre1.length) := by
      rw [hL]
      exact occAt_append_left _ (occAt_append_right _ hocc1)
    obtain ⟨i0, hi0, _⟩ := firstIdx_exists_of_occ hocc2
    have hc : containsSub L filename = true := by
      simp [containsSub, hi0]
    simp [addNoteRelationship, hc]

set_option maxRecDepth 100000 in
/-- Witness for C6 (amended): on the empty relationships manifest the
first registration inserts the entry, the second call leaves the buffer
byte-identical and returns no id. -/
theorem addNoteRelationship_twice_witness :
    ∃ rels1 relID,
      addNoteRelationship relsC6 (s2l "footnotes.xml") (s2l "footnotes") =
        (rels1, some relID) ∧
      addNoteRelationship rels1 (s2l "footnotes.xml") (s2l "footnotes") =
        (rels1, none) := by
  obtain ⟨relID, h1, h2⟩ := addNoteRelationship_twice relsC6 (s2l "footnotes.xml")
    (s2l "footnotes") 15 (by decide) (by decide)
  exact ⟨_, relID, h1, h2⟩

set_option maxRecDepth 400000 in
/-- Counterexample for C6 as stated: the registration operation does not
return the same relationship id both times — the first call issues
`rId1`, the second call issues and returns no id whatsoever (the Go
method's early return carries only a nil error).  The amended guarantees
hold: the final buffer carries exactly one `Target="footnotes.xml"`
entry. -/
theorem addNoteRelationship_no_second_id :
    (addNoteRelationship relsC6 (s2l "footnotes.xml") (s2l "footnotes")).2 =
      some (s2l "rId1") ∧
    (addNoteRelationship
      (addNoteRelationship relsC6 (s2l "footnotes.xml") (s2l "footnotes")).1
      (s2l "footnotes.xml") (s2l "footnotes")).2 = none ∧
    patCount (s2l "Target=\"footnotes.xml\"")
      ((addNoteRelationship relsC6 (s2l "footnotes.xml") (s2l "footnotes")).1.length + 1)
      (addNoteRelationship relsC6 (s2l "footnotes.xml") (s2l "footnotes")).1 = 1 :=
  ⟨by decide, by decide, by decide⟩

theorem anchorScanAux_spec (docXML anchor : Buf) : ∀ fuel n0 ps pe,
    anchorScanAux docXML anchor fuel n0 = .ok (ps, pe) →
    ∃ n, n0 ≤ n ∧ findNthXMLBlock docXML (s2l "w:p") n = .ok (ps, pe) ∧
      containsSub (wtText (extractSpan docXML ps pe)) anchor = true ∧
      ∀ m s e, n0 ≤ m → m < n → findNthXMLBlock docXML (s2l "w:p") m = .ok (s, e) →
        containsSub (wtText (extractSpan docXML s e)) anchor = false := by
  intro fuel
  induction fuel with
  | zero => intro n0 ps pe h; simp [anchorScanAux] at h
  | succ fuel ih =>
    intro n0 ps pe h
    cases hf : findNthXMLBlock docXML (s2l "w:p") n0 with
    | error e => simp [anchorScanAux, hf] at h
    | ok sp =>
      obtain ⟨s0, e0⟩ := sp
      cases hb : containsSub (wtText (extractSpan docXML s0 e0)) anchor with
      | true =>
        simp [anchorScanAux, hf, hb] at h
        obtain ⟨rfl, rfl⟩ := h
        exact ⟨n0, le_refl n0, hf, hb, fun m s e hm1 hm2 _ => by omega⟩
      | false =>
        simp [anchorScanAux, hf, hb] at h
        obtain ⟨n, hn1, hn2, hn3, hn4⟩ := ih (n0 + 1) ps pe h
        refine ⟨n, by omega, hn2, hn3, ?_⟩
        intro m s e hm1 hm2 hfm
        by_cases hm0 : m = n0
        · subst hm0
          rw [hfm] at hf
          obtain ⟨rfl, rfl⟩ : s = s0 ∧ e = e0 := by
            have h1 := congrArg (fun x => match x with | .ok p => p | .error _ => (0, 0)) hf
            simp at h1
            exact ⟨h1.1, h1.2⟩
          exact hb
        · exact hn4 m s e (by omega) hm2 hfm

/-- C8: anchor resolution over run-concatenated paragraph text.  A
successful resolution names a paragraph ordinal whose block span is
returned, whose run-concatenated plain text contains the anchor, and
every earlier paragraph's concatenation does not contain it. -/
theorem findParagraphRangeByAnchor_spec (docXML anchor : Buf) (ps pe : Nat)
    (h : findParagraphRangeByAnchor docXML anchor = .ok (ps, pe)) :
    ∃ n, 1 ≤ n ∧ findNthXMLBlock docXML (s2l "w:p") n = .ok (ps, pe) ∧
      containsSub (wtText (extractSpan docXML ps pe)) anchor = true ∧
      ∀ m s e, 1 ≤ m → m < n → findNthXMLBlock docXML (s2l "w:p") m = .ok (s, e) →
        containsSub (wtText (extractSpan docXML s e)) anchor = false :=
  anchorScanAux_spec docXML anchor (docXML.length + 1) 1 ps pe h

set_option maxRecDepth 400000 in
/-- Witness for C8: the anchor `lo Wor`, which straddles the `Hello`,
` Wo` and `rld` run boundaries, resolves to the second paragraph's span,
whose run concatenation is `Hello World`. -/
theorem findParagraphRangeByAnchor_spec_witness :
    wtText (extractSpan docC8 57 145) = s2l "Hello World" ∧
    (∃ n, 1 ≤ n ∧ findNthXMLBlock docC8 (s2l "w:p") n = .ok (57, 145) ∧
      containsSub (wtText (extractSpan docC8 57 145)) (s2l "lo Wor") = true ∧
      ∀ m s e, 1 ≤ m → m < n → findNthXMLBlock docC8 (s2l "w:p") m = .ok (s, e) →
        containsSub (wtText (extractSpan docC8 s e)) (s2l "lo Wor") = false) :=
  ⟨by rfl, findParagraphRangeByAnchor_spec docC8 (s2l "lo Wor") 57 145 (by rfl)⟩

/-- C9: a multi-step operation that fails partway through leaves the part
in its pre-operation state: the exported vertical merge computes the new
content on a copy of the stored bytes and commits only on full success, so
whenever it reports an error the stored document bytes are unchanged. -/
theorem mergeVertical_failure_preserves_state
    (st : Updater) (tableIndex startRow endRow col : Int) (e : OpErr)
    (h : (MergeTableCellsVerticalOp (some st) tableIndex startRow endRow col).2 = some e) :
    (MergeTableCellsVerticalOp (some st) tableIndex startRow endRow col).1 = some st := by
  by_cases h1 : tableIndex < 1
  · simp [MergeTableCellsVerticalOp, h1]
  · by_cases h2 : col < 1
    · simp [MergeTableCellsVerticalOp, h1, h2]
    · by_cases h3 : startRow < 1
      · simp [MergeTableCellsVerticalOp, h1, h2, h3]
      · by_cases h4 : endRow ≤ startRow
        · simp [MergeTableCellsVerticalOp, h1, h2, h3, h4]
        · cases hm : mergeTableCellsVertical st.document tableIndex.toNat
            startRow.toNat endRow.toNat col.toNat with
          | error e2 => simp [MergeTableCellsVerticalOp, h1, h2, h3, h4, hm]
          | ok upd =>
            exfalso
            simp [MergeTableCellsVerticalOp, h1, h2, h3, h4, hm] at h

set_option maxRecDepth 100000 in
/-- Witness for C9: merging rows 1..3 of a two-row table fails at row 3,
and the stored document bytes are exactly the original ones. -/
theorem mergeVertical_failure_preserves_state_witness :
    (MergeTableCellsVerticalOp (some ⟨docC9⟩) 1 1 3 1).2 =
      some (.opFailed (.blockErr (.notFound 2))) ∧
    (MergeTableCellsVerticalOp (some ⟨docC9⟩) 1 1 3 1).1 = some ⟨docC9⟩ :=
  ⟨by decide, mergeVertical_failure_preserves_state ⟨docC9⟩ 1 1 3 1
    (.opFailed (.blockErr (.notFound 2))) (by decide)⟩

/-- C10: invoking an exported operation on a nil receiver returns the
nil-updater error without touching any state: the merge, tracked-change
and count operations all answer `updater is nil` on the nil receiver, for
every argument value. -/
theorem nil_receiver_safe :
    (∀ tableIndex row startCol endCol : Int,
      MergeTableCellsHorizontalOp none tableIndex row startCol endCol =
        (none, some .nilUpdater)) ∧
    (∀ gen insertAt now opts,
      InsertTrackedTextOp gen insertAt now none opts = (none, some .nilUpdater)) ∧
    GetTableCountOp none = (0, some .nilUpdater) :=
  ⟨fun _ _ _ _ => rfl, fun _ _ _ _ => rfl, rfl⟩

end Docx
